import Mathlib

/-!
Verification of the `ied` decompression-bomb generator.

A shallow embedding, in Lean 4, of the core of the `ied` program
(`src/main.rs`, `src/payload.rs`, `src/payload/matrix.rs`,
`src/payload/adler.rs`): the lazy layered payload model, the raw-DEFLATE
synthesizer `deflate_raw`, the closed-form Adler-32 and CRC-32 evaluators
and the GF(2) CRC transition matrix `CrcMatrix`.

Machine integers are modelled as `Nat` with explicit masks / `% 2 ^ w`
where the source can overflow; `BigUint` is `Nat`; fallible operations
(Rust panics: out-of-bounds indexing, `expect`, writing unfilled blocks)
return `Option`.
-/

namespace Ied

/-! ## `CrcMatrix` (from `src/payload.rs`, lines 307-489)

The matrix is stored as 33 rows, each a 33-bit word in a 64-bit cell.
`xor_each_bit` xors the 33 low bits of a word.  `multiply` takes the
*columns* of the right factor.  This is the live copy inside
`payload.rs` (the one `Payload::crc32` uses), whose parity function
`xor_each_bit` is correct; the dead copy in `src/payload/matrix.rs`
with the broken `hamming` is embedded separately further below. -/

/-- `fn xor_each_bit(n: u64) -> u64` from `payload.rs`: xors the 33 low
bits of `n` together, returning 0 or 1. -/
def xor_each_bit (n : Nat) : Nat :=
  (List.range 33).foldl (fun result i => if n &&& (1 <<< i) ≠ 0 then result ^^^ 1 else result) 0

/-- The rows of a `CrcMatrix`: 33 entries, each a 33-bit word. -/
abbrev Rows := List Nat

/-- `CrcMatrix::new()`: the identity matrix, `items[i] = 1 << (32 - i)`. -/
def CrcMatrix.new : Rows :=
  (List.range 33).map (fun i => 1 <<< (32 - i))

/-- `CrcMatrix::multiply(&mut self, matr)`: `matr` is the list of the
columns of the right factor; row `i` of the result is rebuilt bit by
bit, bit `32 - j` being the parity of `row_i & matr[j]`. -/
def CrcMatrix.multiply (items matr : Rows) : Rows :=
  (List.range 33).map (fun i =>
    (List.range 33).foldl
      (fun acc j => acc ||| (xor_each_bit ((items.getD i 0) &&& (matr.getD j 0)) <<< (32 - j)))
      0)

/-- The 33 columns passed by `CrcMatrix::push_0`. -/
def push0cols : Rows :=
  [ 0b100000000000000000000000000000000
  , 0b001000000000000000000000000000000
  , 0b000100000000000000000000000000000
  , 0b000010000000000000000000000000000
  , 0b000001000000000000000000000000000
  , 0b000000100000000000000000000000000
  , 0b000000010000000000000000000000000
  , 0b000000001000000000000000000000000
  , 0b000000000100000000000000000000000
  , 0b000000000010000000000000000000000
  , 0b000000000001000000000000000000000
  , 0b000000000000100000000000000000000
  , 0b000000000000010000000000000000000
  , 0b000000000000001000000000000000000
  , 0b000000000000000100000000000000000
  , 0b000000000000000010000000000000000
  , 0b000000000000000001000000000000000
  , 0b000000000000000000100000000000000
  , 0b000000000000000000010000000000000
  , 0b000000000000000000001000000000000
  , 0b000000000000000000000100000000000
  , 0b000000000000000000000010000000000
  , 0b000000000000000000000001000000000
  , 0b000000000000000000000000100000000
  , 0b000000000000000000000000010000000
  , 0b000000000000000000000000001000000
  , 0b000000000000000000000000000100000
  , 0b000000000000000000000000000010000
  , 0b000000000000000000000000000001000
  , 0b000000000000000000000000000000100
  , 0b000000000000000000000000000000010
  , 0b000000000000000000000000000000001
  , 0b011101101101110001000001100100000 ]

/-- The 33 columns passed by `CrcMatrix::push_1`: as `push0cols` but
column 0 also injects the generator polynomial. -/
def push1cols : Rows :=
  0b111101101101110001000001100100000 :: push0cols.tail

/-- `CrcMatrix::push_0`. -/
def CrcMatrix.push_0 (items : Rows) : Rows := CrcMatrix.multiply items push0cols

/-- `CrcMatrix::push_1`. -/
def CrcMatrix.push_1 (items : Rows) : Rows := CrcMatrix.multiply items push1cols

/-- `CrcMatrix::transpose`. -/
def CrcMatrix.transpose (items : Rows) : Rows :=
  (List.range 33).map (fun j =>
    (List.range 33).foldl
      (fun acc i =>
        acc ||| (if (items.getD i 0) &&& (1 <<< (32 - j)) ≠ 0 then 1 <<< (32 - i) else 0))
      0)

/-- `CrcMatrix::square`: multiply self by a transposed clone of self
(`multiply` expects columns, and the transposed rows of `self` are
exactly the columns of `self`). -/
def CrcMatrix.square (items : Rows) : Rows :=
  CrcMatrix.multiply items (CrcMatrix.transpose items)

/-- Fuel-driven driver for `CrcMatrix::exponentiate_r`: the source
recurses on `power / 2`, which is not structural, so the recursion is
run on a fuel argument instead (only `log2 power` fuel is ever peeled,
since the recursion stops once `power ≤ 1`).  `exponentiate_r_eq` below
recovers the source's recursion equation exactly. -/
def CrcMatrix.expGo : Nat → Rows → Nat → Rows → Rows
  | 0, items, _, _ => items
  | fuel + 1, items, power, reference =>
    if power ≤ 1 then items
    else
      let rec_result := CrcMatrix.expGo fuel items (power / 2) reference
      let squared := CrcMatrix.square rec_result
      if power % 2 ≠ 0 then CrcMatrix.multiply squared reference else squared

/-- `CrcMatrix::exponentiate_r(&mut self, power, reference)`:
square-and-multiply; base case `power ≤ 1` returns `self` unchanged.
`reference` holds the transposed original matrix. -/
def CrcMatrix.exponentiate_r (items : Rows) (power : Nat) (reference : Rows) : Rows :=
  CrcMatrix.expGo power items power reference

/-- `CrcMatrix::exponentiate(&mut self, power)`. -/
def CrcMatrix.exponentiate (items : Rows) (power : Nat) : Rows :=
  CrcMatrix.exponentiate_r items power (CrcMatrix.transpose items)

/-- The accumulation loop of `CrcMatrix::apply`. -/
def applyFold (items : Rows) (v : Nat) : Nat :=
  let vector := v ||| (1 <<< 32)
  ((List.range 33).drop 1).foldl
    (fun ret i => ret ||| (xor_each_bit ((items.getD i 0) &&& vector) <<< (32 - i)))
    0

/-- `CrcMatrix::apply(&self, v)`: compute `M · (v | (1 << 32))`,
rows 1..32 giving bits 31..0 of the result, returned as `u32`
(`ret as u32`). -/
def CrcMatrix.apply (items : Rows) (v : Nat) : Nat :=
  applyFold items v % 2 ^ 32

/-! ## The dead copy of `CrcMatrix` in `src/payload/matrix.rs`

`payload.rs` never declares `mod matrix`, so this file is not part of
the compiled crate, but it is the code location cited by the claim
about output-bit parities.  Its `hamming` is documented as "the hamming
weight of `n`, mod 2", but each reduction stage after the first
erroneously reuses `n` instead of the previous stage's accumulator, and
the result is never reduced mod 2. -/

namespace MatrixRs

/-- `fn hamming(n: u64) -> u64` from `src/payload/matrix.rs` (doc
comment: "Calculates the hamming weight of n, mod 2").  All arithmetic
stays far below `2^64`, so the `u64` additions never wrap. -/
def hamming (n : Nat) : Nat :=
  let n1 := ((n  &&& 0xaaaaaaaaaaaaaaaa) >>> 1)  + (n &&& 0x5555555555555555)
  let n2 := ((n1 &&& 0xcccccccccccccccc) >>> 2)  + (n &&& 0x3333333333333333)
  let n3 := ((n2 &&& 0xf0f0f0f0f0f0f0f0) >>> 4)  + (n &&& 0x0f0f0f0f0f0f0f0f)
  let n4 := ((n3 &&& 0xff00ff00ff00ff00) >>> 8)  + (n &&& 0x00ff00ff00ff00ff)
  let n5 := ((n4 &&& 0xffff0000ffff0000) >>> 16) + (n &&& 0x0000ffff0000ffff)
  let n6 := ((n5 &&& 0xffffffff00000000) >>> 32) + (n &&& 0x00000000ffffffff)
  n6

/-- `CrcMatrix::multiply` from `src/payload/matrix.rs`: identical to
the live copy except that the per-entry bit is `hamming` instead of
`xor_each_bit`. -/
def multiply (items matr : Rows) : Rows :=
  (List.range 33).map (fun i =>
    (List.range 33).foldl
      (fun acc j => acc ||| (hamming ((items.getD i 0) &&& (matr.getD j 0)) <<< (32 - j)))
      0)

/-- `CrcMatrix::apply` from `src/payload/matrix.rs`, again with
`hamming` in place of the parity, result cast to `u32`. -/
def apply (items : Rows) (v : Nat) : Nat :=
  (let vector := v ||| (1 <<< 32)
   ((List.range 33).drop 1).foldl
     (fun ret i => ret ||| (hamming ((items.getD i 0) &&& vector) <<< (32 - i)))
     0) % 2 ^ 32

end MatrixRs

/-! ## GF(2) semantics of `CrcMatrix`

`bitz n k` is bit `k` of `n` as an element of `GF(2) = ZMod 2`, and
`par33 n` is the parity of the 33 low bits of `n` — what
`xor_each_bit` computes.  `rowsFun M` is the linear map a matrix
denotes on 33-bit words (`CrcMatrix.apply` is its restriction to rows
1..32), and `colMix cols x` is the xor of the columns selected by the
bits of `x` — the action of the column-encoded right factor that
`CrcMatrix.multiply` consumes. -/

/-- Bit `k` of `n`, viewed in `GF(2)`. -/
def bitz (n k : Nat) : ZMod 2 := if n.testBit k then 1 else 0

/-- Parity of the 33 low bits of `n`, in `GF(2)`. -/
def par33 (n : Nat) : ZMod 2 := ∑ k ∈ Finset.range 33, bitz n k

/-- The linear map a row matrix denotes on full 33-bit words:
bit `32 - i` of the image is the parity of `row_i &&& x`. -/
def rowsFun (items : Rows) (x : Nat) : Nat :=
  (List.range 33).foldl
    (fun ret i => ret ||| (xor_each_bit ((items.getD i 0) &&& x) <<< (32 - i)))
    0

/-- The xor of the columns selected by bits `32 - j` of `x`: the
action of the column-encoded matrix `cols` on the word `x`. -/
def colMix (cols : Rows) (x : Nat) : Nat :=
  (List.range 33).foldl
    (fun acc j => if x.testBit (32 - j) then acc ^^^ cols.getD j 0 else acc)
    0

theorem bitz_eq_iff {a b : Nat} {k l : Nat} :
    bitz a k = bitz b l ↔ a.testBit k = b.testBit l := by
  unfold bitz
  cases a.testBit k <;> cases b.testBit l <;> simp <;> decide

theorem bitz_land (a b k : Nat) : bitz (a &&& b) k = bitz a k * bitz b k := by
  unfold bitz
  rw [Nat.testBit_land]
  cases a.testBit k <;> cases b.testBit k <;> simp

theorem bitz_xor (a b k : Nat) : bitz (a ^^^ b) k = bitz a k + bitz b k := by
  unfold bitz
  rw [Nat.testBit_xor]
  cases a.testBit k <;> cases b.testBit k <;> simp <;> decide

theorem bitz_of_ge {n k : Nat} (h : n < 2 ^ k) : bitz n k = 0 := by
  unfold bitz
  rw [Nat.testBit_eq_false_of_lt h]
  simp

/-- `par33` of a conjunction is the `GF(2)` inner product of the two
bit vectors. -/
theorem par33_land (a b : Nat) :
    par33 (a &&& b) = ∑ k ∈ Finset.range 33, bitz a k * bitz b k := by
  unfold par33
  exact Finset.sum_congr rfl fun k _ => bitz_land a b k

theorem and_one_shiftLeft_ne_zero (n i : Nat) :
    (n &&& (1 <<< i) ≠ 0) ↔ n.testBit i = true := by
  rw [Nat.one_shiftLeft, Nat.and_two_pow]
  cases h : n.testBit i <;> simp [h] <;> positivity

theorem xeb_aux (n : Nat) : ∀ (m : Nat) (a : Nat), a ≤ 1 →
    ((List.range m).foldl (fun r i => if n &&& (1 <<< i) ≠ 0 then r ^^^ 1 else r) a) ≤ 1 ∧
    ((((List.range m).foldl (fun r i => if n &&& (1 <<< i) ≠ 0 then r ^^^ 1 else r) a) : ℕ)
      : ZMod 2) = (a : ZMod 2) + ∑ k ∈ Finset.range m, bitz n k := by
  intro m
  induction m with
  | zero => intro a ha; simpa using ha
  | succ m ih =>
    intro a ha
    rw [List.range_succ, List.foldl_append, Finset.sum_range_succ]
    obtain ⟨h1, h2⟩ := ih a ha
    set b := (List.range m).foldl (fun r i => if n &&& (1 <<< i) ≠ 0 then r ^^^ 1 else r) a
    by_cases hc : n &&& (1 <<< m) ≠ 0
    · have hb : bitz n m = 1 := by
        unfold bitz; rw [(and_one_shiftLeft_ne_zero n m).mp hc]; simp
      simp only [List.foldl_cons, List.foldl_nil, if_pos hc, hb]
      interval_cases b
      · exact ⟨by decide, by
          rw [show ((0 : ℕ) ^^^ 1) = 1 from rfl, ← add_assoc, ← h2]; simp⟩
      · exact ⟨by decide, by
          rw [show ((1 : ℕ) ^^^ 1) = 0 from rfl, ← add_assoc, ← h2]
          simp only [Nat.cast_one, Nat.cast_zero]
          decide⟩
    · have hb : bitz n m = 0 := by
        unfold bitz
        have := (and_one_shiftLeft_ne_zero n m).not.mp hc
        simp only [Bool.not_eq_true] at this
        rw [this]; simp
      simp only [List.foldl_cons, List.foldl_nil, if_neg hc, hb, add_zero]
      exact ⟨h1, h2⟩

/-- `xor_each_bit` returns 0 or 1. -/
theorem xeb_le_one (n : Nat) : xor_each_bit n ≤ 1 :=
  (xeb_aux n 33 0 (by decide)).1

/-- `xor_each_bit` computes the 33-bit parity. -/
theorem xeb_cast (n : Nat) : ((xor_each_bit n : ℕ) : ZMod 2) = par33 n := by
  have := (xeb_aux n 33 0 (by decide)).2
  unfold xor_each_bit par33
  simpa using this

theorem xeb_eq_one_iff (n : Nat) : xor_each_bit n = 1 ↔ par33 n = 1 := by
  rw [← xeb_cast]
  have h := xeb_le_one n
  interval_cases h' : xor_each_bit n <;> simp <;> decide

/-- Bit extraction from the or-accumulating folds used by `multiply`,
`apply`, `rowsFun` and `transpose`.  The indices in `l` are below 33,
every `f i` is a single bit placed at position `32 - i`, and positions
do not collide. -/
theorem foldOr_testBit (f : Nat → Nat) (hf : ∀ i, f i ≤ 1) :
    ∀ (l : List Nat), (∀ i ∈ l, i < 33) → ∀ (acc : Nat) (j : Nat), j < 33 →
    ((l.foldl (fun a i => a ||| (f i <<< (32 - i))) acc).testBit (32 - j))
      = (acc.testBit (32 - j) || (l.contains j && decide (f j = 1))) := by
  intro l
  induction l with
  | nil => intro _ acc j _; simp
  | cons i l ih =>
    intro hl acc j hj
    have hi : i < 33 := hl i (List.mem_cons_self i l)
    have hl' : ∀ i ∈ l, i < 33 := fun x hx => hl x (List.mem_cons_of_mem i hx)
    simp only [List.foldl_cons]
    rw [ih hl' _ j hj, Nat.testBit_lor, Nat.testBit_shiftLeft]
    by_cases hij : i = j
    · subst hij
      have : (32 - i) - (32 - i) = 0 := by omega
      have hbit : (f i).testBit 0 = decide (f i = 1) := by
        have := hf i
        interval_cases h' : f i <;> decide
      simp [this, hbit, List.contains_cons]
      cases acc.testBit (32 - i) <;> cases (decide (f i = 1)) <;>
        cases (l.contains i && decide (f i = 1)) <;> simp
    · have hcontr : ((f i) <<< (32 - i)).testBit (32 - j) = false := by
        rw [Nat.testBit_shiftLeft]
        by_cases hle : 32 - j ≥ 32 - i
        · have hij2 : j ≤ i := by omega
          have hlt : j < i := lt_of_le_of_ne hij2 (fun h => hij h.symm)
          have : (32 - j) - (32 - i) = i - j := by omega
          rw [this]
          have : f i < 2 ^ (i - j) := by
            have := hf i
            have h1 : (1 : Nat) < 2 ^ (i - j) := by
              have : 0 < i - j := by omega
              calc (1 : Nat) < 2 ^ 1 := by decide
              _ ≤ 2 ^ (i - j) := Nat.pow_le_pow_right (by decide) this
            omega
          simp [Nat.testBit_eq_false_of_lt this]
        · simp [hle]
      rw [Nat.testBit_shiftLeft] at hcontr
      rw [hcontr]
      have : (i :: l).contains j = l.contains j := by
        simp [List.contains_cons, hij, Ne.symm hij]
      rw [this]
      cases acc.testBit (32 - j) <;> simp

theorem zmod2_if_eq_one (s : ZMod 2) : (if s = 1 then (1 : ZMod 2) else 0) = s := by
  revert s; decide

theorem zmod2_ne_one {s : ZMod 2} (h : s ≠ 1) : s = 0 := by
  revert h; revert s; decide

theorem rangeMapGetD (g : Nat → Nat) (i : Nat) :
    ((List.range 33).map g).getD i 0 = if i < 33 then g i else 0 := by
  by_cases h : i < 33
  · simp [List.getD_eq_getElem?_getD, List.getElem?_map, List.getElem?_range, h]
  · rw [if_neg h]
    apply List.getD_eq_default
    simpa using Nat.le_of_not_lt h

theorem range33_contains {i : Nat} (h : i < 33) : (List.range 33).contains i = true := by
  simp [List.elem_eq_mem, List.mem_range, h]

/-- The or-accumulating folds stay below `2 ^ 33`. -/
theorem foldOr_lt (f : Nat → Nat) (hf : ∀ i, f i ≤ 1) :
    ∀ (l : List Nat), (∀ i ∈ l, i < 33) → ∀ (acc : Nat), acc < 2 ^ 33 →
    (l.foldl (fun a i => a ||| (f i <<< (32 - i))) acc) < 2 ^ 33 := by
  intro l
  induction l with
  | nil => intro _ acc h; simpa using h
  | cons i l ih =>
    intro hl acc hacc
    have hi : i < 33 := hl i (List.mem_cons_self i l)
    have hl' : ∀ i ∈ l, i < 33 := fun x hx => hl x (List.mem_cons_of_mem i hx)
    simp only [List.foldl_cons]
    apply ih hl'
    apply Nat.lt_pow_two_of_testBit
    intro k hk
    rw [Nat.testBit_lor, Nat.testBit_shiftLeft]
    have h1 : acc.testBit k = false := by
      apply Nat.testBit_eq_false_of_lt
      calc acc < 2 ^ 33 := hacc
      _ ≤ 2 ^ k := Nat.pow_le_pow_right (by decide) hk
    have h2 : (f i).testBit (k - (32 - i)) = false := by
      apply Nat.testBit_eq_false_of_lt
      have := hf i
      have : f i < 2 ^ 1 := by omega
      calc f i < 2 ^ 1 := this
      _ ≤ 2 ^ (k - (32 - i)) := Nat.pow_le_pow_right (by decide) (by omega)
    simp [h1, h2]

/-- Bit `32 - i` of `rowsFun items x` is the parity of `row_i &&& x`. -/
theorem bitz_rowsFun (items : Rows) (x : Nat) {i : Nat} (hi : i < 33) :
    bitz (rowsFun items x) (32 - i) = par33 ((items.getD i 0) &&& x) := by
  unfold rowsFun bitz
  rw [foldOr_testBit _ (fun k => xeb_le_one _) _ (fun k hk => List.mem_range.mp hk) 0 i hi]
  simp only [Nat.zero_testBit, Bool.false_or, range33_contains hi, Bool.true_and]
  by_cases h : xor_each_bit ((items.getD i 0) &&& x) = 1
  · rw [if_pos (by rw [decide_eq_true_eq]; exact h)]
    exact ((xeb_eq_one_iff _).mp h).symm
  · rw [if_neg (by rw [decide_eq_true_eq]; exact h)]
    exact (zmod2_ne_one (fun hc => h ((xeb_eq_one_iff _).mpr hc))).symm

theorem rowsFun_lt (items : Rows) (x : Nat) : rowsFun items x < 2 ^ 33 := by
  unfold rowsFun
  exact foldOr_lt _ (fun k => xeb_le_one _) _ (fun k hk => List.mem_range.mp hk) 0 (by decide)

/-- Entry `(i, j)` of `multiply A cols` is the parity of `row_i(A) &&& col_j`. -/
theorem bitz_multiply (A cols : Rows) {i j : Nat} (hi : i < 33) (hj : j < 33) :
    bitz ((CrcMatrix.multiply A cols).getD i 0) (32 - j)
      = par33 ((A.getD i 0) &&& (cols.getD j 0)) := by
  unfold CrcMatrix.multiply
  rw [rangeMapGetD, if_pos hi]
  unfold bitz
  rw [foldOr_testBit _ (fun k => xeb_le_one _) _ (fun k hk => List.mem_range.mp hk) 0 j hj]
  simp only [Nat.zero_testBit, Bool.false_or, range33_contains hj, Bool.true_and]
  by_cases h : xor_each_bit ((A.getD i 0) &&& (cols.getD j 0)) = 1
  · rw [if_pos (by rw [decide_eq_true_eq]; exact h)]
    exact ((xeb_eq_one_iff _).mp h).symm
  · rw [if_neg (by rw [decide_eq_true_eq]; exact h)]
    exact (zmod2_ne_one (fun hc => h ((xeb_eq_one_iff _).mpr hc))).symm

theorem multiply_getD_lt (A cols : Rows) (i : Nat) :
    (CrcMatrix.multiply A cols).getD i 0 < 2 ^ 33 := by
  unfold CrcMatrix.multiply
  rw [rangeMapGetD]
  by_cases h : i < 33
  · rw [if_pos h]
    exact foldOr_lt _ (fun k => xeb_le_one _) _ (fun k hk => List.mem_range.mp hk) 0 (by decide)
  · rw [if_neg h]; decide

/-- Bit `m` of `colMix cols x` as a `GF(2)` sum over the columns. -/
theorem bitz_colMix (cols : Rows) (x : Nat) (m : Nat) :
    bitz (colMix cols x) m
      = ∑ j ∈ Finset.range 33, bitz x (32 - j) * bitz (cols.getD j 0) m := by
  have main : ∀ (n : Nat) (acc : Nat),
      bitz ((List.range n).foldl
        (fun acc j => if x.testBit (32 - j) then acc ^^^ cols.getD j 0 else acc) acc) m
      = bitz acc m + ∑ j ∈ Finset.range n, bitz x (32 - j) * bitz (cols.getD j 0) m := by
    intro n
    induction n with
    | zero => intro acc; simp
    | succ n ih =>
      intro acc
      rw [List.range_succ, List.foldl_append, Finset.sum_range_succ, List.foldl_cons,
        List.foldl_nil, ← add_assoc, ← ih acc]
      by_cases hc : x.testBit (32 - n) = true
      · rw [if_pos hc, bitz_xor]
        have : bitz x (32 - n) = 1 := by unfold bitz; rw [hc]; simp
        rw [this, one_mul]
      · rw [if_neg (by simpa using hc)]
        have : bitz x (32 - n) = 0 := by
          unfold bitz
          rw [show x.testBit (32 - n) = false from by simpa using hc]
          simp
        rw [this, zero_mul, add_zero]
  have h := main 33 0
  have h0 : bitz 0 m = 0 := by unfold bitz; simp
  unfold colMix
  rw [h, h0, zero_add]

theorem colMix_lt (cols : Rows) (x : Nat) (hc : ∀ w ∈ cols, w < 2 ^ 33) :
    colMix cols x < 2 ^ 33 := by
  have main : ∀ (l : List Nat) (acc : Nat), acc < 2 ^ 33 →
      (l.foldl (fun acc j => if x.testBit (32 - j) then acc ^^^ cols.getD j 0 else acc) acc)
        < 2 ^ 33 := by
    intro l
    induction l with
    | nil => intro acc h; simpa using h
    | cons j l ih =>
      intro acc hacc
      simp only [List.foldl_cons]
      apply ih
      by_cases hb : x.testBit (32 - j) = true
      · rw [if_pos hb]
        apply Nat.xor_lt_two_pow hacc
        by_cases hj : j < cols.length
        · rw [List.getD_eq_getElem cols 0 hj]
          exact hc _ (List.getElem_mem hj)
        · rw [List.getD_eq_default _ _ (Nat.le_of_not_lt hj)]; decide
      · rw [if_neg (by simpa using hb)]; exact hacc
  exact main _ 0 (by decide)

/-- Reflected form of `par33`. -/
theorem par33_reflect (n : Nat) :
    par33 n = ∑ j ∈ Finset.range 33, bitz n (32 - j) := by
  unfold par33
  rw [show (∑ j ∈ Finset.range 33, bitz n (32 - j))
        = ∑ j ∈ Finset.range 33, bitz n (33 - 1 - j) from
    Finset.sum_congr rfl fun j _ => by rw [show (33 : ℕ) - 1 - j = 32 - j from by omega]]
  rw [Finset.sum_range_reflect (fun k => bitz n k) 33]

/-- The central composition law: multiplying by a column-encoded
matrix composes the denoted linear maps. -/
theorem rowsFun_multiply (A cols : Rows) (x : Nat) :
    rowsFun (CrcMatrix.multiply A cols) x = rowsFun A (colMix cols x) := by
  apply Nat.eq_of_testBit_eq
  intro k
  by_cases hk : k < 33
  case neg =>
    have h1 : rowsFun (CrcMatrix.multiply A cols) x < 2 ^ k :=
      lt_of_lt_of_le (rowsFun_lt _ _) (Nat.pow_le_pow_right (by decide) (Nat.le_of_not_lt hk))
    have h2 : rowsFun A (colMix cols x) < 2 ^ k :=
      lt_of_lt_of_le (rowsFun_lt _ _) (Nat.pow_le_pow_right (by decide) (Nat.le_of_not_lt hk))
    rw [Nat.testBit_eq_false_of_lt h1, Nat.testBit_eq_false_of_lt h2]
  case pos =>
    have hi : 32 - (32 - k) = k := by omega
    have hik : 32 - k < 33 := by omega
    rw [← bitz_eq_iff (k := k) (l := k)]
    calc bitz (rowsFun (CrcMatrix.multiply A cols) x) k
        = bitz (rowsFun (CrcMatrix.multiply A cols) x) (32 - (32 - k)) := by rw [hi]
      _ = par33 (((CrcMatrix.multiply A cols).getD (32 - k) 0) &&& x) := bitz_rowsFun _ _ hik
      _ = ∑ m ∈ Finset.range 33,
            bitz ((CrcMatrix.multiply A cols).getD (32 - k) 0) m * bitz x m := par33_land _ _
      _ = ∑ j ∈ Finset.range 33,
            bitz ((CrcMatrix.multiply A cols).getD (32 - k) 0) (32 - j) * bitz x (32 - j) := by
          rw [← Finset.sum_range_reflect
            (fun m => bitz ((CrcMatrix.multiply A cols).getD (32 - k) 0) m * bitz x m) 33]
      _ = ∑ j ∈ Finset.range 33,
            par33 ((A.getD (32 - k) 0) &&& (cols.getD j 0)) * bitz x (32 - j) := by
          refine Finset.sum_congr rfl fun j hj => ?_
          rw [bitz_multiply A cols hik (List.mem_range.mp hj)]
      _ = ∑ j ∈ Finset.range 33, (∑ m ∈ Finset.range 33,
            bitz (A.getD (32 - k) 0) m * bitz (cols.getD j 0) m) * bitz x (32 - j) := by
          refine Finset.sum_congr rfl fun j _ => ?_
          rw [par33_land]
      _ = ∑ j ∈ Finset.range 33, ∑ m ∈ Finset.range 33,
            bitz (A.getD (32 - k) 0) m * bitz (cols.getD j 0) m * bitz x (32 - j) := by
          exact Finset.sum_congr rfl fun j _ => Finset.sum_mul _ _ _
      _ = ∑ m ∈ Finset.range 33, ∑ j ∈ Finset.range 33,
            bitz (A.getD (32 - k) 0) m * bitz (cols.getD j 0) m * bitz x (32 - j) :=
          Finset.sum_comm
      _ = ∑ m ∈ Finset.range 33, bitz (A.getD (32 - k) 0) m *
            (∑ j ∈ Finset.range 33, bitz x (32 - j) * bitz (cols.getD j 0) m) := by
          refine Finset.sum_congr rfl fun m _ => ?_
          rw [Finset.mul_sum]
          exact Finset.sum_congr rfl fun j _ => by ring
      _ = ∑ m ∈ Finset.range 33, bitz (A.getD (32 - k) 0) m * bitz (colMix cols x) m := by
          refine Finset.sum_congr rfl fun m _ => ?_
          rw [bitz_colMix]
      _ = par33 ((A.getD (32 - k) 0) &&& colMix cols x) := (par33_land _ _).symm
      _ = bitz (rowsFun A (colMix cols x)) (32 - (32 - k)) := (bitz_rowsFun _ _ hik).symm
      _ = bitz (rowsFun A (colMix cols x)) k := by rw [hi]

theorem ite_shift (c : Prop) [Decidable c] (s : Nat) :
    (if c then 1 <<< s else 0) = (if c then 1 else 0) <<< s := by
  by_cases h : c <;> simp [h]

/-- The body of `transpose`, with the conditional bit rewritten into
the `foldOr` shape. -/
theorem transpose_getD (A : Rows) {j : Nat} (hj : j < 33) :
    (CrcMatrix.transpose A).getD j 0
      = (List.range 33).foldl
          (fun acc i =>
            acc ||| ((if (A.getD i 0) &&& (1 <<< (32 - j)) ≠ 0 then 1 else 0) <<< (32 - i)))
          0 := by
  unfold CrcMatrix.transpose
  rw [rangeMapGetD, if_pos hj]
  exact congrArg (fun f => List.foldl f 0 (List.range 33))
    (funext fun acc => funext fun i => by rw [ite_shift])

theorem transpose_testBit (A : Rows) {i j : Nat} (hi : i < 33) (hj : j < 33) :
    ((CrcMatrix.transpose A).getD j 0).testBit (32 - i) = (A.getD i 0).testBit (32 - j) := by
  rw [transpose_getD A hj]
  rw [foldOr_testBit _ (fun k => by split <;> omega) _
    (fun k hk => List.mem_range.mp hk) 0 i hi]
  simp only [Nat.zero_testBit, Bool.false_or, range33_contains hi, Bool.true_and]
  by_cases h : (A.getD i 0).testBit (32 - j) = true
  · have hne : (A.getD i 0) &&& (1 <<< (32 - j)) ≠ 0 :=
      (and_one_shiftLeft_ne_zero _ _).mpr h
    rw [if_pos hne, h]
    decide
  · have hb : (A.getD i 0).testBit (32 - j) = false := by
      cases hx : (A.getD i 0).testBit (32 - j)
      · rfl
      · exact absurd hx h
    have hne : ¬((A.getD i 0) &&& (1 <<< (32 - j)) ≠ 0) := fun hc => by
      rw [(and_one_shiftLeft_ne_zero _ _).mp hc] at hb
      exact Bool.noConfusion hb
    rw [if_neg hne, hb]
    decide

theorem transpose_mem_lt (A : Rows) (w : Nat) (hw : w ∈ CrcMatrix.transpose A) : w < 2 ^ 33 := by
  unfold CrcMatrix.transpose at hw
  obtain ⟨j, _, rfl⟩ := List.mem_map.mp hw
  have heq : (fun (acc i : Nat) =>
        acc ||| (if (A.getD i 0) &&& (1 <<< (32 - j)) ≠ 0 then 1 <<< (32 - i) else 0))
      = (fun (acc i : Nat) =>
        acc ||| ((if (A.getD i 0) &&& (1 <<< (32 - j)) ≠ 0 then 1 else 0) <<< (32 - i))) := by
    funext acc i
    rw [ite_shift]
  rw [heq]
  exact foldOr_lt _ (fun k => by split <;> omega) _ (fun k hk => List.mem_range.mp hk) 0
    (by decide)

/-- Feeding `transpose B` to `colMix` applies `B` itself: the
transposed rows of `B` are the columns of `B`. -/
theorem colMix_transpose (B : Rows) (x : Nat) :
    colMix (CrcMatrix.transpose B) x = rowsFun B x := by
  apply Nat.eq_of_testBit_eq
  intro k
  by_cases hk : k < 33
  case neg =>
    have h1 : colMix (CrcMatrix.transpose B) x < 2 ^ k :=
      lt_of_lt_of_le (colMix_lt _ _ (transpose_mem_lt B))
        (Nat.pow_le_pow_right (by decide) (Nat.le_of_not_lt hk))
    have h2 : rowsFun B x < 2 ^ k :=
      lt_of_lt_of_le (rowsFun_lt _ _) (Nat.pow_le_pow_right (by decide) (Nat.le_of_not_lt hk))
    rw [Nat.testBit_eq_false_of_lt h1, Nat.testBit_eq_false_of_lt h2]
  case pos =>
    have hi : 32 - (32 - k) = k := by omega
    have hik : 32 - k < 33 := by omega
    rw [← bitz_eq_iff (k := k) (l := k)]
    calc bitz (colMix (CrcMatrix.transpose B) x) k
        = ∑ j ∈ Finset.range 33, bitz x (32 - j) * bitz ((CrcMatrix.transpose B).getD j 0) k :=
          bitz_colMix _ _ _
      _ = ∑ j ∈ Finset.range 33, bitz x (32 - j) * bitz ((B.getD (32 - k)) 0) (32 - j) := by
          refine Finset.sum_congr rfl fun j hj => ?_
          congr 1
          have ht := transpose_testBit B hik (List.mem_range.mp hj)
          rw [hi] at ht
          exact bitz_eq_iff.mpr ht
      _ = ∑ j ∈ Finset.range 33, bitz ((B.getD (32 - k)) 0) (32 - j) * bitz x (32 - j) := by
          exact Finset.sum_congr rfl fun j _ => by ring
      _ = ∑ m ∈ Finset.range 33, bitz ((B.getD (32 - k)) 0) m * bitz x m := by
          rw [← Finset.sum_range_reflect
            (fun m => bitz ((B.getD (32 - k)) 0) m * bitz x m) 33]
      _ = par33 ((B.getD (32 - k) 0) &&& x) := (par33_land _ _).symm
      _ = bitz (rowsFun B x) (32 - (32 - k)) := (bitz_rowsFun _ _ hik).symm
      _ = bitz (rowsFun B x) k := by rw [hi]

/-- Composition: `multiply A (transpose B)` denotes `A ∘ B`. -/
theorem rowsFun_mulT (A B : Rows) (x : Nat) :
    rowsFun (CrcMatrix.multiply A (CrcMatrix.transpose B)) x = rowsFun A (rowsFun B x) := by
  rw [rowsFun_multiply, colMix_transpose]

/-- `square` denotes squaring of the linear map. -/
theorem rowsFun_square (A : Rows) (x : Nat) :
    rowsFun (CrcMatrix.square A) x = rowsFun A (rowsFun A x) := rowsFun_mulT A A x

/-! ## The single-bit CRC step and the push matrices

`crcStep v b` is one bit of the CRC-32 feedback shift:
`(v >> 1) ^ (poly if (v & 1) ^ b)`.  `crcStepV b` is its homogeneous
33-bit form, with the input bit `b` entering through the constant slot
(bit 32); it is `GF(2)`-linear, and equals `colMix` of the constant
column lists that `push_0` / `push_1` feed to `multiply`. -/

/-- One CRC-32 bit step with input bit `b` (bit-level form of the
inner loop of the `apply` helper in `Payload::crc32`). -/
def crcStep (v : Nat) (b : Bool) : Nat :=
  (v >>> 1) ^^^ (if (v.testBit 0).xor b then 0xedb88320 else 0)

/-- Homogeneous 33-bit form of `crcStep`: the constant slot (bit 32)
carries itself through and gates the input bit. -/
def crcStepV (b : Bool) (x : Nat) : Nat :=
  (((x &&& 0xffffffff) >>> 1) ^^^
    (if (x.testBit 0).xor (b && x.testBit 32) then 0xedb88320 else 0)) ^^^
    ((if x.testBit 32 then 1 else 0) <<< 32)

/-- The column list `push_b` feeds to `multiply`. -/
def pushCols (b : Bool) : Rows := if b then push1cols else push0cols

theorem crcStepV_testBit (b : Bool) (x k : Nat) :
    (crcStepV b x).testBit k
      = (((x.testBit (k + 1) && decide (k + 1 < 32)).xor
          ((((x.testBit 0).xor (b && x.testBit 32)) && (0xedb88320 : Nat).testBit k))).xor
            ((x.testBit 32) && decide (k = 32))) := by
  unfold crcStepV
  rw [Nat.testBit_xor, Nat.testBit_xor]
  congr 1
  congr 1
  · rw [Nat.testBit_shiftRight, Nat.testBit_land]
    rw [show (0xffffffff : Nat) = 2 ^ 32 - 1 from by norm_num, Nat.testBit_two_pow_sub_one]
    rw [show 1 + k = k + 1 from by omega]
  · cases hc : (x.testBit 0).xor (b && x.testBit 32) <;> simp
  · rw [Nat.testBit_shiftLeft]
    cases h32 : x.testBit 32
    · simp
    · simp only [h32, Bool.true_and]
      rw [if_pos trivial]
      rw [show (1 : Nat) = 2 ^ 0 from rfl, Nat.testBit_two_pow]
      by_cases hk : k = 32
      · subst hk; decide
      · by_cases hge : 32 ≤ k
        · have h0 : ¬((0 : Nat) = k - 32) := by omega
          simp [hge, h0, hk]
        · simp [hge, hk]

/-- `crcStepV b` is `GF(2)`-linear. -/
theorem crcStepV_xor (b : Bool) (x y : Nat) :
    crcStepV b (x ^^^ y) = crcStepV b x ^^^ crcStepV b y := by
  apply Nat.eq_of_testBit_eq
  intro k
  rw [Nat.testBit_xor, crcStepV_testBit, crcStepV_testBit, crcStepV_testBit,
    Nat.testBit_xor, Nat.testBit_xor, Nat.testBit_xor]
  generalize x.testBit (k + 1) = x1
  generalize y.testBit (k + 1) = y1
  generalize x.testBit 0 = x0
  generalize y.testBit 0 = y0
  generalize x.testBit 32 = x32
  generalize y.testBit 32 = y32
  generalize (0xedb88320 : Nat).testBit k = p
  generalize decide (k + 1 < 32) = d1
  generalize decide (k = 32) = d32
  cases x1 <;> cases y1 <;> cases x0 <;> cases y0 <;> cases x32 <;> cases y32 <;>
    cases p <;> cases d1 <;> cases d32 <;> cases b <;> rfl

/-- `colMix` is `GF(2)`-linear in the vector (for 33-bit columns). -/
theorem colMix_xor (cols : Rows) (hc : ∀ w ∈ cols, w < 2 ^ 33) (x y : Nat) :
    colMix cols (x ^^^ y) = colMix cols x ^^^ colMix cols y := by
  apply Nat.eq_of_testBit_eq
  intro k
  by_cases hk : k < 33
  case neg =>
    have hb : ∀ z, colMix cols z < 2 ^ k := fun z =>
      lt_of_lt_of_le (colMix_lt _ _ hc)
        (Nat.pow_le_pow_right (by decide) (Nat.le_of_not_lt hk))
    rw [Nat.testBit_eq_false_of_lt (hb _),
      Nat.testBit_eq_false_of_lt (Nat.xor_lt_two_pow (hb x) (hb y))]
  case pos =>
    rw [← bitz_eq_iff (k := k) (l := k)]
    rw [bitz_xor, bitz_colMix, bitz_colMix, bitz_colMix, ← Finset.sum_add_distrib]
    refine Finset.sum_congr rfl fun j _ => ?_
    rw [← add_mul]
    congr 1
    rw [← bitz_xor]

/-- Decomposition of a `2 ^ (n + 1)`-bounded word into its top bit and
its low `n` bits, as an xor. -/
theorem bit_split (x n : Nat) : x = ((x >>> n) <<< n) ^^^ (x % 2 ^ n) := by
  apply Nat.eq_of_testBit_eq
  intro k
  rw [Nat.testBit_xor, Nat.testBit_shiftLeft, Nat.testBit_mod_two_pow]
  by_cases hk : k < n
  · have : ¬(k ≥ n) := by omega
    simp [this, hk]
  · rw [Nat.testBit_shiftRight]
    have h1 : k ≥ n := by omega
    have h2 : n + (k - n) = k := by omega
    simp [h1, hk, h2]

/-- Two `GF(2)`-linear maps agreeing on the 33 basis vectors agree on
every 33-bit word. -/
theorem linext (f g : Nat → Nat)
    (hf : ∀ x y, f (x ^^^ y) = f x ^^^ f y) (hg : ∀ x y, g (x ^^^ y) = g x ^^^ g y)
    (hbasis : ∀ j, j < 33 → f (1 <<< j) = g (1 <<< j)) :
    ∀ n, n ≤ 33 → ∀ x, x < 2 ^ n → f x = g x := by
  have hzero : f 0 = g 0 := by
    have hf0 : f 0 = 0 := by
      have h := hf 0 0
      rw [Nat.xor_self] at h
      rw [Nat.xor_self] at h
      exact h
    have hg0 : g 0 = 0 := by
      have h := hg 0 0
      rw [Nat.xor_self] at h
      rw [Nat.xor_self] at h
      exact h
    rw [hf0, hg0]
  intro n
  induction n with
  | zero =>
    intro _ x hx
    have : x = 0 := by omega
    subst this
    exact hzero
  | succ n ih =>
    intro hn x hx
    have hsplit := bit_split x n
    have hdiv : x >>> n ≤ 1 := by
      rw [Nat.shiftRight_eq_div_pow]
      have hx2 : x < 2 ^ n * 2 := by
        rw [pow_succ] at hx
        omega
      have := Nat.div_lt_of_lt_mul hx2
      omega
    have hmod : x % 2 ^ n < 2 ^ n := Nat.mod_lt _ (by positivity)
    rcases Nat.le_one_iff_eq_zero_or_eq_one.mp hdiv with h0 | h1
    · rw [h0, Nat.zero_shiftLeft, Nat.zero_xor] at hsplit
      rw [hsplit]
      exact ih (by omega) _ hmod
    · rw [h1] at hsplit
      rw [hsplit, hf, hg, hbasis n (by omega), ih (by omega) _ hmod]

theorem pushCols_lt (b : Bool) : ∀ w ∈ pushCols b, w < 2 ^ 33 := by
  cases b <;> decide

/-- The push columns act on the 33 basis vectors exactly as
`crcStepV`. -/
theorem push_basis : ∀ (b : Bool) (j : Nat), j < 33 →
    colMix (pushCols b) (1 <<< j) = crcStepV b (1 <<< j) := by
  decide

/-- The matrix pushed by `push_b` denotes `crcStepV b` on 33-bit
words. -/
theorem colMix_push (b : Bool) (x : Nat) (hx : x < 2 ^ 33) :
    colMix (pushCols b) x = crcStepV b x :=
  linext (colMix (pushCols b)) (crcStepV b)
    (colMix_xor _ (pushCols_lt b)) (crcStepV_xor b)
    (fun j hj => push_basis b j hj) 33 le_rfl x hx

theorem rowsFun_push (b : Bool) (A : Rows) (x : Nat) (hx : x < 2 ^ 33) :
    rowsFun (CrcMatrix.multiply A (pushCols b)) x = rowsFun A (crcStepV b x) := by
  rw [rowsFun_multiply, colMix_push b x hx]

theorem crcStep_lt (v : Nat) (b : Bool) (hv : v < 2 ^ 32) : crcStep v b < 2 ^ 32 := by
  unfold crcStep
  apply Nat.xor_lt_two_pow
  · rw [Nat.shiftRight_eq_div_pow]
    omega
  · split <;> norm_num

theorem or_high_eq_xor_high (a : Nat) (ha : a < 2 ^ 32) :
    a ^^^ (1 <<< 32) = a ||| (1 <<< 32) := by
  apply Nat.eq_of_testBit_eq
  intro k
  rw [Nat.testBit_xor, Nat.testBit_lor, Nat.one_shiftLeft, Nat.testBit_two_pow]
  by_cases hk : (32 : Nat) = k
  · subst hk
    rw [Nat.testBit_eq_false_of_lt ha]
    rfl
  · simp [hk]

theorem testBit32_or_high (v : Nat) : (v ||| (1 <<< 32)).testBit 32 = true := by
  rw [Nat.testBit_lor, Nat.one_shiftLeft, Nat.testBit_two_pow]
  simp

theorem testBit_or_high_low (v k : Nat) (hk : k < 32) :
    (v ||| (1 <<< 32)).testBit k = v.testBit k := by
  rw [Nat.testBit_lor, Nat.one_shiftLeft, Nat.testBit_two_pow]
  have : ¬((32 : Nat) = k) := by omega
  simp [this]

theorem or_high_lt (v : Nat) (hv : v < 2 ^ 32) : v ||| (1 <<< 32) < 2 ^ 33 := by
  apply Nat.lt_pow_two_of_testBit
  intro i hi
  rw [Nat.testBit_lor, Nat.one_shiftLeft, Nat.testBit_two_pow]
  have h1 : v.testBit i = false := by
    apply Nat.testBit_eq_false_of_lt
    calc v < 2 ^ 32 := hv
    _ ≤ 2 ^ i := Nat.pow_le_pow_right (by decide) (by omega)
  have h2 : ¬((32 : Nat) = i) := by omega
  simp [h1, h2]

theorem and_mask32_or_high (v : Nat) (hv : v < 2 ^ 32) :
    (v ||| (1 <<< 32)) &&& 0xffffffff = v := by
  apply Nat.eq_of_testBit_eq
  intro k
  rw [Nat.testBit_land, show (0xffffffff : Nat) = 2 ^ 32 - 1 from by norm_num,
    Nat.testBit_two_pow_sub_one]
  by_cases hk : k < 32
  · rw [testBit_or_high_low v k hk]
    simp [hk]
  · have h1 : v.testBit k = false := by
      apply Nat.testBit_eq_false_of_lt
      calc v < 2 ^ 32 := hv
      _ ≤ 2 ^ k := Nat.pow_le_pow_right (by decide) (by omega)
    simp [hk, h1]

/-- On a homogeneous state `v | (1 << 32)`, `crcStepV` is `crcStep` on
the low 32 bits with the constant slot preserved. -/
theorem crcStepV_hi (b : Bool) (v : Nat) (hv : v < 2 ^ 32) :
    crcStepV b (v ||| (1 <<< 32)) = crcStep v b ||| (1 <<< 32) := by
  unfold crcStepV
  rw [and_mask32_or_high v hv, testBit32_or_high, testBit_or_high_low v 0 (by decide)]
  rw [Bool.and_true, if_pos rfl]
  rw [show ((1 : Nat) <<< 32) = 1 <<< 32 from rfl]
  have : ((v >>> 1) ^^^ (if (v.testBit 0).xor b then 0xedb88320 else 0)) = crcStep v b := rfl
  rw [this, or_high_eq_xor_high _ (crcStep_lt v b hv)]

/-! ## Identity, the constant-slot invariant and `apply` -/

theorem par33_two_pow {s : Nat} (hs : s < 33) : par33 (2 ^ s) = 1 := by
  unfold par33
  rw [show (∑ k ∈ Finset.range 33, bitz (2 ^ s) k)
        = ∑ k ∈ Finset.range 33, if k = s then (1 : ZMod 2) else 0 from
    Finset.sum_congr rfl fun k _ => by
      unfold bitz
      rw [Nat.testBit_two_pow]
      by_cases h : s = k
      · simp [h]
      · simp [h, Ne.symm h]]
  rw [Finset.sum_ite_eq' (Finset.range 33) s (fun _ => (1 : ZMod 2))]
  simp [Finset.mem_range.mpr hs]

theorem par33_zero : par33 0 = 0 := by
  unfold par33
  rw [show (∑ k ∈ Finset.range 33, bitz 0 k) = ∑ k ∈ Finset.range 33, (0 : ZMod 2) from
    Finset.sum_congr rfl fun k _ => by unfold bitz; simp]
  simp

theorem par33_two_pow_and (s x : Nat) (hs : s < 33) :
    par33 ((2 ^ s) &&& x) = bitz x s := by
  rw [Nat.land_comm, Nat.and_two_pow]
  unfold bitz
  cases h : x.testBit s
  · simp only [Bool.toNat_false, zero_mul]
    exact par33_zero
  · simp only [Bool.toNat_true, one_mul]
    exact par33_two_pow hs

/-- The `new()` identity matrix denotes the identity on 33-bit
words. -/
theorem rowsFun_new (x : Nat) (hx : x < 2 ^ 33) : rowsFun CrcMatrix.new x = x := by
  apply Nat.eq_of_testBit_eq
  intro k
  by_cases hk : k < 33
  case neg =>
    rw [Nat.testBit_eq_false_of_lt
      (lt_of_lt_of_le (rowsFun_lt _ _) (Nat.pow_le_pow_right (by decide) (Nat.le_of_not_lt hk)))]
    rw [Nat.testBit_eq_false_of_lt
      (lt_of_lt_of_le hx (Nat.pow_le_pow_right (by decide) (Nat.le_of_not_lt hk)))]
  case pos =>
    have hi : 32 - (32 - k) = k := by omega
    have hik : 32 - k < 33 := by omega
    rw [← bitz_eq_iff (k := k) (l := k)]
    calc bitz (rowsFun CrcMatrix.new x) k
        = bitz (rowsFun CrcMatrix.new x) (32 - (32 - k)) := by rw [hi]
      _ = par33 ((CrcMatrix.new.getD (32 - k) 0) &&& x) := bitz_rowsFun _ _ hik
      _ = par33 ((2 ^ k) &&& x) := by
          unfold CrcMatrix.new
          rw [rangeMapGetD, if_pos hik, Nat.one_shiftLeft, hi]
      _ = bitz x k := par33_two_pow_and k x hk

/-- Row 0 holds the constant slot: `items[0] = 1 << 32`. -/
def goodRow0 (items : Rows) : Prop := items.getD 0 0 = 1 <<< 32

/-- Column lists whose bit-32 profile keeps the constant slot:
only column 0 has bit 32 set. -/
def colsGood (cols : Rows) : Prop :=
  ∀ j, j < 33 → (cols.getD j 0).testBit 32 = decide (j = 0)

theorem goodRow0_new : goodRow0 CrcMatrix.new := by
  unfold goodRow0
  decide

set_option maxHeartbeats 1000000 in
theorem colsGood_pushCols (b : Bool) : colsGood (pushCols b) := by
  unfold colsGood
  cases b <;> decide

theorem colsGood_transpose {B : Rows} (hB : goodRow0 B) : colsGood (CrcMatrix.transpose B) := by
  intro j hj
  have ht := transpose_testBit B (show (0 : Nat) < 33 by decide) hj
  rw [show (32 : Nat) - 0 = 32 from rfl] at ht
  rw [ht, hB, Nat.one_shiftLeft, Nat.testBit_two_pow]
  by_cases h : j = 0
  · subst h; decide
  · have h1 : ¬((32 : Nat) = 32 - j) := by omega
    simp [h, h1]

theorem goodRow0_multiply {A cols : Rows} (hA : goodRow0 A) (hc : colsGood cols) :
    goodRow0 (CrcMatrix.multiply A cols) := by
  unfold goodRow0 at *
  apply Nat.eq_of_testBit_eq
  intro k
  by_cases hk : k < 33
  case neg =>
    rw [Nat.testBit_eq_false_of_lt
      (lt_of_lt_of_le (multiply_getD_lt A cols 0)
        (Nat.pow_le_pow_right (by decide) (Nat.le_of_not_lt hk)))]
    rw [Nat.one_shiftLeft, Nat.testBit_two_pow]
    have : ¬((32 : Nat) = k) := by omega
    simp [this]
  case pos =>
    have hi : 32 - (32 - k) = k := by omega
    have hik : 32 - k < 33 := by omega
    rw [← bitz_eq_iff (k := k) (l := k)]
    have h1 := bitz_multiply A cols (show (0 : Nat) < 33 from by decide) hik
    rw [hi] at h1
    rw [h1, hA, Nat.one_shiftLeft, par33_two_pow_and 32 _ (by decide)]
    unfold bitz
    rw [hc _ hik, Nat.testBit_two_pow]
    by_cases h : k = 32
    · subst h; simp
    · have h2 : ¬((32 : Nat) = k) := by omega
      have h3 : ¬(32 - k = 0) := by omega
      simp [h2, h3]

/-- The `apply` loop stays below `2 ^ 32`: rows 1..32 write only bits
31..0 (so the final `as u32` cast is the identity). -/
theorem applyFold_lt (M : Rows) (v : Nat) : applyFold M v < 2 ^ 32 := by
  unfold applyFold
  have hmem : ∀ i ∈ (List.range 33).drop 1, 1 ≤ i ∧ i < 33 := by
    intro i hi
    have h1 : i ∈ List.range 33 := by
      have := List.IsSuffix.subset (List.drop_suffix 1 (List.range 33))
      exact this hi
    have h2 : i < 33 := List.mem_range.mp h1
    constructor
    · by_contra h
      have hi0 : i = 0 := by omega
      subst hi0
      have hnd : (List.range 33).Nodup := List.nodup_range 33
      have hsplit : List.range 33 = 0 :: (List.range 33).drop 1 := by decide
      rw [hsplit] at hnd
      exact (List.nodup_cons.mp hnd).1 hi
    · exact h2
  have main : ∀ (l : List Nat), (∀ i ∈ l, 1 ≤ i ∧ i < 33) → ∀ (t : Nat → Nat),
      (∀ i, t i ≤ 1) → ∀ (acc : Nat), acc < 2 ^ 32 →
      (l.foldl (fun r i => r ||| (t i <<< (32 - i))) acc) < 2 ^ 32 := by
    intro l
    induction l with
    | nil => intro _ t _ acc h; simpa using h
    | cons i l ih =>
      intro hl t ht acc hacc
      simp only [List.foldl_cons]
      apply ih (fun x hx => hl x (List.mem_cons_of_mem i hx)) t ht
      apply Nat.lt_pow_two_of_testBit
      intro k hk
      rw [Nat.testBit_lor, Nat.testBit_shiftLeft]
      have h1 : acc.testBit k = false := by
        apply Nat.testBit_eq_false_of_lt
        calc acc < 2 ^ 32 := hacc
        _ ≤ 2 ^ k := Nat.pow_le_pow_right (by decide) hk
      have hi := hl i (List.mem_cons_self i l)
      have h2 : (t i).testBit (k - (32 - i)) = false := by
        apply Nat.testBit_eq_false_of_lt
        have := ht i
        have hklow : 1 ≤ k - (32 - i) := by omega
        calc t i < 2 ^ 1 := by omega
        _ ≤ 2 ^ (k - (32 - i)) := Nat.pow_le_pow_right (by decide) hklow
      simp [h1, h2]
  exact main _ hmem _ (fun i => xeb_le_one _) 0 (by decide)

theorem apply_eq_applyFold (M : Rows) (v : Nat) : CrcMatrix.apply M v = applyFold M v :=
  Nat.mod_eq_of_lt (applyFold_lt M v)

theorem apply_lt (M : Rows) (v : Nat) : CrcMatrix.apply M v < 2 ^ 32 := by
  rw [apply_eq_applyFold]
  exact applyFold_lt M v

/-- With a good row 0 and the constant bit set, `rowsFun` is
`CrcMatrix.apply` on the low 32 bits plus the preserved constant. -/
theorem rowsFun_eq_apply (M : Rows) (hM : goodRow0 M) (v : Nat) (hv : v < 2 ^ 32) :
    rowsFun M (v ||| (1 <<< 32)) = CrcMatrix.apply M v ||| (1 <<< 32) := by
  rw [apply_eq_applyFold]
  have hsplit : List.range 33 = 0 :: (List.range 33).drop 1 := by decide
  have hacc : ∀ (l : List Nat) (t : Nat → Nat) (acc c : Nat),
      l.foldl (fun r i => r ||| t i) (acc ||| c) = (l.foldl (fun r i => r ||| t i) acc) ||| c := by
    intro l t
    induction l with
    | nil => intro acc c; rfl
    | cons i l ih =>
      intro acc c
      simp only [List.foldl_cons]
      rw [show (acc ||| c) ||| t i = (acc ||| t i) ||| c from by
        rw [Nat.lor_assoc, Nat.lor_assoc, Nat.lor_comm c (t i)]]
      exact ih _ _
  unfold rowsFun applyFold
  rw [hsplit, List.foldl_cons]
  have ht : (v ||| (1 <<< 32)).testBit 32 = true := testBit32_or_high v
  have h2 : ((1 : Nat) <<< 32) = 2 ^ 32 := Nat.one_shiftLeft 32
  have hand : (M.getD 0 0) &&& (v ||| (1 <<< 32)) = 2 ^ 32 := by
    have hb2 : ((v ||| (2 : Nat) ^ 32).testBit 32) = true := by
      rw [← h2]
      exact ht
    rw [hM, h2, Nat.land_comm, Nat.and_two_pow, hb2]
    simp
  have hfirst : (0 : Nat) ||| (xor_each_bit ((M.getD 0 0) &&& (v ||| (1 <<< 32))) <<< (32 - 0))
      = 0 ||| (1 <<< 32) := by
    rw [hand, show xor_each_bit (2 ^ 32) = 1 from by decide]
  rw [hfirst, hacc]
  rfl

theorem or_high_cancel {a b : Nat} (ha : a < 2 ^ 32) (hb : b < 2 ^ 32)
    (h : a ||| (1 <<< 32) = b ||| (1 <<< 32)) : a = b := by
  apply Nat.eq_of_testBit_eq
  intro k
  by_cases hk : k < 32
  · have hc := congrArg (fun n => n.testBit k) h
    simp only at hc
    rw [testBit_or_high_low _ _ hk, testBit_or_high_low _ _ hk] at hc
    exact hc
  · rw [Nat.testBit_eq_false_of_lt
      (lt_of_lt_of_le ha (Nat.pow_le_pow_right (by decide) (by omega)))]
    rw [Nat.testBit_eq_false_of_lt
      (lt_of_lt_of_le hb (Nat.pow_le_pow_right (by decide) (by omega)))]

/-! ## Semantics of `exponentiate` -/

theorem goodRow0_expGo {M : Rows} (hM : goodRow0 M) :
    ∀ fuel power, goodRow0 (CrcMatrix.expGo fuel M power (CrcMatrix.transpose M)) := by
  intro fuel
  induction fuel with
  | zero => intro power; exact hM
  | succ fuel ih =>
    intro power
    show goodRow0 (CrcMatrix.expGo (fuel + 1) M power (CrcMatrix.transpose M))
    rw [CrcMatrix.expGo]
    by_cases h1 : power ≤ 1
    · rw [if_pos h1]; exact hM
    · rw [if_neg h1]
      have hrec := ih (power / 2)
      have hsq : goodRow0 (CrcMatrix.square
          (CrcMatrix.expGo fuel M (power / 2) (CrcMatrix.transpose M))) :=
        goodRow0_multiply hrec (colsGood_transpose hrec)
      by_cases h2 : power % 2 ≠ 0
      · rw [if_pos h2]
        exact goodRow0_multiply hsq (colsGood_transpose hM)
      · rw [if_neg h2]
        exact hsq

theorem expGo_sem (M : Rows) : ∀ fuel power, power ≤ fuel → ∀ x,
    rowsFun (CrcMatrix.expGo fuel M power (CrcMatrix.transpose M)) x
      = (fun y => rowsFun M y)^[max power 1] x := by
  intro fuel
  induction fuel with
  | zero =>
    intro power hp x
    have h0 : power = 0 := by omega
    subst h0
    show rowsFun M x = _
    rw [show max 0 1 = 1 from rfl, Function.iterate_one]
  | succ fuel ih =>
    intro power hp x
    show rowsFun (CrcMatrix.expGo (fuel + 1) M power (CrcMatrix.transpose M)) x = _
    rw [CrcMatrix.expGo]
    by_cases h1 : power ≤ 1
    · rw [if_pos h1]
      interval_cases power
      · rw [show max 0 1 = 1 from rfl, Function.iterate_one]
      · rw [show max 1 1 = 1 from rfl, Function.iterate_one]
    · rw [if_neg h1]
      have hp2 : power / 2 ≤ fuel := by omega
      have hge : 1 ≤ power / 2 := by omega
      have hmax : max (power / 2) 1 = power / 2 := by omega
      have hrec := ih (power / 2) hp2
      by_cases h2 : power % 2 ≠ 0
      · rw [if_pos h2]
        rw [rowsFun_mulT, rowsFun_square, hrec, hrec, hmax]
        rw [show rowsFun M x = (fun y => rowsFun M y)^[1] x from by
          rw [Function.iterate_one]]
        rw [← Function.iterate_add_apply, ← Function.iterate_add_apply]
        congr 1
        omega
      · rw [if_neg h2]
        rw [rowsFun_square, hrec, hrec, hmax]
        rw [← Function.iterate_add_apply]
        congr 1
        omega

/-- `exponentiate M n` denotes the `max n 1`-fold iterate of `M`'s
map: the base case `n ≤ 1` of `exponentiate_r` leaves the matrix as it
is, so `n = 0` still applies one pass. -/
theorem exponentiate_sem (M : Rows) (power : Nat) (x : Nat) :
    rowsFun (CrcMatrix.exponentiate M power) x = (fun y => rowsFun M y)^[max power 1] x :=
  expGo_sem M power power le_rfl x

theorem goodRow0_exponentiate {M : Rows} (hM : goodRow0 M) (power : Nat) :
    goodRow0 (CrcMatrix.exponentiate M power) :=
  goodRow0_expGo hM power power

/-! ## Byte-level CRC and the pattern matrix

`crc_apply` is the local `fn apply(crc, byte)` helper inside
`Payload::crc32`; `pushByteMSB` / `patternMatrix` are the two loops of
the bomb branch, which feed the pattern into the matrix in reverse
byte order, MSB-first per byte. -/

/-- The `fn apply(crc: u32, byte: u8) -> u32` helper in
`Payload::crc32`. -/
def crc_apply (crc byte : Nat) : Nat :=
  (List.range 8).foldl
    (fun ret _ => if ret &&& 1 ≠ 0 then (ret >>> 1) ^^^ 0xedb88320 else ret >>> 1)
    (crc ^^^ byte)

/-- One shift of the CRC feedback register (the loop body of
`crc_apply`). -/
def crcShift (w : Nat) : Nat :=
  if w &&& 1 ≠ 0 then (w >>> 1) ^^^ 0xedb88320 else w >>> 1

/-- `n` CRC bit steps, consuming `B` LSB-first. -/
def crcBits : Nat → Nat → Nat → Nat
  | 0, v, _ => v
  | n + 1, v, B => crcBits n (crcStep v (B.testBit 0)) (B >>> 1)

/-- The bits of `B` from position `n - 1` down to 0, MSB first. -/
def bitsMSB : Nat → Nat → List Bool
  | 0, _ => []
  | n + 1, B => B.testBit n :: bitsMSB n B

theorem foldl_const_iterate (g : Nat → Nat) :
    ∀ (n : Nat) (a : Nat), (List.range n).foldl (fun r _ => g r) a = g^[n] a := by
  intro n
  induction n with
  | zero => intro a; rfl
  | succ n ih =>
    intro a
    rw [List.range_succ, List.foldl_append, ih, List.foldl_cons, List.foldl_nil,
      Function.iterate_succ_apply']

theorem shiftRight_one_xor (a b : Nat) : (a ^^^ b) >>> 1 = (a >>> 1) ^^^ (b >>> 1) := by
  apply Nat.eq_of_testBit_eq
  intro k
  rw [Nat.testBit_shiftRight, Nat.testBit_xor, Nat.testBit_xor,
    Nat.testBit_shiftRight, Nat.testBit_shiftRight]

theorem and_one_ne_zero (w : Nat) : (w &&& 1 ≠ 0) ↔ w.testBit 0 = true := by
  have := and_one_shiftLeft_ne_zero w 0
  rwa [show ((1 : Nat) <<< 0) = 1 from rfl] at this

/-- Pulling one input byte bit out of the shift register: shifting the
xored-in byte is one `crcStep` plus the shifted remainder. -/
theorem crcShift_xor (v B : Nat) :
    crcShift (v ^^^ B) = crcStep v (B.testBit 0) ^^^ (B >>> 1) := by
  unfold crcShift crcStep
  have hc : ((v ^^^ B) &&& 1 ≠ 0) ↔ ((v.testBit 0).xor (B.testBit 0)) = true := by
    rw [and_one_ne_zero, Nat.testBit_xor]
  by_cases h : (v ^^^ B) &&& 1 ≠ 0
  · rw [if_pos h]
    have hx : (v.testBit 0).xor (B.testBit 0) = true := hc.mp h
    rw [shiftRight_one_xor]
    cases hv : v.testBit 0 <;> cases hb : B.testBit 0 <;> rw [hv, hb] at hx <;>
      first
      | exact absurd hx (by decide)
      | · simp only [Bool.xor_false, Bool.xor_true, Bool.not_true, Bool.not_false, hv, hb]
          rw [if_pos trivial]
          rw [Nat.xor_assoc, Nat.xor_assoc]
          congr 1
          rw [Nat.xor_comm]
  · rw [if_neg h]
    have hx : (v.testBit 0).xor (B.testBit 0) = false := by
      cases hxx : (v.testBit 0).xor (B.testBit 0)
      · rfl
      · exact absurd (hc.mpr hxx) h
    rw [shiftRight_one_xor, hx]
    rw [show (if (false = true) then (0xedb88320 : Nat) else 0) = 0 from by simp]
    rw [Nat.xor_zero]

theorem crcShift_iterate_eq_crcBits :
    ∀ (n : Nat) (v B : Nat), B < 2 ^ n → crcShift^[n] (v ^^^ B) = crcBits n v B := by
  intro n
  induction n with
  | zero =>
    intro v B hB
    have : B = 0 := by omega
    subst this
    rw [Nat.xor_zero]
    rfl
  | succ n ih =>
    intro v B hB
    rw [Function.iterate_succ_apply, crcShift_xor]
    have hB2 : B >>> 1 < 2 ^ n := by
      rw [Nat.shiftRight_eq_div_pow]
      rw [pow_succ] at hB
      omega
    exact ih _ _ hB2

/-- `crc_apply` is eight LSB-first `crcStep`s. -/
theorem crc_apply_eq_crcBits (v B : Nat) (hB : B < 256) :
    crc_apply v B = crcBits 8 v B := by
  unfold crc_apply
  rw [show (fun (ret : Nat) (_ : Nat) =>
        if ret &&& 1 ≠ 0 then (ret >>> 1) ^^^ 0xedb88320 else ret >>> 1)
      = (fun (ret : Nat) (_ : Nat) => crcShift ret) from rfl]
  rw [foldl_const_iterate]
  exact crcShift_iterate_eq_crcBits 8 v B hB

theorem crcBits_snoc : ∀ (n : Nat) (v B : Nat),
    crcBits (n + 1) v B = crcStep (crcBits n v B) (B.testBit n) := by
  intro n
  induction n with
  | zero => intro v B; rfl
  | succ n ih =>
    intro v B
    show crcBits (n + 1) (crcStep v (B.testBit 0)) (B >>> 1) = _
    rw [ih]
    have : (B >>> 1).testBit n = B.testBit (n + 1) := by
      rw [Nat.testBit_shiftRight]
      congr 1
      omega
    rw [this]
    rfl

theorem crcBits_lt : ∀ (n : Nat) (v B : Nat), v < 2 ^ 32 → crcBits n v B < 2 ^ 32 := by
  intro n
  induction n with
  | zero => intro v B h; exact h
  | succ n ih =>
    intro v B h
    exact ih _ _ (crcStep_lt _ _ h)

theorem crc_apply_lt (v B : Nat) (hv : v < 2 ^ 32) (hB : B < 256) : crc_apply v B < 2 ^ 32 := by
  rw [crc_apply_eq_crcBits v B hB]
  exact crcBits_lt 8 v B hv

theorem crcStepV_lt (b : Bool) (x : Nat) : crcStepV b x < 2 ^ 33 := by
  unfold crcStepV
  apply Nat.xor_lt_two_pow
  · apply Nat.xor_lt_two_pow
    · rw [Nat.shiftRight_eq_div_pow]
      have : (x &&& 0xffffffff) ≤ 0xffffffff := Nat.and_le_right
      omega
    · split <;> norm_num
  · split <;> simp [Nat.shiftLeft_eq] <;> norm_num

/-- Chaining `crcStepV` over the MSB-first bit list of a byte is
`crcBits` on the low half with the constant bit carried through. -/
theorem stepVChain_hi : ∀ (n : Nat) (B v : Nat), v < 2 ^ 32 →
    (bitsMSB n B).foldr crcStepV (v ||| (1 <<< 32)) = (crcBits n v B) ||| (1 <<< 32) := by
  intro n
  induction n with
  | zero => intro B v _; rfl
  | succ n ih =>
    intro B v hv
    show crcStepV (B.testBit n) ((bitsMSB n B).foldr crcStepV (v ||| (1 <<< 32))) = _
    rw [ih B v hv, crcStepV_hi _ _ (crcBits_lt n v B hv), crcBits_snoc]

/-- The bomb branch's inner loop: push the bits of one byte, MSB
first. -/
def pushByteMSB (items : Rows) (byte : Nat) : Rows :=
  (List.range 8).foldl
    (fun m j => if byte &&& (1 <<< (7 - j)) ≠ 0 then CrcMatrix.push_1 m else CrcMatrix.push_0 m)
    items

/-- Pushing a list of bits (abstract view of `pushByteMSB`). -/
def pushList (A : Rows) (l : List Bool) : Rows :=
  l.foldl (fun m b => if b then CrcMatrix.push_1 m else CrcMatrix.push_0 m) A

theorem pushByteMSB_eq (A : Rows) (byte : Nat) :
    pushByteMSB A byte = pushList A (bitsMSB 8 byte) := by
  unfold pushByteMSB pushList
  rw [show List.range 8 = [0, 1, 2, 3, 4, 5, 6, 7] from rfl]
  rw [show bitsMSB 8 byte
      = [byte.testBit 7, byte.testBit 6, byte.testBit 5, byte.testBit 4,
         byte.testBit 3, byte.testBit 2, byte.testBit 1, byte.testBit 0] from rfl]
  simp only [List.foldl_cons, List.foldl_nil]
  norm_num [and_one_shiftLeft_ne_zero]

theorem pushList_sem : ∀ (l : List Bool) (A : Rows) (x : Nat), x < 2 ^ 33 →
    rowsFun (pushList A l) x = rowsFun A (l.foldr crcStepV x) := by
  intro l
  induction l with
  | nil => intro A x _; rfl
  | cons b rest ih =>
    intro A x hx
    show rowsFun (pushList (if b then CrcMatrix.push_1 A else CrcMatrix.push_0 A) rest) x = _
    have hchain : rest.foldr crcStepV x < 2 ^ 33 := by
      clear ih
      induction rest with
      | nil => exact hx
      | cons c cs ihc =>
        exact crcStepV_lt c _
    rw [ih _ x hx]
    cases b
    · show rowsFun (CrcMatrix.multiply A push0cols) _ = _
      rw [show push0cols = pushCols false from rfl, rowsFun_push false A _ hchain]
      rfl
    · show rowsFun (CrcMatrix.multiply A push1cols) _ = _
      rw [show push1cols = pushCols true from rfl, rowsFun_push true A _ hchain]
      rfl

/-! ## The pattern matrix and its semantics -/

theorem foldl_ext_mem {α β : Type} (f g : β → α → β) :
    ∀ (l : List α) (b : β), (∀ x ∈ l, ∀ c, f c x = g c x) → l.foldl f b = l.foldl g b := by
  intro l
  induction l with
  | nil => intro b _; rfl
  | cons a l ih =>
    intro b h
    simp only [List.foldl_cons]
    rw [h a (List.mem_cons_self a l) b]
    exact ih _ (fun x hx => h x (List.mem_cons_of_mem a hx))

/-- Folding over `range l.length` with reversed indexing is a fold
over the reversed list (the shape of the reverse-byte-order loop in
`Payload::crc32`). -/
theorem foldl_range_reverse {β : Type} (g : β → Nat → β) :
    ∀ (l : List Nat) (A : β),
    (List.range l.length).foldl (fun m i => g m (l.getD (l.length - i - 1) 0)) A
      = l.reverse.foldl g A := by
  intro l
  induction l using List.reverseRecOn with
  | nil => intro A; rfl
  | append_singleton l a ih =>
    intro A
    have hlen : (l ++ [a]).length = l.length + 1 := by simp
    rw [hlen, List.range_succ_eq_map, List.foldl_cons, List.foldl_map]
    have hfirst : (l ++ [a]).getD (l.length + 1 - 0 - 1) 0 = a := by
      rw [show l.length + 1 - 0 - 1 = l.length from by omega]
      rw [List.getD_append_right l [a] 0 l.length le_rfl]
      simp
    rw [hfirst]
    have hbody : (List.range l.length).foldl
        (fun m i => g m ((l ++ [a]).getD (l.length + 1 - (Nat.succ i) - 1) 0)) (g A a)
        = (List.range l.length).foldl
        (fun m i => g m (l.getD (l.length - i - 1) 0)) (g A a) := by
      apply foldl_ext_mem
      intro i hi c
      have hilt : i < l.length := List.mem_range.mp hi
      rw [show l.length + 1 - (Nat.succ i) - 1 = l.length - i - 1 from by omega]
      rw [List.getD_append l [a] 0 _ (by omega)]
    rw [hbody, ih (g A a), List.reverse_append]
    rfl

/-- The bomb branch's outer loop: feed `data` into a fresh matrix in
reverse byte order, MSB-first per byte. -/
def patternMatrix (data : List Nat) : Rows :=
  (List.range data.length).foldl
    (fun m i => pushByteMSB m (data.getD (data.length - i - 1) 0))
    CrcMatrix.new

theorem patternMatrix_eq (d : List Nat) :
    patternMatrix d = d.reverse.foldl pushByteMSB CrcMatrix.new :=
  foldl_range_reverse pushByteMSB d CrcMatrix.new

theorem goodRow0_pushByteMSB {A : Rows} (hA : goodRow0 A) (byte : Nat) :
    goodRow0 (pushByteMSB A byte) := by
  unfold pushByteMSB
  have main : ∀ (l : List Nat) (A : Rows), goodRow0 A →
      goodRow0 (l.foldl (fun m j =>
        if byte &&& (1 <<< (7 - j)) ≠ 0 then CrcMatrix.push_1 m else CrcMatrix.push_0 m) A) := by
    intro l
    induction l with
    | nil => intro A h; exact h
    | cons j l ih =>
      intro A h
      simp only [List.foldl_cons]
      apply ih
      by_cases hc : byte &&& (1 <<< (7 - j)) ≠ 0
      · rw [if_pos hc]
        have hp : colsGood push1cols := colsGood_pushCols true
        exact goodRow0_multiply h hp
      · rw [if_neg hc]
        have hp : colsGood push0cols := colsGood_pushCols false
        exact goodRow0_multiply h hp
  exact main _ A hA

theorem goodRow0_patternMatrix (d : List Nat) : goodRow0 (patternMatrix d) := by
  rw [patternMatrix_eq]
  have main : ∀ (l : List Nat) (A : Rows), goodRow0 A →
      goodRow0 (l.foldl pushByteMSB A) := by
    intro l
    induction l with
    | nil => intro A h; exact h
    | cons b l ih =>
      intro A h
      simp only [List.foldl_cons]
      exact ih _ (goodRow0_pushByteMSB h b)
  exact main _ _ goodRow0_new

theorem foldr_crc_apply_lt (bs : List Nat) (hbs : ∀ b ∈ bs, b < 256) (v : Nat)
    (hv : v < 2 ^ 32) : bs.foldr (fun b w => crc_apply w b) v < 2 ^ 32 := by
  induction bs with
  | nil => exact hv
  | cons b rest ih =>
    simp only [List.foldr_cons]
    exact crc_apply_lt _ _ (ih (fun x hx => hbs x (List.mem_cons_of_mem b hx)))
      (hbs b (List.mem_cons_self b rest))

/-- Folding byte pushes in reverse corresponds to running
`crc_apply` forwards on the state side. -/
theorem pushFold_hi : ∀ (bs : List Nat), (∀ b ∈ bs, b < 256) → ∀ (A : Rows) (v : Nat),
    v < 2 ^ 32 →
    rowsFun (bs.foldl pushByteMSB A) (v ||| (1 <<< 32))
      = rowsFun A ((bs.foldr (fun b w => crc_apply w b) v) ||| (1 <<< 32)) := by
  intro bs
  induction bs with
  | nil => intro _ A v _; rfl
  | cons b rest ih =>
    intro hbs A v hv
    have hb : b < 256 := hbs b (List.mem_cons_self b rest)
    have hrest : ∀ x ∈ rest, x < 256 := fun x hx => hbs x (List.mem_cons_of_mem b hx)
    simp only [List.foldl_cons, List.foldr_cons]
    rw [ih hrest (pushByteMSB A b) v hv]
    set w := rest.foldr (fun b w => crc_apply w b) v with hw
    have hwlt : w < 2 ^ 32 := foldr_crc_apply_lt rest hrest v hv
    rw [pushByteMSB_eq, pushList_sem _ _ _ (or_high_lt w hwlt), stepVChain_hi 8 b w hwlt]
    rw [← crc_apply_eq_crcBits w b hb]

/-- The pattern matrix denotes one `crc_apply` pass over the pattern
(on homogeneous states). -/
theorem patternMatrix_sem (d : List Nat) (hd : ∀ b ∈ d, b < 256) (v : Nat) (hv : v < 2 ^ 32) :
    rowsFun (patternMatrix d) (v ||| (1 <<< 32)) = (d.foldl crc_apply v) ||| (1 <<< 32) := by
  rw [patternMatrix_eq]
  have hrev : ∀ b ∈ d.reverse, b < 256 := fun b hb => hd b (List.mem_reverse.mp hb)
  rw [pushFold_hi d.reverse hrev CrcMatrix.new v hv]
  have hfold : d.reverse.foldr (fun b w => crc_apply w b) v = d.foldl crc_apply v :=
    List.foldr_reverse d (fun b w => crc_apply w b) v
  rw [hfold]
  exact rowsFun_new _ (or_high_lt _ (by
    rw [← hfold]
    exact foldr_crc_apply_lt d.reverse hrev v hv))

theorem foldl_crc_apply_lt : ∀ (d : List Nat), (∀ b ∈ d, b < 256) →
    ∀ (v : Nat), v < 2 ^ 32 → d.foldl crc_apply v < 2 ^ 32 := by
  intro d
  induction d with
  | nil => intro _ v hv; exact hv
  | cons b rest ih =>
    intro hd v hv
    simp only [List.foldl_cons]
    exact ih (fun x hx => hd x (List.mem_cons_of_mem b hx)) _
      (crc_apply_lt _ _ hv (hd b (List.mem_cons_self b rest)))

theorem iterate_pass_lt (d : List Nat) (hd : ∀ b ∈ d, b < 256) :
    ∀ (k : Nat) (v : Nat), v < 2 ^ 32 → (fun w => d.foldl crc_apply w)^[k] v < 2 ^ 32 := by
  intro k
  induction k with
  | zero => intro v hv; exact hv
  | succ k ih =>
    intro v hv
    rw [Function.iterate_succ_apply]
    exact ih _ (foldl_crc_apply_lt d hd v hv)

theorem iterate_pass_hi (d : List Nat) (hd : ∀ b ∈ d, b < 256) :
    ∀ (k : Nat) (v : Nat), v < 2 ^ 32 →
    (fun y => rowsFun (patternMatrix d) y)^[k] (v ||| (1 <<< 32))
      = ((fun w => d.foldl crc_apply w)^[k] v) ||| (1 <<< 32) := by
  intro k
  induction k with
  | zero => intro v _; rfl
  | succ k ih =>
    intro v hv
    rw [Function.iterate_succ_apply, Function.iterate_succ_apply]
    rw [patternMatrix_sem d hd v hv]
    exact ih _ (foldl_crc_apply_lt d hd v hv)

/-- The keystone: the bomb branch of `Payload::crc32` — build the
pattern matrix, exponentiate it, apply it — performs `max n 1` full
`crc_apply` passes over the pattern.  The `max` records the
`exponentiate_r` base case: exponent 0 still applies one pass. -/
theorem crcBomb_apply (d : List Nat) (hd : ∀ b ∈ d, b < 256) (n : Nat) (v : Nat)
    (hv : v < 2 ^ 32) :
    CrcMatrix.apply (CrcMatrix.exponentiate (patternMatrix d) n) v
      = (fun w => d.foldl crc_apply w)^[max n 1] v := by
  have hgood : goodRow0 (CrcMatrix.exponentiate (patternMatrix d) n) :=
    goodRow0_exponentiate (goodRow0_patternMatrix d) n
  have h1 : rowsFun (CrcMatrix.exponentiate (patternMatrix d) n) (v ||| (1 <<< 32))
      = CrcMatrix.apply (CrcMatrix.exponentiate (patternMatrix d) n) v ||| (1 <<< 32) :=
    rowsFun_eq_apply _ hgood v hv
  have h2 : rowsFun (CrcMatrix.exponentiate (patternMatrix d) n) (v ||| (1 <<< 32))
      = ((fun w => d.foldl crc_apply w)^[max n 1] v) ||| (1 <<< 32) := by
    rw [exponentiate_sem]
    exact iterate_pass_hi d hd (max n 1) v hv
  exact or_high_cancel (apply_lt _ _) (iterate_pass_lt d hd (max n 1) v hv) (h1.symm.trans h2)

/-! ## The payload data model (from `src/payload.rs`, lines 1-151)

The Rust closures held by `BlockData::Unfilled` and `Bomb.fill` are
defunctionalized: the only closures the program ever constructs are the
DEFLATE wrapper-block resolver `gen_block` (capturing `start_c`,
`data_len`, `has_rep`, `is_last`), the deflate bomb propagator
(capturing `end`), the trivial propagator of `Bomb::new`, and the
wrappers' trailer resolvers.  `Option<Box<Payload>>` becomes the
`leaf` / `node` distinction.  Rust panics become `none`. -/

/-- The `fill` closure of a `Bomb`: either the no-op installed by
`Bomb::new`, or the deflate propagator capturing `end` (line 650 of
`payload.rs`), which sets `child.data[end]`'s size to
`size * 1032 + 1290`. -/
inductive Propagate where
  | noProp : Propagate
  | deflateProp (endIdx : Nat) : Propagate
deriving DecidableEq

/-- The resolver closure of an `Unfilled` block: the DEFLATE
`gen_block` (line 545) with its captures, or the zlib trailer resolver
(spec-modelled: the wrapper itself is not under `src/`). -/
inductive Resolver where
  | genBlock (startC dataLen : Nat) (hasRepB isLastB : Bool) : Resolver
  | adlerTrailer : Resolver
deriving DecidableEq

inductive BlockData where
  | known (data : List Nat) : BlockData
  | unfilled (resolver : Resolver) : BlockData
deriving DecidableEq

structure Block where
  data : BlockData
  len : Nat
deriving DecidableEq

structure Bomb where
  data : List Nat
  size : Nat
  fill : Propagate
deriving DecidableEq

inductive Segment where
  | block (b : Block) : Segment
  | bomb (b : Bomb) : Segment
deriving DecidableEq

/-- `Payload { data, child: Option<Box<Payload>> }`: `leaf` is a
payload with no child, `node` owns one. -/
inductive Payload where
  | leaf (data : List Segment) : Payload
  | node (data : List Segment) (child : Payload) : Payload
deriving DecidableEq

def Payload.data : Payload → List Segment
  | Payload.leaf d => d
  | Payload.node d _ => d

def Payload.childOpt : Payload → Option Payload
  | Payload.leaf _ => none
  | Payload.node _ c => some c

/-- `Block::new`. -/
def Block.new (data : List Nat) : Block := ⟨BlockData.known data, data.length⟩

/-- `Bomb::new`. -/
def Bomb.new (data : List Nat) : Bomb := ⟨data, 0, Propagate.noProp⟩

/-! ## Expansion and the reference checksums -/

/-- The logical contents of a bomb: `pattern[i mod len]` for
`i < size` (also the byte sequence `Payload::write` emits for it). -/
def bombExpand (pattern : List Nat) (size : Nat) : List Nat :=
  (List.range size).map (fun i => pattern.getD (i % pattern.length) 0)

/-- The bytes of one segment; `none` when an `Unfilled` block is hit
(`write` panics there). -/
def segExpand : Segment → Option (List Nat)
  | Segment.block b =>
    match b.data with
    | BlockData.known d => some d
    | BlockData.unfilled _ => none
  | Segment.bomb b =>
    if b.size ≠ 0 ∧ b.data.length = 0 then none
    else some (bombExpand b.data b.size)

/-- Full expansion of a segment list, segment by segment. -/
def expand : List Segment → Option (List Nat)
  | [] => some []
  | s :: rest =>
    match segExpand s, expand rest with
    | some b, some r => some (b ++ r)
    | _, _ => none

/-- `Payload::write`, as the byte sequence it emits: each `Known`
block's bytes, each bomb's pattern cycled for `size` bytes.  Writing an
`Unfilled` block, or a nonempty expansion of an empty pattern, panics
(`none`). -/
def Payload.write (p : Payload) : Option (List Nat) := expand p.data

/-- One Adler-32 byte step at modulus 65521 (the reference). -/
def adlerStep (p : Nat × Nat) (byte : Nat) : Nat × Nat :=
  let s0 := (p.1 + byte) % 65521
  (s0, (p.2 + s0) % 65521)

/-- Reference Adler-32 of a byte list, in the byte order
`Payload::adler32` returns. -/
def adlerRefBytes (bytes : List Nat) : List Nat :=
  let s := bytes.foldl adlerStep (1, 0)
  [(s.2 >>> 8) % 256, s.2 &&& 255, (s.1 >>> 8) % 256, s.1 &&& 255]

/-- Reference CRC-32 of a byte list (standard reflected CRC-32,
byte-at-a-time), in the byte order `Payload::crc32` returns. -/
def crcRefBytes (bytes : List Nat) : List Nat :=
  let c := (bytes.foldl crc_apply 0xffffffff) ^^^ 0xffffffff
  [(c >>> 24) % 256, (c >>> 16) % 256, (c >>> 8) % 256, c % 256]

/-! ## `Payload::adler32` (lines 153-228): the closed-form evaluator.

`u64` sums are taken `% 2 ^ 64` exactly where the source can wrap;
`full_blocks - 1` is the wrapping `u64` subtraction
`(full_blocks + 2 ^ 64 - 1) % 2 ^ 64`. -/

/-- The per-byte loop of the `Known`-block branch (and of the
`extra_bytes` tail): `s0 += byte; s0 %= 65521; s1 += s0; s1 %= 65521`
in `u64`. -/
def adlerByte (p : Nat × Nat) (byte : Nat) : Nat × Nat :=
  let s0 := ((p.1 + byte) % 2 ^ 64) % 65521
  (s0, ((p.2 + s0) % 2 ^ 64) % 65521)

/-- The bomb branch of `Payload::adler32`. -/
def adlerBomb (s0 s1 : Nat) (pattern : List Nat) (size : Nat) : Nat × Nat :=
  let t := pattern.foldl adlerByte (0, 0)
  let t0 := t.1
  let tri := t.2
  let rect := (t0 * pattern.length) % 2 ^ 64
  let full_blocks := (size / pattern.length) % 65521
  let extra_bytes := size % pattern.length
  let num_rects := ((((full_blocks * ((full_blocks + 2 ^ 64 - 1) % 2 ^ 64)) % 2 ^ 64)
      * 32761) % 2 ^ 64) % 65521
  let s1a := (s1 + ((((s0 * full_blocks) % 2 ^ 64) * pattern.length) % 2 ^ 64)) % 2 ^ 64
  let s0a := (s0 + ((t0 * full_blocks) % 2 ^ 64)) % 2 ^ 64
  let s1b := (s1a + ((((tri * full_blocks) % 2 ^ 64)
      + ((rect * num_rects) % 2 ^ 64)) % 2 ^ 64)) % 2 ^ 64
  let s0b := s0a % 65521
  let s1c := s1b % 65521
  (pattern.take extra_bytes).foldl adlerByte (s0b, s1c)

/-- The segment loop of `Payload::adler32`; `none` on an `Unfilled`
block or an empty bomb pattern (division by zero). -/
def adlerSegs : List Segment → Nat → Nat → Option (Nat × Nat)
  | [], s0, s1 => some (s0, s1)
  | Segment.block b :: rest, s0, s1 =>
    match b.data with
    | BlockData.known d =>
      let p := d.foldl adlerByte (s0, s1)
      adlerSegs rest p.1 p.2
    | BlockData.unfilled _ => none
  | Segment.bomb b :: rest, s0, s1 =>
    if b.data.length = 0 then none
    else
      let p := adlerBomb s0 s1 b.data b.size
      adlerSegs rest p.1 p.2

/-- `Payload::adler32`. -/
def Payload.adler32 (p : Payload) : Option (List Nat) :=
  (adlerSegs p.data 1 0).map (fun s =>
    [(s.2 >>> 8) % 256, s.2 &&& 255, (s.1 >>> 8) % 256, s.1 &&& 255])

/-! ## `Payload::crc32` (lines 230-293) -/

/-- The segment loop of `Payload::crc32`. -/
def crcSegs : List Segment → Nat → Option Nat
  | [], crc => some crc
  | Segment.block b :: rest, crc =>
    match b.data with
    | BlockData.known d => crcSegs rest (d.foldl crc_apply crc)
    | BlockData.unfilled _ => none
  | Segment.bomb b :: rest, crc =>
    if b.data.length = 0 then none
    else
      let matr := patternMatrix b.data
      let full_blocks := b.size / b.data.length
      let extra_bytes := b.size % b.data.length
      let matr2 := CrcMatrix.exponentiate matr full_blocks
      let crc2 := CrcMatrix.apply matr2 crc
      let crc3 := (List.range extra_bytes).foldl
        (fun c i => crc_apply c (b.data.getD i 0)) crc2
      crcSegs rest crc3

/-- `Payload::crc32`. -/
def Payload.crc32 (p : Payload) : Option (List Nat) :=
  (crcSegs p.data 0xffffffff).map (fun crc =>
    let c := crc ^^^ 0xffffffff
    [(c >>> 24) % 256, (c >>> 16) % 256, (c >>> 8) % 256, c % 256])

/-! ## `deflate_raw` (lines 495-679) -/

/-- Decompressed length of one segment as `deflate_raw` counts it:
`b.len` for a block, the pattern length for a bomb. -/
def segLen : Segment → Nat
  | Segment.block b => b.len
  | Segment.bomb b => b.data.length

/-- Index offset of the first bomb in a segment list (its length when
there is none). -/
def firstBombIdx : List Segment → Nat
  | [] => 0
  | Segment.block _ :: rest => firstBombIdx rest + 1
  | Segment.bomb _ :: _ => 0

/-- The `end` of the group starting at `start`: the first bomb index
at or after `start`, or `segs.length`. -/
def groupEnd (segs : List Segment) (start : Nat) : Nat :=
  start + firstBombIdx (segs.drop start)

/-- `has_rep`: the group ends with a bomb. -/
def hasRep (segs : List Segment) (start : Nat) : Bool :=
  groupEnd segs start < segs.length

/-- `data_len`: total decompressed byte count of the group
(`start..=end`, clamped to the list). -/
def dataLenOf (segs : List Segment) (start : Nat) : Nat :=
  ((segs.drop start).take (groupEnd segs start + 1 - start)).foldl
    (fun a s => a + segLen s) 0

/-- `is_last`: `end + 1 >= payload.data.len()`. -/
def isLastOf (segs : List Segment) (start : Nat) : Bool :=
  segs.length ≤ groupEnd segs start + 1

/-- The statically computed wrapper-block length:
`num_blocks * 5 + data_len`, plus 13 for a following bomb header. -/
def payloadLenOf (segs : List Segment) (start : Nat) : Nat :=
  let dl := dataLenOf segs start
  let nb := (dl + 0xffff - 1) / 0xffff
  nb * 5 + dl + (if hasRep segs start then 13 else 0)

/-- The group-emission loop of `deflate_raw`, fuel-driven (`start`
strictly increases, so `segs.length` fuel always suffices). -/
def deflateLoop (fuel : Nat) (segs : List Segment) (start : Nat) : List Segment :=
  match fuel with
  | 0 => []
  | fuel + 1 =>
    if start < segs.length then
      let e := groupEnd segs start
      let blockSeg := Segment.block
        ⟨BlockData.unfilled (Resolver.genBlock start (dataLenOf segs start)
            (hasRep segs start) (isLastOf segs start)),
          payloadLenOf segs start⟩
      let rest := deflateLoop fuel segs (e + 1)
      if hasRep segs start then
        blockSeg :: Segment.bomb ⟨[0x55], 0, Propagate.deflateProp e⟩ :: rest
      else
        blockSeg :: rest
    else []

/-- `deflate_raw`: emit the groups, then inspect
`payload.data[payload.data.len() - 1]` (a panic — `none` — when the
segment list is empty) and append the terminating `Known([0])` block
after a trailing bomb. -/
def deflate_raw (p : Payload) : Option (List Segment) :=
  match p.data.getLast? with
  | none => none
  | some lastSeg =>
    let out := deflateLoop p.data.length p.data 0
    match lastSeg with
    | Segment.bomb _ => some (out ++ [Segment.block (Block.new [0])])
    | Segment.block _ => some out

/-! ## The `gen_block` resolver (lines 545-641) -/

/-- Read one byte of the child at `(idx, pos)` and advance, exactly as
the inner loop of `gen_block` does; `none` on the panics
(out-of-bounds index, unfilled child block). -/
def drawByte (segs : List Segment) (idx pos : Nat) : Option (Nat × Nat × Nat) :=
  match segs[idx]? with
  | none => none
  | some (Segment.block b) =>
    match b.data with
    | BlockData.known d =>
      match d[pos]? with
      | none => none
      | some byte =>
        if pos + 1 ≥ d.length then some (byte, idx + 1, 0) else some (byte, idx, pos + 1)
    | BlockData.unfilled _ => none
  | some (Segment.bomb b) =>
    match b.data[pos]? with
    | none => none
    | some byte =>
      if pos + 1 ≥ b.data.length then some (byte, idx + 1, 0) else some (byte, idx, pos + 1)

/-- Draw `n` sequential bytes from the child. -/
def drawN : Nat → List Segment → Nat → Nat → Option (List Nat × Nat × Nat)
  | 0, _, idx, pos => some ([], idx, pos)
  | n + 1, segs, idx, pos =>
    match drawByte segs idx pos with
    | none => none
    | some (byte, idx2, pos2) =>
      match drawN n segs idx2 pos2 with
      | none => none
      | some (rest, idx3, pos3) => some (byte :: rest, idx3, pos3)

/-- The 65535-byte sub-block loop of `gen_block`, fuel-driven (each
iteration advances `this_start` by at least one byte). -/
def chunkLoop (fuel : Nat) (startC dataLen thisStart : Nat) (segs : List Segment)
    (idx pos : Nat) (ret : List Nat) (lastBlock lastBit : Nat) :
    Option (List Nat × Nat × Nat) :=
  match fuel with
  | 0 => if thisStart < dataLen then none else some (ret, lastBlock, lastBit)
  | fuel + 1 =>
    if thisStart < dataLen then
      let thisEnd := min (thisStart + 0xffff) dataLen
      let thisLen := thisEnd - thisStart
      let hdr := startC = 0 ∨ thisStart ≠ 0
      let ret1 := if hdr then ret ++ [0x00] else ret
      let lastBlock1 := if hdr then ret.length else lastBlock
      let lastBit1 := if hdr then 0x01 else lastBit
      let inverseLen := 2 ^ 64 - 1 - thisLen
      let ret2 := ret1 ++ [thisLen &&& 0xff, (thisLen >>> 8) % 256,
                           inverseLen &&& 0xff, (inverseLen >>> 8) % 256]
      match drawN thisLen segs idx pos with
      | none => none
      | some (bytes, idx2, pos2) =>
        chunkLoop fuel startC dataLen thisEnd segs idx2 pos2 (ret2 ++ bytes) lastBlock1 lastBit1
    else some (ret, lastBlock, lastBit)

/-- The `gen_block` closure, run against the (filled) child. -/
def runGenBlock (startC dataLen : Nat) (hasRepB isLastB : Bool) (child : Payload) :
    Option (List Nat) :=
  let ret0 : List Nat := if startC ≠ 0 then [0x02] else []
  let lastBit0 : Nat := if startC ≠ 0 then 0x20 else 0
  match chunkLoop dataLen startC dataLen 0 child.data startC 0 ret0 0 lastBit0 with
  | none => none
  | some (ret, lastBlock, lastBit) =>
    let ret2 := if hasRepB
      then ret ++ [0xec, 0xc0, 0x81, 0x00, 0x00, 0x00, 0x00, 0x00, 0x90, 0xff, 0x6b, 0x23, 0x54]
      else ret
    let lastBlock2 := if hasRepB then ret.length else lastBlock
    if isLastB then
      if lastBlock2 < ret2.length then
        some (ret2.set lastBlock2 ((ret2.getD lastBlock2 0) ||| lastBit))
      else none
    else some ret2

/-- Run a defunctionalized resolver.  `genBlock` is `gen_block`;
`adlerTrailer` is modelled from the spec (§4.4): the zlib wrapper's
4-byte trailer resolver computes the child's Adler-32.  A missing
child is the `expect` panic. -/
def runResolver : Resolver → Option Payload → Option (List Nat)
  | Resolver.genBlock startC dataLen hasRepB isLastB, some child =>
    runGenBlock startC dataLen hasRepB isLastB child
  | Resolver.genBlock _ _ _ _, none => none
  | Resolver.adlerTrailer, some child => child.adler32
  | Resolver.adlerTrailer, none => none

/-! ## Filling (lines 59-115) -/

/-- `Block::fill`: resolve an `Unfilled` block, leave a `Known` one
untouched. -/
def Block.fill (b : Block) (child : Option Payload) : Option Block :=
  match b.data with
  | BlockData.known _ => some b
  | BlockData.unfilled r => (runResolver r child).map (fun d => ⟨BlockData.known d, b.len⟩)

/-- The block pass of `fill_preset` over one layer's segments. -/
def fillBlocks : List Segment → Option Payload → Option (List Segment)
  | [], _ => some []
  | Segment.block b :: rest, child =>
    match Block.fill b child, fillBlocks rest child with
    | some b2, some r => some (Segment.block b2 :: r)
    | _, _ => none
  | Segment.bomb b :: rest, child =>
    (fillBlocks rest child).map (fun r => Segment.bomb b :: r)

/-- `Payload::fill_preset`: resolve the child first, then this
layer's blocks against it. -/
def Payload.fill_preset : Payload → Option Payload
  | Payload.leaf segs => (fillBlocks segs none).map Payload.leaf
  | Payload.node segs c =>
    match Payload.fill_preset c with
    | none => none
    | some c2 =>
      match fillBlocks segs (some c2) with
      | none => none
      | some segs2 => some (Payload.node segs2 c2)

/-- `Bomb::fill` run at `child.data[e]` with size `sz`: the captured
closure first (for the deflate propagator, a recursive descent into
the grandchild), then `size` is stored.  A non-bomb segment at `e` is
silently skipped (the `if let`); a missing index panics. -/
def propagateAt : Payload → Nat → Nat → Option Payload
  | Payload.leaf segs, e, sz =>
    match segs[e]? with
    | none => none
    | some (Segment.block _) => some (Payload.leaf segs)
    | some (Segment.bomb b) =>
      match b.fill with
      | Propagate.noProp => some (Payload.leaf (segs.set e (Segment.bomb ⟨b.data, sz, b.fill⟩)))
      | Propagate.deflateProp _ => none
  | Payload.node segs c, e, sz =>
    match segs[e]? with
    | none => none
    | some (Segment.block _) => some (Payload.node segs c)
    | some (Segment.bomb b) =>
      match b.fill with
      | Propagate.noProp => some (Payload.node (segs.set e (Segment.bomb ⟨b.data, sz, b.fill⟩)) c)
      | Propagate.deflateProp e2 =>
        match propagateAt c e2 (sz * 1032 + 1290) with
        | none => none
        | some c2 => some (Payload.node (segs.set e (Segment.bomb ⟨b.data, sz, b.fill⟩)) c2)

/-- The bomb pass of `Payload::fill` over one layer, threading the
mutated child left to right. -/
def fillBombs : List Segment → Option Payload → Nat → Option (List Segment × Option Payload)
  | [], child, _ => some ([], child)
  | Segment.block b :: rest, child, bombSize =>
    (fillBombs rest child bombSize).map (fun pr => (Segment.block b :: pr.1, pr.2))
  | Segment.bomb b :: rest, child, bombSize =>
    match b.fill, child with
    | Propagate.noProp, ch =>
      (fillBombs rest ch bombSize).map
        (fun pr => (Segment.bomb ⟨b.data, bombSize, b.fill⟩ :: pr.1, pr.2))
    | Propagate.deflateProp _, none => none
    | Propagate.deflateProp e, some c =>
      match propagateAt c e (bombSize * 1032 + 1290) with
      | none => none
      | some c2 =>
        (fillBombs rest (some c2) bombSize).map
          (fun pr => (Segment.bomb ⟨b.data, bombSize, Propagate.deflateProp e⟩ :: pr.1, pr.2))

/-- `Payload::fill`: set every bomb of this layer to `bomb_size`
(running each propagator), then `fill_preset`. -/
def Payload.fill (p : Payload) (bomb_size : Nat) : Option Payload :=
  match p with
  | Payload.leaf segs =>
    match fillBombs segs none bomb_size with
    | none => none
    | some (segs2, _) => Payload.fill_preset (Payload.leaf segs2)
  | Payload.node segs c =>
    match fillBombs segs (some c) bomb_size with
    | none => none
    | some (segs2, some c2) => Payload.fill_preset (Payload.node segs2 c2)
    | some (_, none) => none

/-- Modelled from the spec: the `zlib` wrapper (§4.4) is not under
`src/` (only `main.rs` calls it).  "Prepend `[0x08, 0x1d]` (CMF, FLG
for DEFLATE/fastest).  Apply DEFLATE synthesis.  Append a 4-byte
`Unfilled` block of length 4 whose resolver computes Adler-32 of the
child." -/
def zlib (p : Payload) : Option Payload :=
  (deflate_raw p).map (fun body =>
    Payload.node
      (Segment.block ⟨BlockData.known [0x08, 0x1d], 2⟩ ::
        (body ++ [Segment.block ⟨BlockData.unfilled Resolver.adlerTrailer, 4⟩]))
      p)

/-! ## Sanity checks: the spec's test vectors S1 and S2 against the
reference checksums (bytes of the string "test abcabcabcd"). -/

theorem adlerRefBytes_vector_S1 :
    adlerRefBytes ([0x74, 0x65, 0x73, 0x74, 0x20]
      ++ bombExpand [0x61, 0x62, 0x63] 9 ++ [0x64]) = [0x2e, 0x12, 0x05, 0xb7] := by
  decide

set_option maxRecDepth 4000 in
theorem crcRefBytes_vector_S2 :
    crcRefBytes ([0x74, 0x65, 0x73, 0x74, 0x20]
      ++ bombExpand [0x61, 0x62, 0x63] 9 ++ [0x64]) = [0x9d, 0x1e, 0xef, 0xde] := by
  decide

/-! ## Claim C4 -/

/-- C4: refuted.  In `src/payload/matrix.rs` the output bits of
`CrcMatrix::apply` (and `multiply`) are NOT the parities of
`row_i & vector`: the popcount ladder `hamming` adds `n & mask` instead
of the previous stage at stages 2-6 and never reduces mod 2, so
`hamming 3 = 3` even though the parity of `3` (two set bits) is `0` and
its weight is `2`.  Applying the matrix whose row 1 is `0b11` to the
vector `v = 3` therefore returns `0x80000000`: output bit 31 is set
although the XOR of the bits of `row_1 &&& (v ||| 2^32) = 3` is `0`. -/
theorem C4_matrix_bits_not_parity :
    MatrixRs.hamming 3 = 3
    ∧ (List.range 64).foldl (fun a k => a ^^^ ((3 &&& (3 ||| 2 ^ 32)) >>> k &&& 1)) 0 = 0
    ∧ MatrixRs.apply (0 :: 3 :: List.replicate 31 0) 3 = 0x80000000
    ∧ Nat.testBit 0x80000000 31 = true := by
  decide

/-! ## Claim C9 -/

/-- C9: confirmed.  `deflate_raw` inspects
`payload.data[payload.data.len() - 1]` unconditionally, so it panics
exactly when the segment list is empty: the embedding returns `none`
iff `p.data = []` (and on a nonempty list both match arms produce
`some`). -/
theorem C9_deflate_raw_none_iff_empty (p : Payload) :
    deflate_raw p = none ↔ p.data = [] := by
  unfold deflate_raw
  cases h : p.data.getLast? with
  | none => simp [List.getLast?_eq_none_iff.mp h]
  | some s =>
    have hne : p.data ≠ [] := by
      intro he
      rw [he] at h
      simp at h
    cases s <;> simp [hne]

/-- Witness for C9 at concrete inputs: the empty payload maps to
`none`, a one-bomb payload does not. -/
theorem C9_deflate_raw_none_iff_empty_witness :
    deflate_raw (Payload.leaf []) = none
    ∧ deflate_raw (Payload.leaf [Segment.bomb (Bomb.new [0x41])]) ≠ none := by
  refine ⟨(C9_deflate_raw_none_iff_empty (Payload.leaf [])).mpr rfl, ?_⟩
  intro h
  have := (C9_deflate_raw_none_iff_empty (Payload.leaf [Segment.bomb (Bomb.new [0x41])])).mp h
  simp [Payload.data] at this

/-! ## Claim C3 -/

/-- C3: refuted as stated.  The deflate propagator of `payload.rs`
(line 655) sets `child_bomb.size = size * 1032 + 1290`, not
`1032 * size + 1291`.  Wrapping the one-bomb payload in `zlib` and
filling with size 1, the unique bomb of the child layer ends up with
size `2322 = 1032 * 1 + 1290`, not `1032 * 1 + 1291 = 2323`. -/
theorem C3_child_bomb_size_is_1290_offset :
    ((zlib (Payload.leaf [Segment.bomb (Bomb.new [0x41])])).bind
        (fun w => Payload.fill w 1)).bind
      (fun q => q.childOpt.map (fun c =>
        c.data.filterMap (fun s =>
          match s with
          | Segment.bomb b => some b.size
          | Segment.block _ => none)))
      = some [2322]
    ∧ (2322 : Nat) ≠ 1032 * 1 + 1291 := by
  decide

/-! ## Claim C7 -/

/-- C7: refuted as stated.  The terminator block appended by
`deflate_raw` after a trailing bomb is `Block::new(Box::new([0]))`
(line 677 of `payload.rs`): a single `0x00` byte, not `0x05`. -/
theorem C7_terminator_block_is_zero :
    (deflate_raw (Payload.leaf [Segment.bomb (Bomb.new [0x41])])).map
        (fun segs => segs.getLast?)
      = some (some (Segment.block (Block.new [0x00])))
    ∧ Block.new [0x00] ≠ Block.new [0x05] := by
  decide

/-! ## Claim C6 -/

/-- C6: refuted as stated.  For a group preceded by a bomb
(`start_c != 0`), `gen_block` (line 559 of `payload.rs`) pushes `0x02`
as the lead sub-block header byte, not `0x05` (offset `last_block = 0`
and mask `0x20` are as described).  On the three-segment source
`[Bomb [0x41], Block [0x58, 0x59], Bomb [0x41]]`, the second group's
wrapper block carries the resolver `gen_block(1, 3, true, true)`, and
running it against the filled child starts the output with `0x02`. -/
theorem C6_second_group_lead_byte_is_0x02 :
    (deflateLoop 3 [Segment.bomb (Bomb.new [0x41]),
        Segment.block (Block.new [0x58, 0x59]),
        Segment.bomb (Bomb.new [0x41])] 0)[2]?
      = some (Segment.block ⟨BlockData.unfilled (Resolver.genBlock 1 3 true true), 21⟩)
    ∧ ((Payload.fill (Payload.leaf [Segment.bomb (Bomb.new [0x41]),
          Segment.block (Block.new [0x58, 0x59]),
          Segment.bomb (Bomb.new [0x41])]) 5).bind
        (fun child => runResolver (Resolver.genBlock 1 3 true true) (some child)))
      = some [0x02, 0x03, 0x00, 0xfc, 0xff, 0x58, 0x59, 0x41,
              0xec, 0xc0, 0x81, 0x00, 0x00, 0x00, 0x00, 0x00, 0x90, 0xff, 0x6b, 0x23, 0x54]
    ∧ (0x02 : Nat) ≠ 0x05 := by
  decide

/-! ## Claim C1 -/

/-- C1: refuted.  The concrete bytes `ied deflate 1 -L 65` writes: the
wrapper's bomb propagates size `1 * 1032 + 1290 = 2322` into the child,
so even the length the program itself records for the innermost
expansion, 2322, differs from the `size * 1032^1 + 1291` of the
round-trip formula; a reference zlib decoder moreover decodes the
emitted member to 1807 bytes with a failing Adler check, not to the
child's expansion. -/
theorem C1_zlib_write_bytes :
    ((zlib (Payload.leaf [Segment.bomb (Bomb.new [0x41])])).bind
        (fun w => Payload.fill w 1)).bind Payload.write
      = some [0x08, 0x1d, 0x00, 0x01, 0x00, 0xfe, 0xff, 0x41,
              0xed, 0xc0, 0x81, 0x00, 0x00, 0x00, 0x00, 0x00, 0x90, 0xff, 0x6b, 0x23, 0x54,
              0x55, 0x00, 0x97, 0xba, 0x4d, 0xb1]
    ∧ ((zlib (Payload.leaf [Segment.bomb (Bomb.new [0x41])])).bind
        (fun w => Payload.fill w 1)).map
          (fun q => q.childOpt.map Payload.data)
      = some (some [Segment.bomb ⟨[0x41], 2322, Propagate.noProp⟩])
    ∧ (bombExpand [0x41] 2322).length = 2322
    ∧ (2322 : Nat) ≠ 1 * 1032 + 1291 := by
  refine ⟨by decide, by decide, ?_, by decide⟩
  simp [bombExpand]

/-! ## Claim C10: the frame property of filling

`segPreserved s s'` says segment `s'` retains all content already
materialized in `s`: a `Known` block's bytes are unchanged, and a
bomb's pattern is unchanged (its size may be set). -/

def segPreserved : Segment → Segment → Prop
  | Segment.block b1, Segment.block b2 =>
    ∀ d, b1.data = BlockData.known d → b2.data = BlockData.known d
  | Segment.bomb b1, Segment.bomb b2 => b2.data = b1.data
  | _, _ => False

/-- Layer-by-layer preservation of materialized content. -/
def Payload.Preserves : Payload → Payload → Prop
  | Payload.leaf d1, Payload.leaf d2 => List.Forall₂ segPreserved d1 d2
  | Payload.node d1 c1, Payload.node d2 c2 =>
    List.Forall₂ segPreserved d1 d2 ∧ Payload.Preserves c1 c2
  | _, _ => False

def optPreserves : Option Payload → Option Payload → Prop
  | none, none => True
  | some c1, some c2 => Payload.Preserves c1 c2
  | _, _ => False

theorem segPreserved_refl (s : Segment) : segPreserved s s := by
  cases s with
  | block b => intro d hd; exact hd
  | bomb b => rfl

theorem segPreserved_trans {a b c : Segment} (h1 : segPreserved a b)
    (h2 : segPreserved b c) : segPreserved a c := by
  cases a <;> cases b <;> cases c <;> simp [segPreserved] at *
  · intro d hd
    exact h2 d (h1 d hd)
  · exact h2.trans h1

theorem forall₂_segPreserved_refl (l : List Segment) : List.Forall₂ segPreserved l l := by
  induction l with
  | nil => exact List.Forall₂.nil
  | cons a t ih => exact List.Forall₂.cons (segPreserved_refl a) ih

theorem forall₂_segPreserved_trans : ∀ {l1 l2 l3 : List Segment},
    List.Forall₂ segPreserved l1 l2 → List.Forall₂ segPreserved l2 l3 →
    List.Forall₂ segPreserved l1 l3 := by
  intro l1 l2 l3 h1 h2
  induction h1 generalizing l3 with
  | nil => cases h2; exact List.Forall₂.nil
  | cons hab ht ih =>
    cases h2 with
    | cons hbc ht2 => exact List.Forall₂.cons (segPreserved_trans hab hbc) (ih ht2)

theorem preserves_refl (p : Payload) : Payload.Preserves p p := by
  induction p with
  | leaf d => exact forall₂_segPreserved_refl d
  | node d c ih => exact ⟨forall₂_segPreserved_refl d, ih⟩

theorem preserves_trans : ∀ {p q r : Payload},
    Payload.Preserves p q → Payload.Preserves q r → Payload.Preserves p r := by
  intro p
  induction p with
  | leaf d =>
    intro q r h1 h2
    cases q <;> cases r <;> simp [Payload.Preserves] at *
    exact forall₂_segPreserved_trans h1 h2
  | node d c ih =>
    intro q r h1 h2
    cases q <;> cases r <;> simp [Payload.Preserves] at *
    exact ⟨forall₂_segPreserved_trans h1.1 h2.1, ih h1.2 h2.2⟩

theorem optPreserves_trans : ∀ {a b c : Option Payload},
    optPreserves a b → optPreserves b c → optPreserves a c := by
  intro a b c h1 h2
  cases a <;> cases b <;> cases c <;> simp [optPreserves] at *
  exact preserves_trans h1 h2

/-- Setting an index that holds a bomb to a bomb with the same pattern
preserves every segment. -/
theorem forall₂_set_bomb : ∀ (segs : List Segment) (e : Nat) (b : Bomb) (sz : Nat),
    segs[e]? = some (Segment.bomb b) →
    List.Forall₂ segPreserved segs (segs.set e (Segment.bomb ⟨b.data, sz, b.fill⟩)) := by
  intro segs
  induction segs with
  | nil => intro e b sz h; simp at h
  | cons a t ih =>
    intro e b sz h
    cases e with
    | zero =>
      simp at h
      subst h
      exact List.Forall₂.cons rfl (forall₂_segPreserved_refl t)
    | succ e =>
      simp at h
      exact List.Forall₂.cons (segPreserved_refl a) (ih e b sz h)

/-- `propagateAt` on a childless layer: the `if let` skips a block. -/
theorem propagateAt_leaf_block (segs : List Segment) (e sz : Nat) (b : Block)
    (h : segs[e]? = some (Segment.block b)) :
    propagateAt (Payload.leaf segs) e sz = some (Payload.leaf segs) := by
  simp only [propagateAt, h]

theorem propagateAt_leaf_noProp (segs : List Segment) (e sz : Nat) (b : Bomb)
    (h : segs[e]? = some (Segment.bomb b)) (hf : b.fill = Propagate.noProp) :
    propagateAt (Payload.leaf segs) e sz
      = some (Payload.leaf (segs.set e (Segment.bomb ⟨b.data, sz, b.fill⟩))) := by
  simp only [propagateAt, h, hf]

theorem propagateAt_node_block (segs : List Segment) (gc : Payload) (e sz : Nat) (b : Block)
    (h : segs[e]? = some (Segment.block b)) :
    propagateAt (Payload.node segs gc) e sz = some (Payload.node segs gc) := by
  simp only [propagateAt, h]

theorem propagateAt_node_noProp (segs : List Segment) (gc : Payload) (e sz : Nat) (b : Bomb)
    (h : segs[e]? = some (Segment.bomb b)) (hf : b.fill = Propagate.noProp) :
    propagateAt (Payload.node segs gc) e sz
      = some (Payload.node (segs.set e (Segment.bomb ⟨b.data, sz, b.fill⟩)) gc) := by
  simp only [propagateAt, h, hf]

theorem propagateAt_node_deflate (segs : List Segment) (gc : Payload) (e sz e2 : Nat)
    (b : Bomb) (gc2 : Payload) (h : segs[e]? = some (Segment.bomb b))
    (hf : b.fill = Propagate.deflateProp e2)
    (hrec : propagateAt gc e2 (sz * 1032 + 1290) = some gc2) :
    propagateAt (Payload.node segs gc) e sz
      = some (Payload.node (segs.set e (Segment.bomb ⟨b.data, sz, b.fill⟩)) gc2) := by
  simp only [propagateAt, h, hf, hrec]

theorem propagateAt_leaf_inv (segs : List Segment) (e sz : Nat) (c2 : Payload)
    (h : propagateAt (Payload.leaf segs) e sz = some c2) :
    (∃ b, segs[e]? = some (Segment.block b) ∧ c2 = Payload.leaf segs)
    ∨ (∃ b, segs[e]? = some (Segment.bomb b) ∧ b.fill = Propagate.noProp
        ∧ c2 = Payload.leaf (segs.set e (Segment.bomb ⟨b.data, sz, b.fill⟩))) := by
  simp only [propagateAt] at h
  split at h
  · exact absurd h (by simp)
  · rename_i b heq
    simp at h
    exact Or.inl ⟨b, heq, h.symm⟩
  · rename_i b heq
    split at h
    · rename_i hf
      simp at h
      exact Or.inr ⟨b, heq, hf, h.symm⟩
    · exact absurd h (by simp)

theorem propagateAt_node_inv (segs : List Segment) (gc : Payload) (e sz : Nat) (c2 : Payload)
    (h : propagateAt (Payload.node segs gc) e sz = some c2) :
    (∃ b, segs[e]? = some (Segment.block b) ∧ c2 = Payload.node segs gc)
    ∨ (∃ b, segs[e]? = some (Segment.bomb b) ∧ b.fill = Propagate.noProp
        ∧ c2 = Payload.node (segs.set e (Segment.bomb ⟨b.data, sz, b.fill⟩)) gc)
    ∨ (∃ b e2 gc2, segs[e]? = some (Segment.bomb b) ∧ b.fill = Propagate.deflateProp e2
        ∧ propagateAt gc e2 (sz * 1032 + 1290) = some gc2
        ∧ c2 = Payload.node (segs.set e (Segment.bomb ⟨b.data, sz, b.fill⟩)) gc2) := by
  simp only [propagateAt] at h
  split at h
  · exact absurd h (by simp)
  · rename_i b heq
    simp at h
    exact Or.inl ⟨b, heq, h.symm⟩
  · rename_i b heq
    split at h
    · rename_i hf
      simp at h
      exact Or.inr (Or.inl ⟨b, heq, hf, h.symm⟩)
    · rename_i e2 hf
      split at h
      · exact absurd h (by simp)
      · rename_i gc2 hrec
        simp at h
        exact Or.inr (Or.inr ⟨b, e2, gc2, heq, hf, hrec, h.symm⟩)

theorem propagateAt_preserves : ∀ (c : Payload) (e sz : Nat) (c2 : Payload),
    propagateAt c e sz = some c2 → Payload.Preserves c c2 := by
  intro c
  induction c with
  | leaf segs =>
    intro e sz c2 h
    rcases propagateAt_leaf_inv segs e sz c2 h with ⟨b, hseg, hc⟩ | ⟨b, hseg, hf, hc⟩
    · subst hc
      exact preserves_refl _
    · subst hc
      exact forall₂_set_bomb segs e b sz hseg
  | node segs c ih =>
    intro e sz c2 h
    rcases propagateAt_node_inv segs c e sz c2 h with
      ⟨b, hseg, hc⟩ | ⟨b, hseg, hf, hc⟩ | ⟨b, e2, gc2, hseg, hf, hrec, hc⟩
    · subst hc
      exact preserves_refl _
    · subst hc
      exact ⟨forall₂_set_bomb segs e b sz hseg, preserves_refl c⟩
    · subst hc
      exact ⟨forall₂_set_bomb segs e b sz hseg, ih e2 (sz * 1032 + 1290) gc2 hrec⟩

theorem fillBombs_preserves : ∀ (segs : List Segment) (child : Option Payload) (s : Nat)
    (segs2 : List Segment) (child2 : Option Payload),
    fillBombs segs child s = some (segs2, child2) →
    List.Forall₂ segPreserved segs segs2 ∧ optPreserves child child2 := by
  intro segs
  induction segs with
  | nil =>
    intro child s segs2 child2 h
    simp [fillBombs] at h
    obtain ⟨h1, h2⟩ := h
    subst h1; subst h2
    constructor
    · exact List.Forall₂.nil
    · cases child <;> simp [optPreserves, preserves_refl]
  | cons a t ih =>
    intro child s segs2 child2 h
    cases a with
    | block b =>
      simp only [fillBombs] at h
      cases hr : fillBombs t child s with
      | none => rw [hr] at h; exact absurd h (by simp)
      | some pr =>
        rw [hr] at h
        simp at h
        obtain ⟨h1, h2⟩ := h
        subst h1; subst h2
        obtain ⟨ha, hb⟩ := ih child s pr.1 pr.2 hr
        exact ⟨List.Forall₂.cons (segPreserved_refl _) ha, hb⟩
    | bomb b =>
      obtain ⟨bd, bsz, bf⟩ := b
      cases bf with
      | noProp =>
        simp only [fillBombs] at h
        cases hr : fillBombs t child s with
        | none => rw [hr] at h; exact absurd h (by simp)
        | some pr =>
          rw [hr] at h
          simp at h
          obtain ⟨h1, h2⟩ := h
          subst h1; subst h2
          obtain ⟨ha, hb⟩ := ih child s pr.1 pr.2 hr
          exact ⟨List.Forall₂.cons rfl ha, hb⟩
      | deflateProp e =>
        cases child with
        | none => simp [fillBombs] at h
        | some c =>
          cases hp : propagateAt c e (s * 1032 + 1290) with
          | none => simp [fillBombs, hp] at h
          | some c2 =>
            cases hr : fillBombs t (some c2) s with
            | none => simp [fillBombs, hp, hr] at h
            | some pr =>
              simp only [fillBombs, hp, hr] at h
              simp at h
              obtain ⟨h1, h2⟩ := h
              subst h1; subst h2
              obtain ⟨ha, hb⟩ := ih (some c2) s pr.1 pr.2 hr
              refine ⟨List.Forall₂.cons rfl ha, ?_⟩
              exact optPreserves_trans
                (show optPreserves (some c) (some c2) from propagateAt_preserves c e _ c2 hp) hb

theorem blockFill_preserves (b : Block) (child : Option Payload) (b2 : Block)
    (h : Block.fill b child = some b2) :
    segPreserved (Segment.block b) (Segment.block b2) := by
  intro d hd
  simp only [Block.fill] at h
  rw [hd] at h
  simp at h
  rw [← h, hd]

theorem fillBlocks_preserves : ∀ (segs : List Segment) (child : Option Payload)
    (segs2 : List Segment), fillBlocks segs child = some segs2 →
    List.Forall₂ segPreserved segs segs2 := by
  intro segs
  induction segs with
  | nil =>
    intro child segs2 h
    simp [fillBlocks] at h
    subst h
    exact List.Forall₂.nil
  | cons a t ih =>
    intro child segs2 h
    cases a with
    | block b =>
      simp only [fillBlocks] at h
      cases hb : Block.fill b child with
      | none => rw [hb] at h; exact absurd h (by simp)
      | some b2 =>
        rw [hb] at h
        cases hr : fillBlocks t child with
        | none => rw [hr] at h; exact absurd h (by simp)
        | some r =>
          rw [hr] at h
          simp at h
          subst h
          exact List.Forall₂.cons (blockFill_preserves b child b2 hb) (ih child r hr)
    | bomb b =>
      simp only [fillBlocks] at h
      cases hr : fillBlocks t child with
      | none => rw [hr] at h; exact absurd h (by simp)
      | some r =>
        rw [hr] at h
        simp at h
        subst h
        exact List.Forall₂.cons (segPreserved_refl _) (ih child r hr)

theorem fill_preset_preserves : ∀ (p : Payload) (q : Payload),
    Payload.fill_preset p = some q → Payload.Preserves p q := by
  intro p
  induction p with
  | leaf segs =>
    intro q h
    simp only [Payload.fill_preset] at h
    cases hb : fillBlocks segs none with
    | none => rw [hb] at h; exact absurd h (by simp)
    | some segs2 =>
      rw [hb] at h
      simp at h
      subst h
      exact fillBlocks_preserves segs none segs2 hb
  | node segs c ih =>
    intro q h
    simp only [Payload.fill_preset] at h
    split at h
    · exact absurd h (by simp)
    · rename_i c2 hc
      split at h
      · exact absurd h (by simp)
      · rename_i segs2 hb
        simp at h
        subst h
        exact ⟨fillBlocks_preserves segs (some c2) segs2 hb, ih c2 hc⟩

/-- C10: confirmed.  `Payload::fill` (and `Payload::fill_preset`)
never change the bytes of a `Known` block and never change a bomb's
pattern, at any layer: whenever they succeed, the result is related to
the input by `Payload.Preserves` (every `Known` block keeps its exact
data, every bomb keeps its exact pattern, layer by layer). -/
theorem C10_fill_frame (p : Payload) (s : Nat) (q r : Payload) :
    (Payload.fill p s = some q → Payload.Preserves p q)
    ∧ (Payload.fill_preset p = some r → Payload.Preserves p r) := by
  constructor
  · intro h
    cases p with
    | leaf segs =>
      simp only [Payload.fill] at h
      cases hb : fillBombs segs none s with
      | none => rw [hb] at h; exact absurd h (by simp)
      | some pr =>
        rw [hb] at h
        have h1 := (fillBombs_preserves segs none s pr.1 pr.2 (by rw [hb])).1
        have h2 := fill_preset_preserves (Payload.leaf pr.1) q h
        exact preserves_trans (show Payload.Preserves (Payload.leaf segs) (Payload.leaf pr.1)
          from h1) h2
    | node segs c =>
      simp only [Payload.fill] at h
      cases hb : fillBombs segs (some c) s with
      | none => rw [hb] at h; exact absurd h (by simp)
      | some pr =>
        rw [hb] at h
        obtain ⟨segs2, ch2⟩ := pr
        cases ch2 with
        | none => exact absurd h (by simp)
        | some c2 =>
          simp at h
          have h1 := fillBombs_preserves segs (some c) s segs2 (some c2) hb
          have h2 := fill_preset_preserves (Payload.node segs2 c2) q h
          exact preserves_trans
            (show Payload.Preserves (Payload.node segs c) (Payload.node segs2 c2)
              from ⟨h1.1, h1.2⟩) h2
  · exact fill_preset_preserves p r

/-- Witness for C10: the concrete one-block one-bomb payload, filled
with size 5, is `Preserves`-related to its fill (and to its
`fill_preset`, which is the identity there). -/
theorem C10_fill_frame_witness :
    (Payload.fill (Payload.leaf [Segment.block (Block.new [0x41]),
        Segment.bomb (Bomb.new [0x42])]) 5
      = some (Payload.leaf [Segment.block (Block.new [0x41]),
        Segment.bomb ⟨[0x42], 5, Propagate.noProp⟩])
    ∧ Payload.Preserves
        (Payload.leaf [Segment.block (Block.new [0x41]), Segment.bomb (Bomb.new [0x42])])
        (Payload.leaf [Segment.block (Block.new [0x41]),
          Segment.bomb ⟨[0x42], 5, Propagate.noProp⟩]))
    ∧ (Payload.fill_preset (Payload.leaf [Segment.block (Block.new [0x41])])
        = some (Payload.leaf [Segment.block (Block.new [0x41])])
    ∧ Payload.Preserves (Payload.leaf [Segment.block (Block.new [0x41])])
        (Payload.leaf [Segment.block (Block.new [0x41])])) :=
  ⟨⟨by decide,
    (C10_fill_frame (Payload.leaf [Segment.block (Block.new [0x41]),
        Segment.bomb (Bomb.new [0x42])]) 5
      (Payload.leaf [Segment.block (Block.new [0x41]),
        Segment.bomb ⟨[0x42], 5, Propagate.noProp⟩])
      (Payload.leaf [Segment.block (Block.new [0x41]),
        Segment.bomb ⟨[0x42], 5, Propagate.noProp⟩])).1 (by decide)⟩,
   ⟨by decide,
    (C10_fill_frame (Payload.leaf [Segment.block (Block.new [0x41])]) 0
      (Payload.leaf [Segment.block (Block.new [0x41])])
      (Payload.leaf [Segment.block (Block.new [0x41])])).2 (by decide)⟩⟩

/-! ## Claim C8: idempotence of `fill`

Re-running `fill` with the same size rewrites every bomb size with the
value it already has and re-resolves nothing (all blocks are `Known`
after the first run).  `sameBomb`/`PBM` relate two payloads whose
bombs agree exactly (blocks arbitrary): re-running the bomb pass only
looks at bombs, so its behaviour transports along `PBM` — which is how
the block pass (`fill_preset`) interleaves with it. -/

def sameBomb : Segment → Segment → Prop
  | Segment.bomb b, Segment.bomb b2 => b2 = b
  | Segment.block _, Segment.block _ => True
  | _, _ => False

def PBM : Payload → Payload → Prop
  | Payload.leaf s1, Payload.leaf s2 => List.Forall₂ sameBomb s1 s2
  | Payload.node s1 c1, Payload.node s2 c2 => List.Forall₂ sameBomb s1 s2 ∧ PBM c1 c2
  | _, _ => False

def optPBM : Option Payload → Option Payload → Prop
  | none, none => True
  | some a, some b => PBM a b
  | _, _ => False

theorem lt_length_of_getElem? {α : Type} {l : List α} {e : Nat} {x : α}
    (h : l[e]? = some x) : e < l.length := by
  by_contra hn
  rw [List.getElem?_eq_none (by omega)] at h
  exact absurd h (by simp)

theorem set_getElem?_eq {α : Type} : ∀ (l : List α) (e : Nat) (x : α),
    l[e]? = some x → l.set e x = l := by
  intro l
  induction l with
  | nil => intro e x h; simp at h
  | cons a t ih =>
    intro e x h
    cases e with
    | zero => simp at h; simp [h]
    | succ e => simp at h; simp [ih e x h]

theorem forall₂_getElem? {α β : Type} {r : α → β → Prop} :
    ∀ {l1 : List α} {l2 : List β}, List.Forall₂ r l1 l2 →
    ∀ (e : Nat) (x : α), l1[e]? = some x → ∃ y, l2[e]? = some y ∧ r x y := by
  intro l1 l2 h
  induction h with
  | nil => intro e x hx; simp at hx
  | cons hab ht ih =>
    intro e x hx
    cases e with
    | zero =>
      simp at hx
      subst hx
      exact ⟨_, by simp, hab⟩
    | succ e =>
      simp at hx
      obtain ⟨y, hy, hr⟩ := ih e x hx
      exact ⟨y, by simpa using hy, hr⟩

/-- Once propagated, an index is settled: re-propagating it with the
same size is the identity. -/
theorem propagateAt_idem : ∀ (c : Payload) (e sz : Nat) (c2 : Payload),
    propagateAt c e sz = some c2 → propagateAt c2 e sz = some c2 := by
  intro c
  induction c with
  | leaf segs =>
    intro e sz c2 h
    rcases propagateAt_leaf_inv segs e sz c2 h with ⟨b, hseg, hc⟩ | ⟨b, hseg, hf, hc⟩
    · subst hc
      exact propagateAt_leaf_block segs e sz b hseg
    · subst hc
      rw [propagateAt_leaf_noProp (segs.set e (Segment.bomb ⟨b.data, sz, b.fill⟩)) e sz
        ⟨b.data, sz, b.fill⟩
        (List.getElem?_set_self (by simpa using lt_length_of_getElem? hseg)) hf]
      rw [List.set_set]
  | node segs gc ih =>
    intro e sz c2 h
    rcases propagateAt_node_inv segs gc e sz c2 h with
      ⟨b, hseg, hc⟩ | ⟨b, hseg, hf, hc⟩ | ⟨b, e2, gc2, hseg, hf, hrec, hc⟩
    · subst hc
      exact propagateAt_node_block segs gc e sz b hseg
    · subst hc
      rw [propagateAt_node_noProp (segs.set e (Segment.bomb ⟨b.data, sz, b.fill⟩)) gc e sz
        ⟨b.data, sz, b.fill⟩
        (List.getElem?_set_self (by simpa using lt_length_of_getElem? hseg)) hf]
      rw [List.set_set]
    · subst hc
      rw [propagateAt_node_deflate (segs.set e (Segment.bomb ⟨b.data, sz, b.fill⟩)) gc2 e sz
        e2 ⟨b.data, sz, b.fill⟩ gc2
        (List.getElem?_set_self (by simpa using lt_length_of_getElem? hseg)) hf
        (ih e2 (sz * 1032 + 1290) gc2 hrec)]
      rw [List.set_set]

/-- The bomb written back by a settled propagation is the one already
present. -/
theorem settled_leaf_bomb {segs : List Segment} {e sz : Nat} {b : Bomb}
    (hseg : segs[e]? = some (Segment.bomb b))
    (hset : segs.set e (Segment.bomb ⟨b.data, sz, b.fill⟩) = segs) :
    Segment.bomb b = Segment.bomb (⟨b.data, sz, b.fill⟩ : Bomb) := by
  have : segs[e]? = some (Segment.bomb ⟨b.data, sz, b.fill⟩) := by
    rw [← hset]
    exact List.getElem?_set_self (by simpa using lt_length_of_getElem? hseg)
  rw [hseg] at this
  exact Option.some_injective _ this

/-- Settledness of one index survives propagating any other index with
the same layer size. -/
theorem propagateAt_settled_pres : ∀ (c : Payload) (e e' sz : Nat) (c2 : Payload),
    propagateAt c e sz = some c → propagateAt c e' sz = some c2 →
    propagateAt c2 e sz = some c2 := by
  intro c
  induction c with
  | leaf segs =>
    intro e e' sz c2 h1 h2
    by_cases hee : e' = e
    · subst hee
      rw [h1] at h2
      cases h2
      exact h1
    · rcases propagateAt_leaf_inv segs e' sz c2 h2 with ⟨b', hseg', hc⟩ | ⟨b', hseg', hf', hc⟩
      · subst hc
        exact h1
      · subst hc
        rcases propagateAt_leaf_inv segs e sz _ h1 with ⟨b, hseg, _⟩ | ⟨b, hseg, hf, hc1⟩
        · exact propagateAt_leaf_block _ e sz b
            (by rw [List.getElem?_set_ne hee]; exact hseg)
        · have hbb : Segment.bomb b = Segment.bomb (⟨b.data, sz, b.fill⟩ : Bomb) :=
            settled_leaf_bomb hseg (congrArg Payload.data hc1.symm)
          rw [propagateAt_leaf_noProp _ e sz b
            (by rw [List.getElem?_set_ne hee]; exact hseg) hf]
          rw [← hbb, set_getElem?_eq _ e _
            (by rw [List.getElem?_set_ne hee]; exact hseg)]
  | node segs gc ih =>
    intro e e' sz c2 h1 h2
    by_cases hee : e' = e
    · subst hee
      rw [h1] at h2
      cases h2
      exact h1
    · rcases propagateAt_node_inv segs gc e' sz c2 h2 with
        ⟨b', hseg', hc⟩ | ⟨b', hseg', hf', hc⟩ | ⟨b', e2', gc2', hseg', hf', hrec', hc⟩
      · subst hc
        exact h1
      · -- the other index is a plain bomb: the grandchild is untouched
        subst hc
        rcases propagateAt_node_inv segs gc e sz _ h1 with
          ⟨b, hseg, _⟩ | ⟨b, hseg, hf, hc1⟩ | ⟨b, e2, gc2, hseg, hf, hrec, hc1⟩
        · exact propagateAt_node_block _ gc e sz b
            (by rw [List.getElem?_set_ne hee]; exact hseg)
        · have hbb : Segment.bomb b = Segment.bomb (⟨b.data, sz, b.fill⟩ : Bomb) :=
            settled_leaf_bomb hseg (congrArg Payload.data hc1.symm)
          rw [propagateAt_node_noProp _ gc e sz b
            (by rw [List.getElem?_set_ne hee]; exact hseg) hf]
          rw [← hbb, set_getElem?_eq _ e _
            (by rw [List.getElem?_set_ne hee]; exact hseg)]
        · have hgc : gc = gc2 := by
            have h3 := congrArg Payload.childOpt hc1
            simp [Payload.childOpt] at h3
            exact h3
          subst hgc
          have hbb : Segment.bomb b = Segment.bomb (⟨b.data, sz, b.fill⟩ : Bomb) :=
            settled_leaf_bomb hseg (congrArg Payload.data hc1.symm)
          rw [propagateAt_node_deflate _ gc e sz e2 b gc
            (by rw [List.getElem?_set_ne hee]; exact hseg) hf hrec]
          rw [← hbb, set_getElem?_eq _ e _
            (by rw [List.getElem?_set_ne hee]; exact hseg)]
      · -- the other index is a deflate bomb: the grandchild advances
        subst hc
        rcases propagateAt_node_inv segs gc e sz _ h1 with
          ⟨b, hseg, _⟩ | ⟨b, hseg, hf, hc1⟩ | ⟨b, e2, gc2, hseg, hf, hrec, hc1⟩
        · exact propagateAt_node_block _ gc2' e sz b
            (by rw [List.getElem?_set_ne hee]; exact hseg)
        · have hbb : Segment.bomb b = Segment.bomb (⟨b.data, sz, b.fill⟩ : Bomb) :=
            settled_leaf_bomb hseg (congrArg Payload.data hc1.symm)
          rw [propagateAt_node_noProp _ gc2' e sz b
            (by rw [List.getElem?_set_ne hee]; exact hseg) hf]
          rw [← hbb, set_getElem?_eq _ e _
            (by rw [List.getElem?_set_ne hee]; exact hseg)]
        · have hgc : gc = gc2 := by
            have h3 := congrArg Payload.childOpt hc1
            simp [Payload.childOpt] at h3
            exact h3
          subst hgc
          have hbb : Segment.bomb b = Segment.bomb (⟨b.data, sz, b.fill⟩ : Bomb) :=
            settled_leaf_bomb hseg (congrArg Payload.data hc1.symm)
          rw [propagateAt_node_deflate _ gc2' e sz e2 b gc2'
            (by rw [List.getElem?_set_ne hee]; exact hseg) hf
            (ih e2 e2' (sz * 1032 + 1290) gc2' hrec hrec')]
          rw [← hbb, set_getElem?_eq _ e _
            (by rw [List.getElem?_set_ne hee]; exact hseg)]

theorem fillBombs_none : ∀ (segs : List Segment) (s : Nat) (l : List Segment)
    (ch : Option Payload), fillBombs segs none s = some (l, ch) → ch = none := by
  intro segs
  induction segs with
  | nil => intro s l ch h; simp [fillBombs] at h; exact h.2.symm
  | cons a t ih =>
    intro s l ch h
    cases a with
    | block b =>
      simp only [fillBombs] at h
      cases hr : fillBombs t none s with
      | none => rw [hr] at h; exact absurd h (by simp)
      | some pr =>
        rw [hr] at h
        simp at h
        rw [← h.2]
        exact ih s pr.1 pr.2 (by rw [hr])
    | bomb b =>
      obtain ⟨bd, bsz, bf⟩ := b
      cases bf with
      | noProp =>
        simp only [fillBombs] at h
        cases hr : fillBombs t none s with
        | none => rw [hr] at h; exact absurd h (by simp)
        | some pr =>
          rw [hr] at h
          simp at h
          rw [← h.2]
          exact ih s pr.1 pr.2 (by rw [hr])
      | deflateProp e => simp [fillBombs] at h

/-- The child evolves only by same-size propagations, so every settled
index stays settled across the bomb pass. -/
theorem fillBombs_child : ∀ (segs : List Segment) (c : Payload) (s : Nat)
    (l : List Segment) (ch' : Option Payload),
    fillBombs segs (some c) s = some (l, ch') →
    ∃ c', ch' = some c'
      ∧ ∀ e, propagateAt c e (s * 1032 + 1290) = some c →
          propagateAt c' e (s * 1032 + 1290) = some c' := by
  intro segs
  induction segs with
  | nil =>
    intro c s l ch' h
    simp [fillBombs] at h
    exact ⟨c, h.2.symm, fun e hs => hs⟩
  | cons a t ih =>
    intro c s l ch' h
    cases a with
    | block b =>
      simp only [fillBombs] at h
      cases hr : fillBombs t (some c) s with
      | none => rw [hr] at h; exact absurd h (by simp)
      | some pr =>
        rw [hr] at h
        simp at h
        obtain ⟨c', hc', T⟩ := ih c s pr.1 pr.2 (by rw [hr])
        exact ⟨c', h.2 ▸ hc', T⟩
    | bomb b =>
      obtain ⟨bd, bsz, bf⟩ := b
      cases bf with
      | noProp =>
        simp only [fillBombs] at h
        cases hr : fillBombs t (some c) s with
        | none => rw [hr] at h; exact absurd h (by simp)
        | some pr =>
          rw [hr] at h
          simp at h
          obtain ⟨c', hc', T⟩ := ih c s pr.1 pr.2 (by rw [hr])
          exact ⟨c', h.2 ▸ hc', T⟩
      | deflateProp e0 =>
        cases hp : propagateAt c e0 (s * 1032 + 1290) with
        | none => simp [fillBombs, hp] at h
        | some c2 =>
          cases hr : fillBombs t (some c2) s with
          | none => simp [fillBombs, hp, hr] at h
          | some pr =>
            simp only [fillBombs, hp, hr] at h
            simp at h
            obtain ⟨c', hc', T⟩ := ih c2 s pr.1 pr.2 (by rw [hr])
            refine ⟨c', h.2 ▸ hc', fun e hs => ?_⟩
            exact T e (propagateAt_settled_pres c e e0 (s * 1032 + 1290) c2 hs hp)

theorem fillBlocks_bombsMatch : ∀ (segs : List Segment) (ch : Option Payload)
    (segs2 : List Segment), fillBlocks segs ch = some segs2 →
    List.Forall₂ sameBomb segs segs2 := by
  intro segs
  induction segs with
  | nil =>
    intro ch segs2 h
    simp [fillBlocks] at h
    subst h
    exact List.Forall₂.nil
  | cons a t ih =>
    intro ch segs2 h
    cases a with
    | block b =>
      simp only [fillBlocks] at h
      cases hb : Block.fill b ch with
      | none => rw [hb] at h; exact absurd h (by simp)
      | some b2 =>
        rw [hb] at h
        cases hr : fillBlocks t ch with
        | none => rw [hr] at h; exact absurd h (by simp)
        | some r =>
          rw [hr] at h
          simp at h
          subst h
          exact List.Forall₂.cons trivial (ih ch r hr)
    | bomb b =>
      simp only [fillBlocks] at h
      cases hr : fillBlocks t ch with
      | none => rw [hr] at h; exact absurd h (by simp)
      | some r =>
        rw [hr] at h
        simp at h
        subst h
        exact List.Forall₂.cons rfl (ih ch r hr)

theorem fill_preset_PBM : ∀ (p q : Payload), Payload.fill_preset p = some q → PBM p q := by
  intro p
  induction p with
  | leaf segs =>
    intro q h
    simp only [Payload.fill_preset] at h
    cases hb : fillBlocks segs none with
    | none => rw [hb] at h; exact absurd h (by simp)
    | some segs2 =>
      rw [hb] at h
      simp at h
      subst h
      exact fillBlocks_bombsMatch segs none segs2 hb
  | node segs c ih =>
    intro q h
    simp only [Payload.fill_preset] at h
    split at h
    · exact absurd h (by simp)
    · rename_i c2 hc
      split at h
      · exact absurd h (by simp)
      · rename_i segs2 hb
        simp at h
        subst h
        exact ⟨fillBlocks_bombsMatch segs (some c2) segs2 hb, ih c2 hc⟩

/-- Settledness transports along `PBM`: propagation only inspects and
rewrites bombs. -/
theorem pbm_settled : ∀ (c c' : Payload), PBM c c' → ∀ (e sz : Nat),
    propagateAt c e sz = some c → propagateAt c' e sz = some c' := by
  intro c
  induction c with
  | leaf segs =>
    intro c' hp e sz h
    cases c' with
    | node _ _ => simp [PBM] at hp
    | leaf segs' =>
      have hm : List.Forall₂ sameBomb segs segs' := hp
      rcases propagateAt_leaf_inv segs e sz _ h with ⟨b, hseg, _⟩ | ⟨b, hseg, hf, hc1⟩
      · obtain ⟨y, hy, hr⟩ := forall₂_getElem? hm e _ hseg
        cases y with
        | bomb b2 => exact absurd hr (by simp [sameBomb])
        | block b2 => exact propagateAt_leaf_block segs' e sz b2 hy
      · have hbb : Segment.bomb b = Segment.bomb (⟨b.data, sz, b.fill⟩ : Bomb) :=
          settled_leaf_bomb hseg (congrArg Payload.data hc1.symm)
        obtain ⟨y, hy, hr⟩ := forall₂_getElem? hm e _ hseg
        cases y with
        | block b2 => exact absurd hr (by simp [sameBomb])
        | bomb b2 =>
          have hb2 : b2 = b := hr
          subst hb2
          rw [propagateAt_leaf_noProp segs' e sz b2 hy hf]
          rw [← hbb, set_getElem?_eq _ e _ hy]
  | node segs gc ih =>
    intro c' hp e sz h
    cases c' with
    | leaf _ => simp [PBM] at hp
    | node segs' gc' =>
      obtain ⟨hm, hpc⟩ : List.Forall₂ sameBomb segs segs' ∧ PBM gc gc' := hp
      rcases propagateAt_node_inv segs gc e sz _ h with
        ⟨b, hseg, _⟩ | ⟨b, hseg, hf, hc1⟩ | ⟨b, e2, gc2, hseg, hf, hrec, hc1⟩
      · obtain ⟨y, hy, hr⟩ := forall₂_getElem? hm e _ hseg
        cases y with
        | bomb b2 => exact absurd hr (by simp [sameBomb])
        | block b2 => exact propagateAt_node_block segs' gc' e sz b2 hy
      · have hbb : Segment.bomb b = Segment.bomb (⟨b.data, sz, b.fill⟩ : Bomb) :=
          settled_leaf_bomb hseg (congrArg Payload.data hc1.symm)
        obtain ⟨y, hy, hr⟩ := forall₂_getElem? hm e _ hseg
        cases y with
        | block b2 => exact absurd hr (by simp [sameBomb])
        | bomb b2 =>
          have hb2 : b2 = b := hr
          subst hb2
          rw [propagateAt_node_noProp segs' gc' e sz b2 hy hf]
          rw [← hbb, set_getElem?_eq _ e _ hy]
      · have hgc : gc = gc2 := by
          have h3 := congrArg Payload.childOpt hc1
          simp [Payload.childOpt] at h3
          exact h3
        subst hgc
        have hbb : Segment.bomb b = Segment.bomb (⟨b.data, sz, b.fill⟩ : Bomb) :=
          settled_leaf_bomb hseg (congrArg Payload.data hc1.symm)
        obtain ⟨y, hy, hr⟩ := forall₂_getElem? hm e _ hseg
        cases y with
        | block b2 => exact absurd hr (by simp [sameBomb])
        | bomb b2 =>
          have hb2 : b2 = b := hr
          subst hb2
          rw [propagateAt_node_deflate segs' gc' e sz e2 b2 gc' hy hf
            (ih gc' hpc e2 (sz * 1032 + 1290) hrec)]
          rw [← hbb, set_getElem?_eq _ e _ hy]

/-- Re-running the bomb pass after a first successful pass (on any
bomb-identical segment list, against any bomb-identical child) is the
identity. -/
theorem fillBombs_rerun : ∀ (segs : List Segment) (ch : Option Payload) (s : Nat)
    (segs2 : List Segment) (ch2 : Option Payload) (segs3 : List Segment)
    (ch3 : Option Payload),
    fillBombs segs ch s = some (segs2, ch2) →
    List.Forall₂ sameBomb segs2 segs3 → optPBM ch2 ch3 →
    fillBombs segs3 ch3 s = some (segs3, ch3) := by
  intro segs
  induction segs with
  | nil =>
    intro ch s segs2 ch2 segs3 ch3 h hm hpbm
    simp [fillBombs] at h
    obtain ⟨h1, h2⟩ := h
    subst h1
    cases hm
    simp [fillBombs]
  | cons a t ih =>
    intro ch s segs2 ch2 segs3 ch3 h hm hpbm
    cases a with
    | block b =>
      simp only [fillBombs] at h
      cases hr : fillBombs t ch s with
      | none => rw [hr] at h; exact absurd h (by simp)
      | some pr =>
        rw [hr] at h
        simp at h
        obtain ⟨h1, h2⟩ := h
        subst h1
        cases hm with
        | cons hy hm2 =>
          rename_i y t3
          cases y with
          | bomb b3 => exact absurd hy (by simp [sameBomb])
          | block b3 =>
            have := ih ch s pr.1 pr.2 t3 ch3 (by rw [hr]) hm2 (h2 ▸ hpbm)
            simp [fillBombs, this]
    | bomb b =>
      obtain ⟨bd, bsz, bf⟩ := b
      cases bf with
      | noProp =>
        simp only [fillBombs] at h
        cases hr : fillBombs t ch s with
        | none => rw [hr] at h; exact absurd h (by simp)
        | some pr =>
          rw [hr] at h
          simp at h
          obtain ⟨h1, h2⟩ := h
          subst h1
          cases hm with
          | cons hy hm2 =>
            rename_i y t3
            cases y with
            | block b3 => exact absurd hy (by simp [sameBomb])
            | bomb b3 =>
              have hb3 : b3 = ⟨bd, s, Propagate.noProp⟩ := hy
              subst hb3
              have := ih ch s pr.1 pr.2 t3 ch3 (by rw [hr]) hm2 (h2 ▸ hpbm)
              simp [fillBombs, this]
      | deflateProp e0 =>
        cases ch with
        | none => simp [fillBombs] at h
        | some c =>
          cases hp : propagateAt c e0 (s * 1032 + 1290) with
          | none => simp [fillBombs, hp] at h
          | some c2 =>
            cases hr : fillBombs t (some c2) s with
            | none => simp [fillBombs, hp, hr] at h
            | some pr =>
              simp only [fillBombs, hp, hr] at h
              simp at h
              obtain ⟨h1, h2⟩ := h
              subst h1
              obtain ⟨c', hc', T⟩ := fillBombs_child t c2 s pr.1 pr.2 (by rw [hr])
              have hsc2 : propagateAt c2 e0 (s * 1032 + 1290) = some c2 :=
                propagateAt_idem c e0 (s * 1032 + 1290) c2 hp
              have hsc' : propagateAt c' e0 (s * 1032 + 1290) = some c' := T e0 hsc2
              have hch2 : ch2 = some c' := by rw [← h2, hc']
              cases ch3 with
              | none => rw [hch2] at hpbm; exact absurd hpbm (by simp [optPBM])
              | some c3 =>
                have hpbm' : PBM c' c3 := by rw [hch2] at hpbm; exact hpbm
                have hsc3 : propagateAt c3 e0 (s * 1032 + 1290) = some c3 :=
                  pbm_settled c' c3 hpbm' e0 (s * 1032 + 1290) hsc'
                cases hm with
                | cons hy hm2 =>
                  rename_i y t3
                  cases y with
                  | block b3 => exact absurd hy (by simp [sameBomb])
                  | bomb b3 =>
                    have hb3 : b3 = ⟨bd, s, Propagate.deflateProp e0⟩ := hy
                    subst hb3
                    have hIH := ih (some c2) s pr.1 pr.2 t3 (some c3) (by rw [hr]) hm2
                      (by rw [hc']; exact hpbm')
                    simp [fillBombs, hsc3, hIH]

/-- All blocks of a segment list are `Known`. -/
def allKnownSegs (segs : List Segment) : Prop :=
  ∀ s ∈ segs, ∀ b, s = Segment.block b → ∃ d, b.data = BlockData.known d

/-- All blocks of every layer are `Known`. -/
def AllKnownP : Payload → Prop
  | Payload.leaf segs => allKnownSegs segs
  | Payload.node segs c => allKnownSegs segs ∧ AllKnownP c

theorem fillBlocks_allKnown : ∀ (segs : List Segment) (ch : Option Payload)
    (segs2 : List Segment), fillBlocks segs ch = some segs2 → allKnownSegs segs2 := by
  intro segs
  induction segs with
  | nil =>
    intro ch segs2 h
    simp [fillBlocks] at h
    subst h
    intro s hs
    simp at hs
  | cons a t ih =>
    intro ch segs2 h
    cases a with
    | block b =>
      simp only [fillBlocks] at h
      cases hb : Block.fill b ch with
      | none => rw [hb] at h; exact absurd h (by simp)
      | some b2 =>
        rw [hb] at h
        cases hr : fillBlocks t ch with
        | none => rw [hr] at h; exact absurd h (by simp)
        | some r =>
          rw [hr] at h
          simp at h
          subst h
          intro s hs b3 hsb
          rcases List.mem_cons.mp hs with heq | hmem
          · subst heq
            cases hsb
            cases hbd : b.data with
            | known d =>
              simp only [Block.fill, hbd] at hb
              cases hb
              exact ⟨d, hbd⟩
            | unfilled r2 =>
              simp only [Block.fill, hbd] at hb
              cases hres : runResolver r2 ch with
              | none => rw [hres] at hb; exact absurd hb (by simp)
              | some d =>
                rw [hres] at hb
                simp at hb
                rw [← hb]
                exact ⟨d, rfl⟩
          · exact ih ch r hr s hmem b3 hsb
    | bomb b =>
      simp only [fillBlocks] at h
      cases hr : fillBlocks t ch with
      | none => rw [hr] at h; exact absurd h (by simp)
      | some r =>
        rw [hr] at h
        simp at h
        subst h
        intro s hs b3 hsb
        rcases List.mem_cons.mp hs with heq | hmem
        · subst heq; cases hsb
        · exact ih ch r hr s hmem b3 hsb

theorem fillBlocks_of_allKnown : ∀ (segs : List Segment), allKnownSegs segs →
    ∀ (ch : Option Payload), fillBlocks segs ch = some segs := by
  intro segs
  induction segs with
  | nil => intro _ ch; simp [fillBlocks]
  | cons a t ih =>
    intro hk ch
    have hkt : allKnownSegs t := fun s hs => hk s (List.mem_cons_of_mem a hs)
    cases a with
    | block b =>
      obtain ⟨d, hbd⟩ := hk (Segment.block b) (List.mem_cons_self (Segment.block b) t) b rfl
      simp [fillBlocks, Block.fill, hbd, ih hkt ch]
    | bomb b =>
      simp [fillBlocks, ih hkt ch]

theorem fill_preset_allKnown : ∀ (p q : Payload), Payload.fill_preset p = some q →
    AllKnownP q := by
  intro p
  induction p with
  | leaf segs =>
    intro q h
    simp only [Payload.fill_preset] at h
    cases hb : fillBlocks segs none with
    | none => rw [hb] at h; exact absurd h (by simp)
    | some segs2 =>
      rw [hb] at h
      simp at h
      subst h
      exact fillBlocks_allKnown segs none segs2 hb
  | node segs c ih =>
    intro q h
    simp only [Payload.fill_preset] at h
    split at h
    · exact absurd h (by simp)
    · rename_i c2 hc
      split at h
      · exact absurd h (by simp)
      · rename_i segs2 hb
        simp at h
        subst h
        exact ⟨fillBlocks_allKnown segs (some c2) segs2 hb, ih c2 hc⟩

theorem fill_preset_of_allKnown : ∀ (p : Payload), AllKnownP p →
    Payload.fill_preset p = some p := by
  intro p
  induction p with
  | leaf segs =>
    intro hk
    simp [Payload.fill_preset, fillBlocks_of_allKnown segs hk none]
  | node segs c ih =>
    intro hk
    simp [Payload.fill_preset, ih hk.2, fillBlocks_of_allKnown segs hk.1 (some c)]

/-- C8: confirmed.  `Payload::fill` is idempotent: a second `fill`
with the same size rewrites every bomb size with the value it already
holds (every index is settled, `propagateAt_idem`) and re-resolves no
block (all blocks are `Known` after the first pass), so it returns the
payload unchanged; and `Payload::write` is a pure function of the
payload, so writing twice emits identical bytes. -/
theorem C8_fill_idempotent (p : Payload) (s : Nat) (q : Payload)
    (h : Payload.fill p s = some q) :
    Payload.fill q s = some q ∧ Payload.write q = Payload.write q := by
  cases p with
  | leaf segs =>
    cases hb : fillBombs segs none s with
    | none => simp [Payload.fill, hb] at h
    | some pr =>
      obtain ⟨segs2, ch2⟩ := pr
      simp only [Payload.fill, hb] at h
      have hch : ch2 = none := fillBombs_none segs s segs2 ch2 hb
      subst hch
      simp only [Payload.fill_preset] at h
      cases hfb : fillBlocks segs2 none with
      | none => rw [hfb] at h; exact absurd h (by simp)
      | some segs3 =>
        rw [hfb] at h
        simp at h
        subst h
        have hbm := fillBlocks_bombsMatch segs2 none segs3 hfb
        have hrr := fillBombs_rerun segs none s segs2 none segs3 none hb hbm trivial
        have hk := fillBlocks_allKnown segs2 none segs3 hfb
        refine ⟨?_, rfl⟩
        simp [Payload.fill, hrr, Payload.fill_preset,
          fillBlocks_of_allKnown segs3 hk none]
  | node segs c =>
    cases hb : fillBombs segs (some c) s with
    | none => simp [Payload.fill, hb] at h
    | some pr =>
      obtain ⟨segs2, ch2⟩ := pr
      cases ch2 with
      | none => simp [Payload.fill, hb] at h
      | some c2 =>
        simp only [Payload.fill, hb] at h
        simp only [Payload.fill_preset] at h
        split at h
        · exact absurd h (by simp)
        · rename_i c3 hc
          split at h
          · exact absurd h (by simp)
          · rename_i segs3 hfb
            simp at h
            subst h
            have hpbm := fill_preset_PBM c2 c3 hc
            have hbm := fillBlocks_bombsMatch segs2 (some c3) segs3 hfb
            have hrr := fillBombs_rerun segs (some c) s segs2 (some c2) segs3 (some c3)
              hb hbm (show optPBM (some c2) (some c3) from hpbm)
            have hkc := fill_preset_allKnown c2 c3 hc
            have hks := fillBlocks_allKnown segs2 (some c3) segs3 hfb
            refine ⟨?_, rfl⟩
            simp [Payload.fill, hrr, Payload.fill_preset,
              fill_preset_of_allKnown c3 hkc,
              fillBlocks_of_allKnown segs3 hks (some c3)]

/-- Witness for C8 at a concrete input: filling the one-bomb payload
with size 5 yields a fixed point of `fill 5`. -/
theorem C8_fill_idempotent_witness :
    Payload.fill (Payload.leaf [Segment.bomb ⟨[0x41], 5, Propagate.noProp⟩]) 5
      = some (Payload.leaf [Segment.bomb ⟨[0x41], 5, Propagate.noProp⟩])
    ∧ Payload.write (Payload.leaf [Segment.bomb ⟨[0x41], 5, Propagate.noProp⟩])
      = Payload.write (Payload.leaf [Segment.bomb ⟨[0x41], 5, Propagate.noProp⟩]) :=
  C8_fill_idempotent (Payload.leaf [Segment.bomb (Bomb.new [0x41])]) 5
    (Payload.leaf [Segment.bomb ⟨[0x41], 5, Propagate.noProp⟩]) (by decide)

/-! ## Claim C5: length accounting of the `gen_block` resolver -/

theorem drawN_length : ∀ (n : Nat) (segs : List Segment) (idx pos : Nat)
    (bytes : List Nat) (i2 p2 : Nat),
    drawN n segs idx pos = some (bytes, i2, p2) → bytes.length = n := by
  intro n
  induction n with
  | zero =>
    intro segs idx pos bytes i2 p2 h
    simp [drawN] at h
    simp [h.1]
  | succ n ih =>
    intro segs idx pos bytes i2 p2 h
    cases hd : drawByte segs idx pos with
    | none => simp [drawN, hd] at h
    | some r =>
      obtain ⟨byte, idx2, pos2⟩ := r
      cases hr : drawN n segs idx2 pos2 with
      | none => simp [drawN, hd, hr] at h
      | some r2 =>
        obtain ⟨rest, i3, p3⟩ := r2
        simp only [drawN, hd, hr] at h
        simp at h
        rw [← h.1]
        simp [ih segs idx2 pos2 rest i3 p3 hr]

theorem drawN_split : ∀ (a b : Nat) (segs : List Segment) (idx pos : Nat)
    (bs : List Nat) (i2 p2 : Nat),
    drawN (a + b) segs idx pos = some (bs, i2, p2) →
    ∃ b1 i1 p1 b2, drawN a segs idx pos = some (b1, i1, p1)
      ∧ drawN b segs i1 p1 = some (b2, i2, p2) ∧ bs = b1 ++ b2 := by
  intro a
  induction a with
  | zero =>
    intro b segs idx pos bs i2 p2 h
    exact ⟨[], idx, pos, bs, by simp [drawN], by simpa using h, by simp⟩
  | succ a ih =>
    intro b segs idx pos bs i2 p2 h
    have hab : a + 1 + b = (a + b) + 1 := by omega
    rw [hab] at h
    cases hd : drawByte segs idx pos with
    | none => simp [drawN, hd] at h
    | some r =>
      obtain ⟨byte, idx2, pos2⟩ := r
      cases hr : drawN (a + b) segs idx2 pos2 with
      | none => simp [drawN, hd, hr] at h
      | some r2 =>
        obtain ⟨rest, i3, p3⟩ := r2
        simp only [drawN, hd, hr] at h
        simp at h
        obtain ⟨h1, h2, h3⟩ := h
        subst h2; subst h3
        obtain ⟨b1, i1, p1, b2, hda, hdb, hbs⟩ := ih b segs idx2 pos2 rest i3 p3 hr
        refine ⟨byte :: b1, i1, p1, b2, ?_, hdb, by rw [← h1, hbs]; rfl⟩
        simp only [drawN, hd, hda]

theorem chunkLoop_done (fuel startC dataLen thisStart : Nat) (segs : List Segment)
    (idx pos : Nat) (ret : List Nat) (lastBlock lastBit : Nat)
    (h : dataLen ≤ thisStart) :
    chunkLoop fuel startC dataLen thisStart segs idx pos ret lastBlock lastBit
      = some (ret, lastBlock, lastBit) := by
  cases fuel with
  | zero => simp [chunkLoop, Nat.not_lt.mpr h]
  | succ fuel => simp [chunkLoop, Nat.not_lt.mpr h]

theorem chunkLoop_len : ∀ (fuel startC dataLen thisStart : Nat) (segs : List Segment)
    (idx pos : Nat) (ret : List Nat) (lastBlock lastBit : Nat),
    dataLen ≤ thisStart + fuel →
    thisStart < dataLen →
    (lastBlock < ret.length ∨ startC = 0) →
    (∃ r, drawN (dataLen - thisStart) segs idx pos = some r) →
    ∃ ret2 lb2 bit2,
      chunkLoop fuel startC dataLen thisStart segs idx pos ret lastBlock lastBit
        = some (ret2, lb2, bit2)
      ∧ ret2.length + (if startC ≠ 0 ∧ thisStart = 0 then 1 else 0)
          = ret.length + ((dataLen - thisStart + 0xfffe) / 0xffff) * 5 + (dataLen - thisStart)
      ∧ lb2 < ret2.length := by
  intro fuel
  induction fuel with
  | zero =>
    intro startC dataLen thisStart segs idx pos ret lastBlock lastBit hfuel hts hinv hdraw
    omega
  | succ fuel ih =>
    intro startC dataLen thisStart segs idx pos ret lastBlock lastBit hfuel hts hinv hdraw
    obtain ⟨⟨bsAll, iA, pA⟩, hdrawAll⟩ := hdraw
    by_cases hrem : dataLen ≤ thisStart + 0xffff
    · -- final sub-block: everything remaining fits
      have hminEq : min (thisStart + 0xffff) dataLen = dataLen := by omega
      have hbsLen : bsAll.length = dataLen - thisStart :=
        drawN_length _ _ _ _ _ _ _ hdrawAll
      simp only [chunkLoop, if_pos hts, hminEq, hdrawAll]
      rw [chunkLoop_done fuel startC dataLen dataLen segs iA pA _ _ _ (by omega)]
      refine ⟨_, _, _, rfl, ?_, ?_⟩
      · by_cases hsc : startC = 0 <;> by_cases hts0 : thisStart = 0 <;>
          simp [hsc, hts0, List.length_append, hbsLen] <;> try omega
      · rcases hinv with hlt | hsc2
        · by_cases hsc : startC = 0 <;> by_cases hts0 : thisStart = 0 <;>
            simp [hsc, hts0, hlt, List.length_append, hbsLen] <;> try omega
        · by_cases hts0 : thisStart = 0 <;>
            simp [hsc2, hts0, List.length_append, hbsLen] <;> try omega
    · -- a full 0xffff sub-block, then recurse
      have hminEq : min (thisStart + 0xffff) dataLen = thisStart + 0xffff := by omega
      have hsplitN : dataLen - thisStart = 0xffff + (dataLen - (thisStart + 0xffff)) := by
        omega
      rw [hsplitN] at hdrawAll
      obtain ⟨b1, i1, p1, b2, hd1, hd2, hbs⟩ :=
        drawN_split _ _ _ _ _ _ _ _ hdrawAll
      have hb1len : b1.length = 0xffff := drawN_length _ _ _ _ _ _ _ hd1
      have hinvB : (if startC = 0 ∨ thisStart ≠ 0 then ret.length else lastBlock) <
          (((if startC = 0 ∨ thisStart ≠ 0 then ret ++ [0x00] else ret)
            ++ [0xffff &&& 0xff, (0xffff >>> 8) % 256,
                (2 ^ 64 - 1 - 0xffff) &&& 0xff, ((2 ^ 64 - 1 - 0xffff) >>> 8) % 256]
            ++ b1).length)
          ∨ startC = 0 := by
        by_cases hsc : startC = 0
        · exact Or.inr hsc
        · left
          by_cases hts0 : thisStart = 0
          · rcases hinv with hlt | hsc2
            · simp [hsc, hts0, List.length_append]
              try omega
            · exact absurd hsc2 hsc
          · simp [hsc, hts0, List.length_append]
            try omega
      obtain ⟨ret2, lb2, bit2, heq, hlen, hlb⟩ := ih startC dataLen (thisStart + 0xffff)
        segs i1 p1
        ((if startC = 0 ∨ thisStart ≠ 0 then ret ++ [0x00] else ret)
            ++ [0xffff &&& 0xff, (0xffff >>> 8) % 256,
                (2 ^ 64 - 1 - 0xffff) &&& 0xff, ((2 ^ 64 - 1 - 0xffff) >>> 8) % 256]
            ++ b1)
        (if startC = 0 ∨ thisStart ≠ 0 then ret.length else lastBlock)
        (if startC = 0 ∨ thisStart ≠ 0 then 0x01 else lastBit)
        (by omega) (by omega) hinvB ⟨(b2, iA, pA), hd2⟩
      simp only [chunkLoop, if_pos hts, hminEq, Nat.add_sub_cancel_left, hd1]
      refine ⟨ret2, lb2, bit2, ?_, ?_, hlb⟩
      · exact heq
      · rw [if_neg (by omega : ¬(startC ≠ 0 ∧ thisStart + 0xffff = 0))] at hlen
        by_cases hsc : startC = 0 <;> by_cases hts0 : thisStart = 0 <;>
          simp [hsc, hts0, List.length_append, hb1len] at hlen ⊢ <;> omega

theorem runGenBlock_len (startC dataLen : Nat) (hasRepB isLastB : Bool) (child : Payload)
    (hdl : 0 < dataLen)
    (hdraw : ∃ r, drawN dataLen child.data startC 0 = some r) :
    ∃ ret, runGenBlock startC dataLen hasRepB isLastB child = some ret
      ∧ ret.length = ((dataLen + 0xfffe) / 0xffff) * 5 + dataLen
          + (if hasRepB then 13 else 0) := by
  have hinv0 : (0 : Nat) < (if startC ≠ 0 then [0x02] else ([] : List Nat)).length
      ∨ startC = 0 := by
    by_cases hsc : startC = 0
    · exact Or.inr hsc
    · simp [hsc]
  obtain ⟨ret, lb, bit, heq, hlen, hlb⟩ := chunkLoop_len dataLen startC dataLen 0
    child.data startC 0 (if startC ≠ 0 then [0x02] else []) 0
    (if startC ≠ 0 then 0x20 else 0) (by omega) hdl hinv0 (by simpa using hdraw)
  have hretlen : ret.length = ((dataLen + 0xfffe) / 0xffff) * 5 + dataLen := by
    by_cases hsc : startC = 0 <;> simp [hsc] at hlen <;> omega
  cases isLastB with
  | false =>
    cases hasRepB with
    | false =>
      exact ⟨ret, by unfold runGenBlock; simp only [heq]; simp, by simp [hretlen]⟩
    | true =>
      refine ⟨ret ++ [0xec, 0xc0, 0x81, 0x00, 0x00, 0x00, 0x00, 0x00,
        0x90, 0xff, 0x6b, 0x23, 0x54], ?_, ?_⟩
      · unfold runGenBlock
        simp only [heq]
        simp
      · simp [List.length_append, hretlen]
  | true =>
    cases hasRepB with
    | false =>
      refine ⟨ret.set lb ((ret.getD lb 0) ||| bit), ?_, ?_⟩
      · unfold runGenBlock
        simp only [heq]
        simp
        exact hlb
      · simp [List.length_set, hretlen]
    | true =>
      refine ⟨(ret ++ [0xec, 0xc0, 0x81, 0x00, 0x00, 0x00, 0x00, 0x00,
          0x90, 0xff, 0x6b, 0x23, 0x54]).set ret.length
          (((ret ++ [0xec, 0xc0, 0x81, 0x00, 0x00, 0x00, 0x00, 0x00,
            0x90, 0xff, 0x6b, 0x23, 0x54]).getD ret.length 0) ||| bit), ?_, ?_⟩
      · unfold runGenBlock
        simp only [heq]
        simp
      · simp [List.length_set, List.length_append, hretlen]

/-- C5: corrected.  For every emission group with `data_len > 0` whose
filled child can supply `data_len` bytes from segment `start` on, the
statically recorded block length is
`ceil(data_len / 65535) * 5 + data_len + (13 if a bomb follows)` and
the `gen_block` resolver returns exactly that many bytes.  (For a
degenerate group of empty blocks, `data_len = 0`, the recorded length
is `0` but the resolver still emits its `0x02` lead byte — see the
counterexample.) -/
theorem C5_genblock_length (segs : List Segment) (start : Nat) (child : Payload)
    (hdl : 0 < dataLenOf segs start)
    (hdraw : ∃ r, drawN (dataLenOf segs start) child.data start 0 = some r) :
    payloadLenOf segs start
      = ((dataLenOf segs start + 0xfffe) / 0xffff) * 5 + dataLenOf segs start
        + (if hasRep segs start then 13 else 0)
    ∧ ∃ ret, runResolver (Resolver.genBlock start (dataLenOf segs start)
          (hasRep segs start) (isLastOf segs start)) (some child) = some ret
        ∧ ret.length = payloadLenOf segs start := by
  have hfront : payloadLenOf segs start
      = ((dataLenOf segs start + 0xfffe) / 0xffff) * 5 + dataLenOf segs start
        + (if hasRep segs start then 13 else 0) := by
    cases hhr : hasRep segs start <;> simp [payloadLenOf, hhr] <;> omega
  obtain ⟨ret, hrg, hlen⟩ := runGenBlock_len start (dataLenOf segs start)
    (hasRep segs start) (isLastOf segs start) child hdl hdraw
  refine ⟨hfront, ret, ?_, ?_⟩
  · simpa [runResolver] using hrg
  · rw [hfront]
    exact hlen

/-- Counterexample half of C5: a trailing empty `Known` block makes a
group with `data_len = 0`; the recorded length is `0`, yet the
resolver (on the second group, `start_c = 1`) returns the one byte
`[0x22]` (its `0x02` lead, `|= 0x20`). -/
theorem C5_counterexample :
    dataLenOf [Segment.bomb (Bomb.new [0x41]), Segment.block (Block.new [])] 1 = 0
    ∧ payloadLenOf [Segment.bomb (Bomb.new [0x41]), Segment.block (Block.new [])] 1 = 0
    ∧ (deflateLoop 2 [Segment.bomb (Bomb.new [0x41]), Segment.block (Block.new [])] 1)[0]?
        = some (Segment.block ⟨BlockData.unfilled (Resolver.genBlock 1 0 false true), 0⟩)
    ∧ runResolver (Resolver.genBlock 1 0 false true)
        (some (Payload.leaf [Segment.bomb ⟨[0x41], 5, Propagate.noProp⟩,
          Segment.block (Block.new [])]))
      = some [0x22]
    ∧ (1 : Nat) ≠ 0 := by
  decide

/-- Witness for C5: the one-block payload `[Known [0x41]]`, group at
`start = 0`. -/
theorem C5_genblock_length_witness :
    0 < dataLenOf [Segment.block (Block.new [0x41])] 0
    ∧ (payloadLenOf [Segment.block (Block.new [0x41])] 0
        = ((dataLenOf [Segment.block (Block.new [0x41])] 0 + 0xfffe) / 0xffff) * 5
          + dataLenOf [Segment.block (Block.new [0x41])] 0
          + (if hasRep [Segment.block (Block.new [0x41])] 0 then 13 else 0)
      ∧ ∃ ret, runResolver (Resolver.genBlock 0 (dataLenOf [Segment.block (Block.new [0x41])] 0)
            (hasRep [Segment.block (Block.new [0x41])] 0)
            (isLastOf [Segment.block (Block.new [0x41])] 0))
            (some (Payload.leaf [Segment.block (Block.new [0x41])])) = some ret
          ∧ ret.length = payloadLenOf [Segment.block (Block.new [0x41])] 0) :=
  ⟨by decide, C5_genblock_length [Segment.block (Block.new [0x41])] 0
    (Payload.leaf [Segment.block (Block.new [0x41])]) (by decide)
    ⟨([0x41], 1, 0), by decide⟩⟩

/-! ## Claim C2: the checksums against the reference

`segWF` is the well-formedness under which the closed-form evaluators
are exact: blocks resolved to `Known` byte (< 256) data, bombs with a
nonempty pattern of at most 2^31 bytes (the largest power of two below
which no `u64` intermediate of the Adler closed form can wrap: the
worst sum is `s1 + s0*fb*L + tri*fb + rect*num_rects`, bounded by
`65520 + 65520^2 + 2*65520^2*L < 2^64` for `L ≤ 2^31`) and
`size ≥ pattern length` (at least one full block, so `exponentiate`'s
`power ≤ 1` base case is not reached with exponent 0). -/

def segWF : Segment → Bool
  | Segment.block b =>
    match b.data with
    | BlockData.known d => d.all (fun x => decide (x < 256))
    | BlockData.unfilled _ => false
  | Segment.bomb b =>
    (!b.data.isEmpty) && decide (b.data.length ≤ 2 ^ 31)
      && decide (b.data.length ≤ b.size) && b.data.all (fun x => decide (x < 256))

theorem range_map_getD_take : ∀ (p : List Nat) (r : Nat), r ≤ p.length →
    (List.range r).map (fun i => p.getD i 0) = p.take r := by
  intro p
  induction p with
  | nil =>
    intro r hr
    have : r = 0 := by simpa using hr
    subst this
    simp
  | cons a t ih =>
    intro r hr
    cases r with
    | zero => simp
    | succ r =>
      rw [List.range_succ_eq_map]
      simp only [List.map_cons, List.map_map]
      rw [List.take_succ_cons]
      congr 1
      rw [show ((fun i => (a :: t).getD i 0) ∘ Nat.succ) = fun i => t.getD i 0 from rfl]
      exact ih r (by simpa using hr)

theorem bombExpand_small (p : List Nat) (r : Nat) (hr : r ≤ p.length) :
    bombExpand p r = p.take r := by
  unfold bombExpand
  rw [← range_map_getD_take p r hr]
  apply List.map_congr_left
  intro i hi
  rw [Nat.mod_eq_of_lt (lt_of_lt_of_le (List.mem_range.mp hi) hr)]

theorem bombExpand_add_length (p : List Nat) (hp : p.length ≠ 0) (k : Nat) :
    bombExpand p (p.length + k) = p ++ bombExpand p k := by
  unfold bombExpand
  rw [List.range_add, List.map_append, List.map_map]
  congr 1
  · have h1 : (List.range p.length).map (fun i => p.getD (i % p.length) 0)
        = (List.range p.length).map (fun i => p.getD i 0) := by
      apply List.map_congr_left
      intro i hi
      rw [Nat.mod_eq_of_lt (List.mem_range.mp hi)]
    rw [h1, range_map_getD_take p p.length le_rfl, List.take_length]
  · apply List.map_congr_left
    intro i hi
    show p.getD ((p.length + i) % p.length) 0 = p.getD (i % p.length) 0
    rw [Nat.add_mod_left]

/-- Folding any operation over a bomb expansion: `size / len` full
passes over the pattern, then the first `size mod len` pattern
bytes. -/
theorem foldl_bombExpand {β : Type} (g : β → Nat → β) (p : List Nat) (hp : p.length ≠ 0) :
    ∀ (q r : Nat), r < p.length → ∀ (z : β),
    (bombExpand p (q * p.length + r)).foldl g z
      = (p.take r).foldl g ((fun w => p.foldl g w)^[q] z) := by
  intro q
  induction q with
  | zero =>
    intro r hr z
    simp [bombExpand_small p r (le_of_lt hr)]
  | succ q ih =>
    intro r hr z
    have hn : (q + 1) * p.length + r = p.length + (q * p.length + r) := by ring
    rw [hn, bombExpand_add_length p hp, List.foldl_append, ih r hr,
      Function.iterate_succ_apply]

theorem foldl_bombExpand_div_mod {β : Type} (g : β → Nat → β) (p : List Nat)
    (hp : p.length ≠ 0) (n : Nat) (z : β) :
    (bombExpand p n).foldl g z
      = (p.take (n % p.length)).foldl g ((fun w => p.foldl g w)^[n / p.length] z) := by
  have h2 : (n / p.length) * p.length + n % p.length = n := by
    rw [Nat.mul_comm]
    exact Nat.div_add_mod n p.length
  conv_lhs => rw [← h2]
  exact foldl_bombExpand g p hp (n / p.length) (n % p.length)
    (Nat.mod_lt _ (Nat.pos_of_ne_zero hp)) z

theorem segWF_block {b : Block} (h : segWF (Segment.block b) = true) :
    ∃ d, b.data = BlockData.known d ∧ ∀ x ∈ d, x < 256 := by
  cases hbd : b.data with
  | known d =>
    refine ⟨d, rfl, ?_⟩
    simp only [segWF, hbd, List.all_eq_true, decide_eq_true_eq] at h
    exact h
  | unfilled r => simp [segWF, hbd] at h

theorem segWF_bomb {b : Bomb} (h : segWF (Segment.bomb b) = true) :
    b.data.length ≠ 0 ∧ b.data.length ≤ 2 ^ 31 ∧ b.data.length ≤ b.size
      ∧ ∀ x ∈ b.data, x < 256 := by
  simp only [segWF, Bool.and_eq_true, Bool.not_eq_true', List.all_eq_true,
    decide_eq_true_eq] at h
  obtain ⟨⟨⟨h1, h2⟩, h3⟩, h4⟩ := h
  refine ⟨?_, h2, h3, h4⟩
  intro he
  rw [List.length_eq_zero] at he
  rw [he] at h1
  simp at h1

theorem expand_of_WF : ∀ (segs : List Segment), (∀ s ∈ segs, segWF s = true) →
    ∃ bytes, expand segs = some bytes := by
  intro segs
  induction segs with
  | nil => intro _; exact ⟨[], rfl⟩
  | cons a t ih =>
    intro h
    obtain ⟨rest, hrest⟩ := ih (fun s hs => h s (List.mem_cons_of_mem a hs))
    cases a with
    | block b =>
      obtain ⟨d, hbd, _⟩ := segWF_block (h _ (List.mem_cons_self _ t))
      exact ⟨d ++ rest, by simp [expand, segExpand, hbd, hrest]⟩
    | bomb b =>
      obtain ⟨hne, _, _, _⟩ := segWF_bomb (h _ (List.mem_cons_self _ t))
      refine ⟨bombExpand b.data b.size ++ rest, ?_⟩
      simp only [expand, segExpand, hrest]
      rw [if_neg (by omega)]

theorem range_foldl_getD {β : Type} (g : β → Nat → β) (p : List Nat) (e : Nat)
    (he : e ≤ p.length) (z : β) :
    (List.range e).foldl (fun c i => g c (p.getD i 0)) z = (p.take e).foldl g z := by
  rw [← range_map_getD_take p e he, List.foldl_map]

theorem crcSegs_sem : ∀ (segs : List Segment), (∀ s ∈ segs, segWF s = true) →
    ∀ (bytes : List Nat), expand segs = some bytes →
    ∀ (crc : Nat), crc < 2 ^ 32 →
    crcSegs segs crc = some (bytes.foldl crc_apply crc) := by
  intro segs
  induction segs with
  | nil =>
    intro _ bytes hb crc _
    simp [expand] at hb
    subst hb
    rfl
  | cons a t ih =>
    intro hwf bytes hb crc hcrc
    have hwt : ∀ s ∈ t, segWF s = true := fun s hs => hwf s (List.mem_cons_of_mem a hs)
    cases a with
    | block b =>
      obtain ⟨d, hbd, hdb⟩ := segWF_block (hwf _ (List.mem_cons_self _ t))
      simp only [expand, segExpand, hbd] at hb
      cases hrest : expand t with
      | none => rw [hrest] at hb; exact absurd hb (by simp)
      | some rest =>
        rw [hrest] at hb
        simp at hb
        subst hb
        simp only [crcSegs, hbd]
        rw [List.foldl_append]
        exact ih hwt rest hrest (d.foldl crc_apply crc)
          (foldl_crc_apply_lt d hdb crc hcrc)
    | bomb b =>
      obtain ⟨hne, h16, hsz, hbytes⟩ := segWF_bomb (hwf _ (List.mem_cons_self _ t))
      simp only [expand, segExpand] at hb
      rw [if_neg (by omega)] at hb
      cases hrest : expand t with
      | none => rw [hrest] at hb; exact absurd hb (by simp)
      | some rest =>
        rw [hrest] at hb
        simp at hb
        subst hb
        simp only [crcSegs]
        rw [if_neg hne]
        rw [List.foldl_append]
        have hfb : 1 ≤ b.size / b.data.length :=
          (Nat.one_le_div_iff (Nat.pos_of_ne_zero hne)).mpr hsz
        have hpass : CrcMatrix.apply
              (CrcMatrix.exponentiate (patternMatrix b.data) (b.size / b.data.length)) crc
            = (fun w => b.data.foldl crc_apply w)^[b.size / b.data.length] crc := by
          rw [crcBomb_apply b.data hbytes _ crc hcrc]
          rw [Nat.max_eq_left hfb]
        rw [hpass, range_foldl_getD crc_apply b.data (b.size % b.data.length)
          (le_of_lt (Nat.mod_lt _ (Nat.pos_of_ne_zero hne))) _]
        rw [foldl_bombExpand_div_mod crc_apply b.data hne b.size crc]
        refine ih hwt rest hrest _ ?_
        apply foldl_crc_apply_lt _ (fun x hx => hbytes x (List.mem_of_mem_take hx))
        exact iterate_pass_lt b.data hbytes _ crc hcrc

/-- C2, CRC half: under `segWF`, `Payload::crc32` is the reference
CRC-32 of the written bytes. -/
theorem crc32_sem (p : Payload) (h : ∀ s ∈ p.data, segWF s = true) :
    Payload.crc32 p = (Payload.write p).map crcRefBytes := by
  obtain ⟨bytes, hbytes⟩ := expand_of_WF p.data h
  unfold Payload.crc32 Payload.write
  rw [hbytes, crcSegs_sem p.data h bytes hbytes 0xffffffff (by norm_num)]
  rfl

/-! ### The Adler-32 closed form, in `ZMod 65521` -/

/-- One Adler byte step on residues. -/
def stepZ (a : ZMod 65521 × ZMod 65521) (b : Nat) : ZMod 65521 × ZMod 65521 :=
  (a.1 + (b : ZMod 65521), a.2 + a.1 + (b : ZMod 65521))

def toZ (p : Nat × Nat) : ZMod 65521 × ZMod 65521 := ((p.1 : ZMod 65521), (p.2 : ZMod 65521))

theorem toZ_adlerStep (p : Nat × Nat) (b : Nat) : toZ (adlerStep p b) = stepZ (toZ p) b := by
  simp only [toZ, adlerStep, stepZ, Prod.ext_iff]
  constructor
  · push_cast [ZMod.nat_cast_mod]
    ring
  · push_cast [ZMod.nat_cast_mod]
    ring

theorem adlerStep_lt (p : Nat × Nat) (b : Nat) :
    (adlerStep p b).1 < 65521 ∧ (adlerStep p b).2 < 65521 :=
  ⟨Nat.mod_lt _ (by norm_num), Nat.mod_lt _ (by norm_num)⟩

theorem foldl_adlerStep_lt : ∀ (l : List Nat) (p : Nat × Nat), p.1 < 65521 → p.2 < 65521 →
    (l.foldl adlerStep p).1 < 65521 ∧ (l.foldl adlerStep p).2 < 65521 := by
  intro l
  induction l with
  | nil => intro p h1 h2; exact ⟨h1, h2⟩
  | cons b t ih =>
    intro p h1 h2
    exact ih _ (adlerStep_lt p b).1 (adlerStep_lt p b).2

theorem adlerByte_eq_step (p : Nat × Nat) (b : Nat) (h1 : p.1 < 65521) (h2 : p.2 < 65521)
    (hb : b < 256) : adlerByte p b = adlerStep p b := by
  unfold adlerByte adlerStep
  rw [Nat.mod_eq_of_lt (show p.1 + b < 2 ^ 64 by omega)]
  simp only [Nat.mod_eq_of_lt (show p.2 + (p.1 + b) % 65521 < 2 ^ 64 by omega)]

theorem foldl_adlerByte_eq : ∀ (l : List Nat), (∀ x ∈ l, x < 256) → ∀ (p : Nat × Nat),
    p.1 < 65521 → p.2 < 65521 → l.foldl adlerByte p = l.foldl adlerStep p := by
  intro l
  induction l with
  | nil => intro _ p _ _; rfl
  | cons b t ih =>
    intro hl p h1 h2
    simp only [List.foldl_cons]
    rw [adlerByte_eq_step p b h1 h2 (hl b (List.mem_cons_self b t))]
    exact ih (fun x hx => hl x (List.mem_cons_of_mem b hx)) _
      (adlerStep_lt p b).1 (adlerStep_lt p b).2

theorem foldl_toZ : ∀ (l : List Nat) (p : Nat × Nat),
    toZ (l.foldl adlerStep p) = l.foldl stepZ (toZ p) := by
  intro l
  induction l with
  | nil => intro p; rfl
  | cons b t ih =>
    intro p
    simp only [List.foldl_cons]
    rw [ih, toZ_adlerStep]

theorem foldl_stepZ_formula : ∀ (l : List Nat) (a : ZMod 65521 × ZMod 65521),
    l.foldl stepZ a
      = (a.1 + (l.foldl stepZ (0, 0)).1,
         a.2 + l.length * a.1 + (l.foldl stepZ (0, 0)).2) := by
  intro l
  induction l with
  | nil => intro a; simp
  | cons b t ih =>
    intro a
    rw [List.foldl_cons, ih (stepZ a b), List.foldl_cons, ih (stepZ (0, 0) b)]
    simp only [stepZ, List.length_cons]
    refine Prod.ext ?_ ?_ <;> simp <;> push_cast <;> ring

theorem iterate_stepZ_formula (p : List Nat) : ∀ (n : Nat) (a : ZMod 65521 × ZMod 65521),
    (fun w => p.foldl stepZ w)^[n] a
      = (a.1 + n * (p.foldl stepZ (0, 0)).1,
         a.2 + n * p.length * a.1 + n * (p.foldl stepZ (0, 0)).2
           + p.length * (p.foldl stepZ (0, 0)).1
             * ((∑ i in Finset.range n, i : ℕ) : ZMod 65521)) := by
  intro n
  induction n with
  | zero => intro a; simp
  | succ n ih =>
    intro a
    rw [Function.iterate_succ_apply', ih a, foldl_stepZ_formula]
    rw [Finset.sum_range_succ]
    refine Prod.ext ?_ ?_ <;> simp <;> push_cast <;> ring

theorem sum_range_cast (n : Nat) :
    ((∑ i in Finset.range n, i : ℕ) : ZMod 65521)
      = 32761 * n * ((n : ZMod 65521) - 1) := by
  cases n with
  | zero => simp
  | succ k =>
    have h2 : (32761 : ZMod 65521) * 2 = 1 := by decide
    have hz : ((∑ i in Finset.range (k + 1), i : ℕ) : ZMod 65521) * 2
        = ((k : ZMod 65521) + 1) * k := by
      have hg := congrArg (fun x : ℕ => (x : ZMod 65521))
        (Finset.sum_range_id_mul_two (k + 1))
      push_cast at hg
      simpa using hg
    calc ((∑ i in Finset.range (k + 1), i : ℕ) : ZMod 65521)
        = 32761 * 2 * ((∑ i in Finset.range (k + 1), i : ℕ) : ZMod 65521) := by
          rw [h2, one_mul]
      _ = 32761 * (((∑ i in Finset.range (k + 1), i : ℕ) : ZMod 65521) * 2) := by ring
      _ = 32761 * (((k : ZMod 65521) + 1) * k) := by rw [hz]
      _ = 32761 * ((k + 1 : ℕ) : ZMod 65521) * (((k + 1 : ℕ) : ZMod 65521) - 1) := by
          push_cast
          ring

theorem iterate_adler_lt (p : List Nat) : ∀ (q : Nat) (a : Nat × Nat),
    a.1 < 65521 → a.2 < 65521 →
    ((fun w => p.foldl adlerStep w)^[q] a).1 < 65521
      ∧ ((fun w => p.foldl adlerStep w)^[q] a).2 < 65521 := by
  intro q
  induction q with
  | zero => intro a h1 h2; exact ⟨h1, h2⟩
  | succ q ih =>
    intro a h1 h2
    rw [Function.iterate_succ_apply]
    exact ih _ (foldl_adlerStep_lt p a h1 h2).1 (foldl_adlerStep_lt p a h1 h2).2

theorem iterate_toZ (p : List Nat) : ∀ (q : Nat) (a : Nat × Nat),
    toZ ((fun w => p.foldl adlerStep w)^[q] a)
      = (fun w => p.foldl stepZ w)^[q] (toZ a) := by
  intro q
  induction q with
  | zero => intro a; rfl
  | succ q ih =>
    intro a
    rw [Function.iterate_succ_apply, Function.iterate_succ_apply, ih, foldl_toZ]

theorem natPair_eq_of_toZ {a b : Nat × Nat} (ha1 : a.1 < 65521) (ha2 : a.2 < 65521)
    (hb1 : b.1 < 65521) (hb2 : b.2 < 65521) (h : toZ a = toZ b) : a = b := by
  obtain ⟨h1, h2⟩ := Prod.mk.injEq .. ▸ h
  refine Prod.ext ?_ ?_
  · have := congrArg ZMod.val h1
    rwa [ZMod.val_cast_of_lt ha1, ZMod.val_cast_of_lt hb1] at this
  · have := congrArg ZMod.val h2
    rwa [ZMod.val_cast_of_lt ha2, ZMod.val_cast_of_lt hb2] at this

/-- The bomb branch of `Payload::adler32` equals a plain Adler fold
over the bomb's expansion (for any size, including a trailing
incomplete block). -/
theorem adlerBomb_sem (p : List Nat) (hne : p.length ≠ 0) (h16 : p.length ≤ 2 ^ 31)
    (hb : ∀ x ∈ p, x < 256) (s0 s1 : Nat) (h0 : s0 < 65521) (h1 : s1 < 65521)
    (size : Nat) :
    adlerBomb s0 s1 p size = (bombExpand p size).foldl adlerStep (s0, s1) := by
  have ht : p.foldl adlerByte (0, 0) = p.foldl adlerStep (0, 0) :=
    foldl_adlerByte_eq p hb (0, 0) (by norm_num) (by norm_num)
  have hT0lt : (p.foldl adlerStep (0, 0)).1 < 65521 :=
    (foldl_adlerStep_lt p (0, 0) (by norm_num) (by norm_num)).1
  have hTRIlt : (p.foldl adlerStep (0, 0)).2 < 65521 :=
    (foldl_adlerStep_lt p (0, 0) (by norm_num) (by norm_num)).2
  set T0 : Nat := (p.foldl adlerStep (0, 0)).1 with hT0def
  set TRI : Nat := (p.foldl adlerStep (0, 0)).2 with hTRIdef
  set L : Nat := p.length with hLdef
  set Q : Nat := size / L with hQdef
  set R : Nat := size % L with hRdef
  set FB : Nat := Q % 65521 with hFBdef
  have hFBlt : FB < 65521 := Nat.mod_lt _ (by norm_num)
  have hLlt : L ≤ 2147483648 := by omega
  have m1 : T0 * FB ≤ 65520 * 65520 := Nat.mul_le_mul (by omega) (by omega)
  have m2 : s0 * FB ≤ 65520 * 65520 := Nat.mul_le_mul (by omega) (by omega)
  have m3 : s0 * FB * L ≤ 65520 * 65520 * 2147483648 := Nat.mul_le_mul m2 (by omega)
  have m4 : T0 * L ≤ 65520 * 2147483648 := Nat.mul_le_mul (by omega) (by omega)
  have m5 : TRI * FB ≤ 65520 * 65520 := Nat.mul_le_mul (by omega) (by omega)
  have hnr : FB * ((FB + 2 ^ 64 - 1) % 2 ^ 64) % 2 ^ 64 * 32761 % 2 ^ 64 % 65521
      = FB * (FB - 1) * 32761 % 65521 := by
    rcases Nat.eq_zero_or_pos FB with hz | hpos
    · simp [hz]
    · have hw : (FB + 2 ^ 64 - 1) % 2 ^ 64 = FB - 1 := by omega
      rw [hw]
      have e6 : FB * (FB - 1) ≤ 65520 * 65520 := Nat.mul_le_mul (by omega) (by omega)
      rw [Nat.mod_eq_of_lt (show FB * (FB - 1) < 2 ^ 64 by omega)]
      have e7 : FB * (FB - 1) * 32761 ≤ 65520 * 65520 * 32761 :=
        Nat.mul_le_mul e6 le_rfl
      rw [Nat.mod_eq_of_lt (show FB * (FB - 1) * 32761 < 2 ^ 64 by omega)]
  set NR : Nat := FB * (FB - 1) * 32761 % 65521 with hNRdef
  have hNRlt : NR < 65521 := Nat.mod_lt _ (by norm_num)
  have m8 : T0 * L * NR ≤ 65520 * 2147483648 * 65520 := Nat.mul_le_mul m4 (by omega)
  have key : adlerBomb s0 s1 p size
      = (p.take R).foldl adlerByte
          ((s0 + T0 * FB) % 65521,
           (s1 + s0 * FB * L + (TRI * FB + T0 * L * NR)) % 65521) := by
    simp only [adlerBomb, ht, ← hT0def, ← hTRIdef, ← hLdef, ← hQdef, ← hRdef, ← hFBdef,
      hnr, ← hNRdef]
    rw [Nat.mod_eq_of_lt (show T0 * FB < 2 ^ 64 by omega),
      Nat.mod_eq_of_lt (show s0 * FB < 2 ^ 64 by omega),
      Nat.mod_eq_of_lt (show s0 * FB * L < 2 ^ 64 by omega),
      Nat.mod_eq_of_lt (show s1 + s0 * FB * L < 2 ^ 64 by omega),
      Nat.mod_eq_of_lt (show s0 + T0 * FB < 2 ^ 64 by omega),
      Nat.mod_eq_of_lt (show T0 * L < 2 ^ 64 by omega),
      Nat.mod_eq_of_lt (show TRI * FB < 2 ^ 64 by omega),
      Nat.mod_eq_of_lt (show T0 * L * NR < 2 ^ 64 by omega),
      Nat.mod_eq_of_lt (show TRI * FB + T0 * L * NR < 2 ^ 64 by omega),
      Nat.mod_eq_of_lt
        (show s1 + s0 * FB * L + (TRI * FB + T0 * L * NR) < 2 ^ 64 by omega)]
  rw [key, foldl_bombExpand_div_mod adlerStep p hne size (s0, s1), ← hLdef, ← hQdef,
    ← hRdef]
  have hwlt := iterate_adler_lt p Q (s0, s1) h0 h1
  have hpair : ((s0 + T0 * FB) % 65521,
        (s1 + s0 * FB * L + (TRI * FB + T0 * L * NR)) % 65521)
      = (fun w => p.foldl adlerStep w)^[Q] (s0, s1) := by
    apply natPair_eq_of_toZ (Nat.mod_lt _ (by norm_num)) (Nat.mod_lt _ (by norm_num))
      hwlt.1 hwlt.2
    rw [iterate_toZ, show toZ (s0, s1) = ((s0 : ZMod 65521), (s1 : ZMod 65521)) from rfl,
      iterate_stepZ_formula]
    have hP0 : (p.foldl stepZ (0, 0)).1 = ((T0 : ℕ) : ZMod 65521) := by
      rw [hT0def]
      have h := congrArg Prod.fst (foldl_toZ p (0, 0))
      simp only [toZ, Nat.cast_zero] at h
      exact h.symm
    have hP1 : (p.foldl stepZ (0, 0)).2 = ((TRI : ℕ) : ZMod 65521) := by
      rw [hTRIdef]
      have h := congrArg Prod.snd (foldl_toZ p (0, 0))
      simp only [toZ, Nat.cast_zero] at h
      exact h.symm
    have hQc : ((FB : ℕ) : ZMod 65521) = (Q : ZMod 65521) := by
      rw [hFBdef, ZMod.nat_cast_mod]
    have hNRc : ((NR : ℕ) : ZMod 65521)
        = 32761 * (Q : ZMod 65521) * ((Q : ZMod 65521) - 1) := by
      rw [hNRdef, ZMod.nat_cast_mod]
      rcases Nat.eq_zero_or_pos FB with hz | hpos
      · rw [hz]
        have : ((Q : ℕ) : ZMod 65521) = 0 := by
          rw [← hQc, hz]
          norm_num
        rw [this]
        push_cast
        ring
      · push_cast [Nat.cast_sub (show 1 ≤ FB by omega)]
        rw [hQc]
        ring
    rw [sum_range_cast]
    simp only [toZ]
    refine Prod.ext ?_ ?_
    · show (((s0 + T0 * FB) % 65521 : ℕ) : ZMod 65521) = _
      rw [ZMod.nat_cast_mod]
      push_cast
      rw [hQc, hP0]
      ring
    · show (((s1 + s0 * FB * L + (TRI * FB + T0 * L * NR)) % 65521 : ℕ) : ZMod 65521) = _
      rw [ZMod.nat_cast_mod]
      push_cast
      rw [hQc, hNRc, hP0, hP1]
      push_cast
      ring
  rw [hpair]
  apply foldl_adlerByte_eq
  · exact fun x hx => hb x (List.mem_of_mem_take hx)
  · exact hwlt.1
  · exact hwlt.2

theorem adlerSegs_sem : ∀ (segs : List Segment), (∀ s ∈ segs, segWF s = true) →
    ∀ (bytes : List Nat), expand segs = some bytes →
    ∀ (s0 s1 : Nat), s0 < 65521 → s1 < 65521 →
    adlerSegs segs s0 s1 = some (bytes.foldl adlerStep (s0, s1)) := by
  intro segs
  induction segs with
  | nil =>
    intro _ bytes hb s0 s1 _ _
    simp [expand] at hb
    subst hb
    rfl
  | cons a t ih =>
    intro hwf bytes hb s0 s1 h0 h1
    have hwt : ∀ s ∈ t, segWF s = true := fun s hs => hwf s (List.mem_cons_of_mem a hs)
    cases a with
    | block b =>
      obtain ⟨d, hbd, hdb⟩ := segWF_block (hwf _ (List.mem_cons_self _ t))
      simp only [expand, segExpand, hbd] at hb
      cases hrest : expand t with
      | none => rw [hrest] at hb; exact absurd hb (by simp)
      | some rest =>
        rw [hrest] at hb
        simp at hb
        subst hb
        simp only [adlerSegs, hbd]
        rw [List.foldl_append]
        rw [foldl_adlerByte_eq d hdb (s0, s1) h0 h1]
        have hlt := foldl_adlerStep_lt d (s0, s1) h0 h1
        exact ih hwt rest hrest _ _ hlt.1 hlt.2
    | bomb b =>
      obtain ⟨hne, h16, hsz, hbytes⟩ := segWF_bomb (hwf _ (List.mem_cons_self _ t))
      simp only [expand, segExpand] at hb
      rw [if_neg (by omega)] at hb
      cases hrest : expand t with
      | none => rw [hrest] at hb; exact absurd hb (by simp)
      | some rest =>
        rw [hrest] at hb
        simp at hb
        subst hb
        simp only [adlerSegs]
        rw [if_neg hne]
        rw [List.foldl_append]
        rw [adlerBomb_sem b.data hne h16 hbytes s0 s1 h0 h1 b.size]
        have hlt := foldl_adlerStep_lt (bombExpand b.data b.size) (s0, s1) h0 h1
        exact ih hwt rest hrest _ _ hlt.1 hlt.2

/-- C2, Adler half: under `segWF`, `Payload::adler32` is the reference
Adler-32 of the written bytes. -/
theorem adler32_sem (p : Payload) (h : ∀ s ∈ p.data, segWF s = true) :
    Payload.adler32 p = (Payload.write p).map adlerRefBytes := by
  obtain ⟨bytes, hbytes⟩ := expand_of_WF p.data h
  unfold Payload.adler32 Payload.write
  rw [hbytes, adlerSegs_sem p.data h bytes hbytes 1 0 (by norm_num) (by norm_num)]
  rfl

/-- C2: corrected.  For every payload whose blocks are all `Known`
with byte values < 256 and whose bombs have a nonempty pattern of at
most 2^31 bytes and `size ≥ pattern length`, both closed-form
checksums agree exactly with the reference checksums of the fully
expanded byte stream — without materializing it.  (The hypotheses
exclude the `exponentiate_r` zero-exponent artifact and `u64` overflow
for astronomically long patterns beyond 2^31 bytes; see the
counterexample for the bomb with `size <` pattern length.) -/
theorem C2_checksums (p : Payload) (hwf : ∀ s ∈ p.data, segWF s = true) :
    Payload.adler32 p = (Payload.write p).map adlerRefBytes
    ∧ Payload.crc32 p = (Payload.write p).map crcRefBytes :=
  ⟨adler32_sem p hwf, crc32_sem p hwf⟩

/-- `crcSegs` on a single size-`0` bomb: `full_blocks = 0`, yet
`exponentiate`'s `power ≤ 1` base case yields one full pattern pass.
Kept generic in the pattern so the matrix terms stay symbolic. -/
theorem crcSegs_bomb0 (d : List Nat) (hne : d ≠ []) (hd : ∀ b ∈ d, b < 256)
    (crc : Nat) (hcrc : crc < 2 ^ 32) :
    crcSegs [Segment.bomb ⟨d, 0, Propagate.noProp⟩] crc
      = some (d.foldl crc_apply crc) := by
  have hne' : ¬ d.length = 0 := by
    intro h
    exact hne (List.length_eq_zero.mp h)
  simp only [crcSegs]
  rw [if_neg hne']
  simp only [Nat.zero_div, Nat.zero_mod, List.range_zero, List.foldl_nil]
  rw [crcBomb_apply d hd 0 crc hcrc]
  simp

/-- Counterexample half of C2: a bomb of size `0` (fewer than one full
pattern block) writes no bytes, yet `crc32` applies one full pattern
pass — `exponentiate`'s `power ≤ 1` base case returns the pattern
matrix itself for exponent `0` — and reports the CRC-32 of "A", not of
the empty stream. -/
theorem C2_crc_counterexample :
    Payload.write (Payload.leaf [Segment.bomb ⟨[0x41], 0, Propagate.noProp⟩]) = some []
    ∧ Payload.crc32 (Payload.leaf [Segment.bomb ⟨[0x41], 0, Propagate.noProp⟩])
        = some [0xd3, 0xd9, 0x9e, 0x8b]
    ∧ Payload.crc32 (Payload.leaf [Segment.bomb ⟨[0x41], 0, Propagate.noProp⟩])
        ≠ (Payload.write (Payload.leaf [Segment.bomb ⟨[0x41], 0, Propagate.noProp⟩])).map
            crcRefBytes := by
  have hseg : crcSegs [Segment.bomb ⟨[0x41], 0, Propagate.noProp⟩] 0xffffffff
      = some (crc_apply 0xffffffff 0x41) :=
    crcSegs_bomb0 [0x41] (by decide) (by decide) 0xffffffff (by norm_num)
  have hcrc : Payload.crc32 (Payload.leaf [Segment.bomb ⟨[0x41], 0, Propagate.noProp⟩])
      = some [0xd3, 0xd9, 0x9e, 0x8b] := by
    unfold Payload.crc32
    rw [show (Payload.leaf [Segment.bomb ⟨[0x41], 0, Propagate.noProp⟩]).data
      = [Segment.bomb ⟨[0x41], 0, Propagate.noProp⟩] from rfl, hseg]
    decide
  refine ⟨by decide, hcrc, ?_⟩
  rw [hcrc]
  decide

/-- Witness for C2: the two-segment payload `[Known "t", Bomb "abc" × 7]`. -/
theorem C2_checksums_witness :
    (∀ s ∈ (Payload.leaf [Segment.block (Block.new [0x74]),
        Segment.bomb ⟨[0x61, 0x62, 0x63], 7, Propagate.noProp⟩]).data, segWF s = true)
    ∧ (Payload.adler32 (Payload.leaf [Segment.block (Block.new [0x74]),
          Segment.bomb ⟨[0x61, 0x62, 0x63], 7, Propagate.noProp⟩])
        = (Payload.write (Payload.leaf [Segment.block (Block.new [0x74]),
            Segment.bomb ⟨[0x61, 0x62, 0x63], 7, Propagate.noProp⟩])).map adlerRefBytes
      ∧ Payload.crc32 (Payload.leaf [Segment.block (Block.new [0x74]),
          Segment.bomb ⟨[0x61, 0x62, 0x63], 7, Propagate.noProp⟩])
        = (Payload.write (Payload.leaf [Segment.block (Block.new [0x74]),
            Segment.bomb ⟨[0x61, 0x62, 0x63], 7, Propagate.noProp⟩])).map crcRefBytes) :=
  ⟨by decide, C2_checksums (Payload.leaf [Segment.block (Block.new [0x74]),
    Segment.bomb ⟨[0x61, 0x62, 0x63], 7, Propagate.noProp⟩]) (by decide)⟩

end Ied
